import Mathlib

/-!
# Reverb: the IIR building blocks of `Source/IIR.h`

A shallow embedding of the signal-processing classes of `Source/IIR.h`
(`Delay`, `Lowpass`, `Allpass`, `Allpass2`, `Reverb`) and the proofs of the
properties stated about them.

Modelling conventions.

* The classes are generic in the sample type `α` (`float` in the source).  The
  algebraic properties are proved for an arbitrary field, where arithmetic is
  exact.  `Binary32` is the sample type with the arithmetic of `float` itself
  (IEEE 754 binary32, round to nearest, ties to even) on finite values; it is
  used where a property depends on the rounding.  NaN, infinity and the sign of
  zero are outside the model.
* A `float*` argument is a `Frame α`, the function from index to sample.
* `update` of each class is a function from the object's state and the
  caller's array to the new state and the returned array.  When the source
  returns the caller's own array after writing to it (`Lowpass`, `Allpass`),
  the returned frame is that array as it stands after the call.
* Scratch arrays that are overwritten on every call before they are read
  (`Delay::outputBuffer`, the `temp` arrays, `Allpass2::output`) are values
  local to `update`; entries at or above `inputDim`, which the source never
  writes, read as `0`.
* The debug print `DBG` is omitted; `sampleCount` is kept.
* `inputDim` is a natural number.  Lag counts are `int` in the source and `Int`
  here; the constructor loop pushes nothing for a lag that is not positive.
* `cos` of the C library is a parameter `cos : α → α` of the constructors that
  use it; the concrete evaluations are over `ℝ` with `Real.cos`.
* `Matrix.h` is not among the sources; the matrix type and its operations are
  modelled from the spec.
* Calls are numbered from 1: in a run on the sequence `x`, the `k`-th call
  receives `x k`.
-/

namespace IIR

/-- A `float*` array: index to sample. -/
abbrev Frame (α : Type) := Nat → α

section VectorOps
variable {α : Type}

/-- Source `copy(n, a, b)`: `while (n--) a[n] = b[n];` and return `a`. -/
def copy : Nat → Frame α → Frame α → Frame α
  | 0, a, _ => a
  | n + 1, a, b => copy n (Function.update a n (b n)) b

/-- Source `add(n, a, b)`: `while (n--) a[n] += b[n];` and return `a`. -/
def add [Add α] : Nat → Frame α → Frame α → Frame α
  | 0, a, _ => a
  | n + 1, a, b => add n (Function.update a n (a n + b n)) b

/-- Source `mult(n, a, b)`: `while (n--) a[n] *= b;` and return `a`. -/
def mult [Mul α] : Nat → Frame α → α → Frame α
  | 0, a, _ => a
  | n + 1, a, b => mult n (Function.update a n (a n * b)) b

end VectorOps

section Run
variable {σ α : Type}

/-- State of a module after `k` calls of `step`, the `j`-th call receiving `x j`. -/
def stateAfter (step : σ → Frame α → σ × Frame α) (s : σ) (x : Nat → Frame α) : Nat → σ
  | 0 => s
  | k + 1 => (step (stateAfter step s x k) (x (k + 1))).1

/-- Frame returned by the `k`-th call (`k ≥ 1`) of `step` in a run on `x`. -/
def callOutput (step : σ → Frame α → σ × Frame α) (s : σ) (x : Nat → Frame α) (k : Nat) :
    Frame α :=
  (step (stateAfter step s x (k - 1)) (x k)).2

/-- Value of the scalar sequence `s` (indexed from call 1) `j` calls before call `n`;
zero when that is before the first call. -/
def past [Zero α] (s : Nat → α) (n j : Nat) : α :=
  if j < n then s (n - j) else 0

end Run

/-! ## The arithmetic of `float` -/

/-- The number of bits of `n`, by halving at most `fuel` times. -/
def bitLengthAux : Nat → Nat → Nat
  | 0, _ => 0
  | fuel + 1, n => if n = 0 then 0 else bitLengthAux fuel (n / 2) + 1

/-- The number of bits of `n`: `0` for `0`, and `k + 1` when `2 ^ k ≤ n < 2 ^ (k + 1)`. -/
def bitLength (n : Nat) : Nat := bitLengthAux n n

/-- Round to nearest, ties to even (IEEE 754): the natural number with at most `prec`
significant bits nearest to the quotient `p / d`.  The `e` low bits of the integer
part are dropped so that `prec` bits remain; the quotient by `d * 2 ^ e` is rounded
up when the remainder is above half, or equal to half with an odd quotient. -/
def roundNearestEven (prec p d : Nat) : Nat :=
  let e := bitLength (p / d) - prec
  let q := p / (d * 2 ^ e)
  let r := p % (d * 2 ^ e)
  (if d * 2 ^ e < 2 * r ∨ (2 * r = d * 2 ^ e ∧ q % 2 = 1) then q + 1 else q) * 2 ^ e

/-- A finite `float` (IEEE 754 binary32): the value `units * 2 ^ (-149)`, where
`2 ^ (-149)` is the smallest positive `float`. -/
structure Binary32 where
  units : Int
  deriving DecidableEq

/-- The `float` nearest to `n * 2 ^ (-149) / 2 ^ s`: 24 significant bits, and no bit
below `2 ^ (-149)`. -/
def Binary32.ofScaled (n : Int) (s : Nat) : Binary32 :=
  ⟨n.sign * (roundNearestEven 24 n.natAbs (2 ^ s) : Nat)⟩

/-- The value of a `float` as a rational number. -/
def Binary32.toRat (x : Binary32) : ℚ := x.units / 2 ^ 149

/-- The `float` zero. -/
instance Binary32.instZero : Zero Binary32 := ⟨⟨0⟩⟩

/-- Addition of `float`: the exact sum, rounded. -/
instance Binary32.instAdd : Add Binary32 :=
  ⟨fun a b => Binary32.ofScaled (a.units + b.units) 0⟩

/-- Multiplication of `float`: the exact product, rounded. -/
instance Binary32.instMul : Mul Binary32 :=
  ⟨fun a b => Binary32.ofScaled (a.units * b.units) 149⟩

/-- A decimal constant of the source passed as a `float`: the literal is a `double`
(53 significant bits, unit `2 ^ (-1074)`), which the conversion rounds to `float`.
`m` is the mantissa; the value is `m / 10 ^ e` when `s` is set and `m * 10 ^ e`
otherwise. -/
instance Binary32.instOfScientific : OfScientific Binary32 :=
  ⟨fun m s e =>
    ⟨(roundNearestEven 24
        (if s then roundNearestEven 53 (m * 2 ^ 1074) (10 ^ e)
         else roundNearestEven 53 (m * 10 ^ e * 2 ^ 1074) 1)
        (2 ^ 925) : Nat)⟩⟩

/-! ## Delay -/

/-- Class `Delay`: `inputDim` of `Module` and the array `queues` of FIFO queues.
A queue is a list whose head is the front; `push` appends at the end. -/
structure Delay (α : Type) where
  inputDim : Nat
  queues : Nat → List α

/-- The inner constructor loop `for (j = 0; j < n; j++) q.push(0);`. -/
def pushZeros {α : Type} [Zero α] : Nat → List α → List α
  | 0, q => q
  | j + 1, q => pushZeros j (q ++ [0])

/-- Constructor `Delay(inputDim, const int numDelaySamples[])`. -/
def Delay.ofArray {α : Type} [Zero α] (inputDim : Nat) (numDelaySamples : Nat → Int) : Delay α where
  inputDim := inputDim
  queues := fun i => if i < inputDim then pushZeros (numDelaySamples i).toNat [] else []

/-- Constructor `Delay(inputDim, int numDelaySamples)`. -/
def Delay.ofLag {α : Type} [Zero α] (inputDim : Nat) (numDelaySamples : Int) : Delay α where
  inputDim := inputDim
  queues := fun i => if i < inputDim then pushZeros numDelaySamples.toNat [] else []

/-- Method `Delay::update`: per channel `i < inputDim`, push `input[i]`, read the
front into `outputBuffer[i]`, pop. -/
def Delay.update {α : Type} [Zero α] (d : Delay α) (input : Frame α) : Delay α × Frame α :=
  ({ d with queues := fun i => if i < d.inputDim then (d.queues i ++ [input i]).tail
                               else d.queues i },
   fun i => if i < d.inputDim then (d.queues i ++ [input i]).headD 0 else 0)

/-- The impulse on channel `c`: `1` on the first call, `0` on every later call
and on every other channel. -/
def impulse {α : Type} [Zero α] [One α] (c : Nat) : Nat → Frame α :=
  fun k i => if k = 1 ∧ i = c then 1 else 0

/-! ## Lowpass -/

/-- Class `Lowpass`: `inputDim` and the four delay lines. -/
structure Lowpass (α : Type) where
  inputDim : Nat
  delay1 : Delay α
  delay2 : Delay α
  delay3 : Delay α
  delay4 : Delay α

/-- Constructor `Lowpass(inputDim)`: delay lines of lag 1, 2, 3 and 4. -/
def Lowpass.new {α : Type} [Zero α] (inputDim : Nat) : Lowpass α where
  inputDim := inputDim
  delay1 := Delay.ofLag inputDim 1
  delay2 := Delay.ofLag inputDim 2
  delay3 := Delay.ofLag inputDim 3
  delay4 := Delay.ofLag inputDim 4

/-- Method `Lowpass::update`.  The returned frame is the caller's array `input`
after the in-place additions and the scaling by `0.2`.  The additions, the product
and the constant `0.2` are those of the sample type. -/
def Lowpass.update {α : Type} [Zero α] [Add α] [Mul α] [OfScientific α] (lp : Lowpass α)
    (input : Frame α) : Lowpass α × Frame α :=
  let temp := copy lp.inputDim (fun _ => 0) input
  let r1 := lp.delay1.update temp
  let input := add lp.inputDim input r1.2
  let r2 := lp.delay2.update temp
  let input := add lp.inputDim input r2.2
  let r3 := lp.delay3.update temp
  let input := add lp.inputDim input r3.2
  let r4 := lp.delay4.update temp
  let input := add lp.inputDim input r4.2
  ({ lp with delay1 := r1.1, delay2 := r2.1, delay3 := r3.1, delay4 := r4.1 },
   mult lp.inputDim input 0.2)

/-! ## Allpass (delay-line backed) -/

/-- Class `Allpass`: coefficients, two feed-forward and two feedback delay
lines, the `feedback` array and `sampleCount`. -/
structure Allpass (α : Type) where
  inputDim : Nat
  R2 : α
  twoRCosTheta : α
  ff1 : Delay α
  ff2 : Delay α
  fb1 : Delay α
  fb2 : Delay α
  feedback : Frame α
  sampleCount : Int

/-- Constructor `Allpass(inputDim, R, theta)`; `cos` is the cosine of the
sample type. -/
def Allpass.new {α : Type} [Field α] (cos : α → α) (inputDim : Nat) (R theta : α) :
    Allpass α where
  inputDim := inputDim
  R2 := R * R
  twoRCosTheta := 2 * R * cos theta
  ff1 := Delay.ofLag inputDim 1
  ff2 := Delay.ofLag inputDim 2
  fb1 := Delay.ofLag inputDim 1
  fb2 := Delay.ofLag inputDim 2
  feedback := fun _ => 0
  sampleCount := 0

/-- Method `Allpass::update`.  The returned frame is the caller's array `input`
after the in-place computation. -/
def Allpass.update {α : Type} [Field α] (ap : Allpass α) (input : Frame α) :
    Allpass α × Frame α :=
  let temp := copy ap.inputDim (fun _ => 0) input
  let input := mult ap.inputDim input ap.R2
  let r1 := ap.ff1.update temp
  let input := add ap.inputDim input (mult ap.inputDim r1.2 (-ap.twoRCosTheta))
  let r2 := ap.ff2.update temp
  let input := add ap.inputDim input r2.2
  let r3 := ap.fb1.update ap.feedback
  let input := add ap.inputDim input (mult ap.inputDim r3.2 ap.twoRCosTheta)
  let r4 := ap.fb2.update ap.feedback
  let input := add ap.inputDim input (mult ap.inputDim r4.2 (-ap.R2))
  let feedback := copy ap.inputDim ap.feedback input
  ({ ap with ff1 := r1.1, ff2 := r2.1, fb1 := r3.1, fb2 := r4.1, feedback := feedback,
             sampleCount := ap.sampleCount + 1 },
   input)

/-! ## Allpass2 (state-variable backed) -/

/-- Class `Allpass2`: coefficients, the arrays `x1`, `x2`, `y1`, `y2` and
`sampleCount`. -/
structure Allpass2 (α : Type) where
  inputDim : Nat
  R2 : α
  twoRCosTheta : α
  x1 : Frame α
  x2 : Frame α
  y1 : Frame α
  y2 : Frame α
  sampleCount : Int

/-- Constructor `Allpass2(inputDim, R, theta)`. -/
def Allpass2.new {α : Type} [Field α] (cos : α → α) (inputDim : Nat) (R theta : α) :
    Allpass2 α where
  inputDim := inputDim
  R2 := R * R
  twoRCosTheta := 2 * R * cos theta
  x1 := fun _ => 0
  x2 := fun _ => 0
  y1 := fun _ => 0
  y2 := fun _ => 0
  sampleCount := 0

/-- The value stored in `output[i]` by the loop body of `Allpass2::update`. -/
def Allpass2.sample {α : Type} [Field α] (ap : Allpass2 α) (input : Frame α) (i : Nat) : α :=
  ap.R2 * input i - ap.twoRCosTheta * ap.x1 i + ap.x2 i + ap.twoRCosTheta * ap.y1 i
    - ap.R2 * ap.y2 i

/-- Method `Allpass2::update`: per channel `i < inputDim`, compute `output[i]`
and shift `x1 → x2`, `input → x1`, `y1 → y2`, `output → y1`. -/
def Allpass2.update {α : Type} [Field α] (ap : Allpass2 α) (input : Frame α) :
    Allpass2 α × Frame α :=
  ({ ap with
      x2 := fun i => if i < ap.inputDim then ap.x1 i else ap.x2 i
      x1 := fun i => if i < ap.inputDim then input i else ap.x1 i
      y2 := fun i => if i < ap.inputDim then ap.y1 i else ap.y2 i
      y1 := fun i => if i < ap.inputDim then ap.sample input i else ap.y1 i
      sampleCount := ap.sampleCount + 1 },
   fun i => if i < ap.inputDim then ap.sample input i else 0)

/-- The right-hand side of the canonical difference equation of the spec,
`a x[n] - b x[n-1] + x[n-2] + b y[n-1] - a y[n-2]`, for coefficient values `a`, `b`,
the input samples `xs` and the output samples `ys` of one channel (both indexed
from call 1, zero before). -/
def canonicalRhs {α : Type} [Field α] (a b : α) (xs ys : Nat → α) (n : Nat) : α :=
  a * xs n - b * past xs n 1 + past xs n 2 + b * past ys n 1 - a * past ys n 2

/-! ## Matrix -/

/-- Modelled from the spec: the matrix type of `Matrix.h`, which is not among the
sources.  A matrix has a row count, a column count and real coefficients. -/
structure Matrix (α : Type) where
  rows : Nat
  cols : Nat
  coef : Nat → Nat → α

/-- Modelled from the spec: construction `Matrix(rows, cols, data)` from an
explicit row-major coefficient sequence. -/
def Matrix.ofRowMajor {α : Type} [Zero α] (rows cols : Nat) (data : List α) : Matrix α where
  rows := rows
  cols := cols
  coef := fun i j => data.getD (i * cols + j) 0

/-- Modelled from the spec: diagonal-matrix construction `diag(values, n)` from a
coefficient sequence. -/
def Matrix.diag {α : Type} [Zero α] (values : List α) (n : Nat) : Matrix α where
  rows := n
  cols := n
  coef := fun i j => if i = j then values.getD i 0 else 0

/-- Modelled from the spec: matrix transpose, written `~m` in the source. -/
def Matrix.transpose {α : Type} (m : Matrix α) : Matrix α where
  rows := m.cols
  cols := m.rows
  coef := fun i j => m.coef j i

/-- Modelled from the spec: matrix-matrix multiply, written `a * b` in the source. -/
def Matrix.mul {α : Type} [Field α] (a b : Matrix α) : Matrix α where
  rows := a.rows
  cols := b.cols
  coef := fun i j => Finset.sum (Finset.range a.cols) (fun k => a.coef i k * b.coef k j)

/-- Modelled from the spec: matrix-vector multiply, written `m * v` in the source;
the result has `rows` entries. -/
def Matrix.mulVec {α : Type} [Field α] (m : Matrix α) (v : Frame α) : Frame α :=
  fun i => if i < m.rows then Finset.sum (Finset.range m.cols) (fun j => m.coef i j * v j)
           else 0

/-! ## Reverb -/

/-- Macro `NCH`. -/
def NCH : Nat := 8

/-- Class `Reverb`. -/
structure Reverb (α : Type) where
  inputDim : Nat
  inDelay : Delay α
  fbDelayLine : Delay α
  delayFilters : Lowpass α
  allpass : Allpass α
  feedBack : Frame α
  distrib : Matrix α
  outDistrib : Matrix α
  feedbackmatrix : Matrix α

/-- The literal table of the local `eigenvectors` in the constructor of `Reverb`. -/
def eigenvectorTable {α : Type} [Field α] : List α :=
  [-2.542, 1.19, -0.103, 0.196, 0.196, 1.07, 0.887, 1.075,
   -0.028, 0.419, 1.299, 0.278, 0.491, 0.581, -0.374, 0.853,
   -0.063, 0.12, -0.059, 0.684, -0.031, -0.324, 1.366, -0.432,
   0.033, -0.3, 1.142, 0.744, -0.226, -0.009, 1.475, 0.95,
   0.227, 1.462, 0.207, 0.989, 0.501, 1.215, -0.215, 0.865,
   1.013, 0.531, 1.078, 0.448, 1.018, 1.347, 0.887, 0.302,
   1.458, 1.034, 0.902, 0.084, 0.795, 0.07, -0.245, -0.182,
   1.368, -0.102, 0.352, 0.417, 0.284, 1.093, 0.267, 0.046]

/-- The literal table of the local `eigenvalues` in the constructor of `Reverb`. -/
def eigenvalueTable {α : Type} [Field α] : List α :=
  [0.912, 0.812, 0.812, 0.816, 0.921, 0.91, 0.918, 0.919]

/-- The local `eigenvectors` of the constructor of `Reverb`. -/
def eigenvectors {α : Type} [Field α] : Matrix α :=
  Matrix.ofRowMajor NCH NCH eigenvectorTable

/-- The local `eigenvalues` of the constructor of `Reverb`. -/
def eigenvalues {α : Type} [Field α] : Matrix α :=
  Matrix.diag eigenvalueTable NCH

/-- The value assigned to `feedbackmatrix` in the constructor of `Reverb`:
`eigenvectors * eigenvalues * ~eigenvectors`. -/
def feedbackMatrixValue {α : Type} [Field α] : Matrix α :=
  (eigenvectors.mul eigenvalues).mul eigenvectors.transpose

/-- Constructor `Reverb()`; `cos` is the cosine of the sample type, used by the
constructor of `allpass`. -/
def Reverb.new {α : Type} [Field α] (cos : α → α) : Reverb α where
  inputDim := 2
  inDelay := Delay.ofArray 2 (fun i => [100, 120].getD i 0)
  fbDelayLine := Delay.ofArray NCH (fun i => [123, 1402, 3860, 375, 3046, 213, 586, 100].getD i 0)
  delayFilters := Lowpass.new NCH
  allpass := Allpass.new cos NCH 0.3 0.3
  feedBack := fun _ => 0
  distrib := Matrix.ofRowMajor NCH 2
    [0.094, 0.142, -0.189, 0.124, 0.02, 0.161, 0.026, 0.023,
     0.079, -0.068, -0.134, 0.286, 0.161, -0.216, 0.086, -0.043]
  outDistrib := Matrix.ofRowMajor 2 NCH
    [-0.05, -0.207, 0.18, -0.172, -0.221, -0.287, 0.077, -0.095,
     -0.252, 0.29, -0.163, 0.064, -0.272, -0.135, 0.211, 0.085]
  feedbackmatrix := feedbackMatrixValue

/-- The array `feedBack` as the call `delayFilters.update(feedBack)` leaves it:
this is the frame that `Reverb::update` passes to `fbDelayLine.update`. -/
def Reverb.pushed {α : Type} [Field α] (s : Reverb α) : Frame α :=
  (s.delayFilters.update s.feedBack).2

/-- The frame returned by `fbDelayLine.update(feedBack)` inside `Reverb::update`. -/
def Reverb.fbReturned {α : Type} [Field α] (s : Reverb α) : Frame α :=
  (s.fbDelayLine.update s.pushed).2

/-- Method `Reverb::update`. -/
def Reverb.update {α : Type} [Field α] (s : Reverb α) (input : Frame α) :
    Reverb α × Frame α :=
  let r0 := s.inDelay.update input
  let input := s.distrib.mulVec r0.2
  let lp := s.delayFilters.update s.feedBack
  let feedBack := s.pushed
  let r1 := s.fbDelayLine.update feedBack
  let input := add NCH input r1.2
  let ap := s.allpass.update input
  let input := ap.2
  let output := s.feedbackmatrix.mulVec input
  let feedBack := copy NCH feedBack output
  ({ s with inDelay := r0.1, delayFilters := lp.1, fbDelayLine := r1.1, allpass := ap.1,
            feedBack := feedBack },
   s.outDistrib.mulVec output)

/-- A `Reverb` whose feedback network is in its constructed state: everything is as
the constructor leaves it except the input delay line `d` and the call counter `c`
of the allpass. -/
def Reverb.quiet {α : Type} [Field α] (cos : α → α) (d : Delay α) (c : Int) : Reverb α :=
  { Reverb.new cos with
      inDelay := d
      allpass := { (Reverb.new cos).allpass with sampleCount := c } }

/-- The `mixed` frame held in `feedBack` at the end of call `n` (the constructed
value for `n = 0`) in a run of a fresh `Reverb` on `x`. -/
def Reverb.mixedAfter {α : Type} [Field α] (cos : α → α) (x : Nat → Frame α) (n : Nat) :
    Frame α :=
  (stateAfter Reverb.update (Reverb.new cos) x n).feedBack

/-- The frame passed to `fbDelayLine.update` in call `n ≥ 1` of a run of a fresh
`Reverb` on `x`. -/
def Reverb.pushedAt {α : Type} [Field α] (cos : α → α) (x : Nat → Frame α) (n : Nat) :
    Frame α :=
  (stateAfter Reverb.update (Reverb.new cos) x (n - 1)).pushed

/-- The quadratic form `vᵗ m v` of the stability condition of the spec. -/
def Matrix.quadForm {α : Type} [Field α] (m : Matrix α) (v : Frame α) : α :=
  Finset.sum (Finset.range m.rows) (fun i => v i * m.mulVec v i)

/-- The squared length `vᵗ v` of the first `n` entries of `v`. -/
def sqLength {α : Type} [Field α] (n : Nat) (v : Frame α) : α :=
  Finset.sum (Finset.range n) (fun i => v i * v i)

/-- The unit vector of channel `c`. -/
def unitFrame {α : Type} [Field α] (c : Nat) : Frame α :=
  fun i => if i = c then 1 else 0

/-- The frequency response of the canonical difference equation with the
coefficients of `ap`, as a function of `zinv = e^{-iw}`:
`(a - b zinv + zinv²) / (1 - b zinv + a zinv²)`. -/
def Allpass2.response {α : Type} [Field α] (ap : Allpass2 α) (zinv : α) : α :=
  (ap.R2 - ap.twoRCosTheta * zinv + zinv ^ 2) / (1 - ap.twoRCosTheta * zinv + ap.R2 * zinv ^ 2)

/-- The frame passed to `allpass.update` in call `n ≥ 1` of a run of a fresh `Reverb`
on `x`: `distrib * inDelay.update(input)` plus the frame returned by the feedback
delay line. -/
def Reverb.networkInputAt {α : Type} [Field α] (cos : α → α) (x : Nat → Frame α) (n : Nat) :
    Frame α :=
  add NCH
    ((stateAfter Reverb.update (Reverb.new cos) x (n - 1)).distrib.mulVec
      ((stateAfter Reverb.update (Reverb.new cos) x (n - 1)).inDelay.update (x n)).2)
    (stateAfter Reverb.update (Reverb.new cos) x (n - 1)).fbReturned

/-! ## Arrays addressed by pointer -/

/-- The arrays one call of `update` can touch: the caller's array and the member
arrays of the object (`outputBuffer` of a `Delay`, `output` of an `Allpass2`, `temp`
and `feedback` of a filter, and the `outputBuffer` of the first to fourth member
delay line of a filter). -/
inductive Buf where
  | caller
  | outputBuffer
  | output
  | temp
  | feedback
  | buf1
  | buf2
  | buf3
  | buf4
  deriving DecidableEq

/-- The contents of the arrays. -/
abbrev Heap (α : Type) := Buf → Frame α

/-- Source `copy(n, a, b)` on pointers: writes the array at `a`, returns `a`. -/
def copyAt {α : Type} (n : Nat) (a b : Buf) (h : Heap α) : Heap α × Buf :=
  (Function.update h a (copy n (h a) (h b)), a)

/-- Source `add(n, a, b)` on pointers: writes the array at `a`, returns `a`. -/
def addAt {α : Type} [Add α] (n : Nat) (a b : Buf) (h : Heap α) : Heap α × Buf :=
  (Function.update h a (add n (h a) (h b)), a)

/-- Source `mult(n, a, b)` on pointers: writes the array at `a`, returns `a`. -/
def multAt {α : Type} [Mul α] (n : Nat) (a : Buf) (b : α) (h : Heap α) : Heap α × Buf :=
  (Function.update h a (mult n (h a) b), a)

/-- Method `Delay::update` on pointers: `out` is the object's `outputBuffer`.  The
loop reads `input[i]`, writes `outputBuffer[i]` for `i < inputDim`, and the method
returns `outputBuffer`. -/
def Delay.updateAt {α : Type} [Zero α] (d : Delay α) (out input : Buf) (h : Heap α) :
    Delay α × Heap α × Buf :=
  ((d.update (h input)).1,
   Function.update h out
     (fun i => if i < d.inputDim then (d.update (h input)).2 i else h out i),
   out)

/-- Method `Lowpass::update` on pointers. -/
def Lowpass.updateAt {α : Type} [Field α] (lp : Lowpass α) (input : Buf) (h : Heap α) :
    Lowpass α × Heap α × Buf :=
  let c := copyAt lp.inputDim Buf.temp input h
  let r1 := lp.delay1.updateAt Buf.buf1 Buf.temp c.1
  let a1 := addAt lp.inputDim input r1.2.2 r1.2.1
  let r2 := lp.delay2.updateAt Buf.buf2 Buf.temp a1.1
  let a2 := addAt lp.inputDim input r2.2.2 r2.2.1
  let r3 := lp.delay3.updateAt Buf.buf3 Buf.temp a2.1
  let a3 := addAt lp.inputDim input r3.2.2 r3.2.1
  let r4 := lp.delay4.updateAt Buf.buf4 Buf.temp a3.1
  let a4 := addAt lp.inputDim input r4.2.2 r4.2.1
  let m := multAt lp.inputDim input 0.2 a4.1
  ({ lp with delay1 := r1.1, delay2 := r2.1, delay3 := r3.1, delay4 := r4.1 }, m.1, m.2)

/-- Method `Allpass::update` on pointers.  The member array `feedback` is the field
`feedback` of the state: it is placed in the heap for the call and read back at the
end. -/
def Allpass.updateAt {α : Type} [Field α] (ap : Allpass α) (input : Buf) (h : Heap α) :
    Allpass α × Heap α × Buf :=
  let h0 := Function.update h Buf.feedback ap.feedback
  let c := copyAt ap.inputDim Buf.temp input h0
  let m0 := multAt ap.inputDim input ap.R2 c.1
  let r1 := ap.ff1.updateAt Buf.buf1 Buf.temp m0.1
  let s1 := multAt ap.inputDim r1.2.2 (-ap.twoRCosTheta) r1.2.1
  let a1 := addAt ap.inputDim input s1.2 s1.1
  let r2 := ap.ff2.updateAt Buf.buf2 Buf.temp a1.1
  let a2 := addAt ap.inputDim input r2.2.2 r2.2.1
  let r3 := ap.fb1.updateAt Buf.buf3 Buf.feedback a2.1
  let s3 := multAt ap.inputDim r3.2.2 ap.twoRCosTheta r3.2.1
  let a3 := addAt ap.inputDim input s3.2 s3.1
  let r4 := ap.fb2.updateAt Buf.buf4 Buf.feedback a3.1
  let s4 := multAt ap.inputDim r4.2.2 (-ap.R2) r4.2.1
  let a4 := addAt ap.inputDim input s4.2 s4.1
  let f := copyAt ap.inputDim Buf.feedback input a4.1
  ({ ap with ff1 := r1.1, ff2 := r2.1, fb1 := r3.1, fb2 := r4.1,
             feedback := f.1 Buf.feedback, sampleCount := ap.sampleCount + 1 },
   f.1, input)

/-- Method `Allpass2::update` on pointers: the loop reads `input[i]`, writes
`output[i]` for `i < inputDim`, and the method returns `output`. -/
def Allpass2.updateAt {α : Type} [Field α] (ap : Allpass2 α) (input : Buf) (h : Heap α) :
    Allpass2 α × Heap α × Buf :=
  ((ap.update (h input)).1,
   Function.update h Buf.output
     (fun i => if i < ap.inputDim then (ap.update (h input)).2 i else h Buf.output i),
   Buf.output)

/-! ## Array bounds -/

/-- An array of `capacity` entries that a loop indexes with every `i < count`. -/
structure Access where
  capacity : Nat
  count : Nat

/-- Every index the loop uses lies within the array. -/
def Access.inBounds (a : Access) : Prop := ∀ i, i < a.count → i < a.capacity

instance Access.decidableInBounds (a : Access) : Decidable a.inBounds :=
  decidable_of_iff (a.count ≤ a.capacity)
    ⟨fun h _ hi => Nat.lt_of_lt_of_le hi h,
     fun h => Nat.le_of_not_lt (fun hc => Nat.lt_irrefl _ (h _ hc))⟩

/-- Declared size of `Delay::queues`. -/
def Delay.queuesCapacity : Nat := 8

/-- Declared size of `Delay::outputBuffer`. -/
def Delay.outputBufferCapacity : Nat := 10

/-- Declared size of `Lowpass::temp`, `Allpass::temp` and `Allpass::feedback`. -/
def filterArrayCapacity : Nat := 10

/-- The lag array `new int[] {100, 120}` given to `inDelay`. -/
def Reverb.inDelayLags : List Int := [100, 120]

/-- The lag array given to `fbDelayLine`. -/
def Reverb.fbDelayLags : List Int := [123, 1402, 3860, 375, 3046, 213, 586, 100]

/-- Accesses of `copy(n, a, b)` and of `add(n, a, b)`: both arrays at every `i < n`. -/
def pairAccesses (n capA capB : Nat) : List Access := [⟨capA, n⟩, ⟨capB, n⟩]

/-- Accesses of `mult(n, a, b)`: the array at every `i < n`. -/
def multAccesses (n capA : Nat) : List Access := [⟨capA, n⟩]

/-- Accesses of the constructor `Delay(inputDim, numDelaySamples[])` with a lag array
of `lagCount` entries: `numDelaySamples[i]` and `queues[i]` for `i < inputDim`. -/
def Delay.arrayCtorAccesses (inputDim lagCount : Nat) : List Access :=
  [⟨lagCount, inputDim⟩, ⟨Delay.queuesCapacity, inputDim⟩]

/-- Accesses of the constructor `Delay(inputDim, numDelaySamples)`: `queues[i]` for
`i < inputDim`. -/
def Delay.lagCtorAccesses (inputDim : Nat) : List Access :=
  [⟨Delay.queuesCapacity, inputDim⟩]

/-- Accesses of `Delay::update(input)` for an argument array of `inputCap` entries:
`queues[i]`, `input[i]` and `outputBuffer[i]` for `i < inputDim`. -/
def Delay.updateAccesses {α : Type} (d : Delay α) (inputCap : Nat) : List Access :=
  [⟨Delay.queuesCapacity, d.inputDim⟩, ⟨inputCap, d.inputDim⟩,
   ⟨Delay.outputBufferCapacity, d.inputDim⟩]

/-- Accesses of the constructor `Lowpass(inputDim)`: those of its four delay lines. -/
def Lowpass.ctorAccesses (inputDim : Nat) : List Access :=
  Delay.lagCtorAccesses inputDim ++ Delay.lagCtorAccesses inputDim
    ++ Delay.lagCtorAccesses inputDim ++ Delay.lagCtorAccesses inputDim

/-- Accesses of `Lowpass::update(input)` for an argument array of `inputCap` entries,
statement by statement. -/
def Lowpass.updateAccesses {α : Type} (lp : Lowpass α) (inputCap : Nat) : List Access :=
  pairAccesses lp.inputDim filterArrayCapacity inputCap
    ++ lp.delay1.updateAccesses filterArrayCapacity
    ++ pairAccesses lp.inputDim inputCap Delay.outputBufferCapacity
    ++ lp.delay2.updateAccesses filterArrayCapacity
    ++ pairAccesses lp.inputDim inputCap Delay.outputBufferCapacity
    ++ lp.delay3.updateAccesses filterArrayCapacity
    ++ pairAccesses lp.inputDim inputCap Delay.outputBufferCapacity
    ++ lp.delay4.updateAccesses filterArrayCapacity
    ++ pairAccesses lp.inputDim inputCap Delay.outputBufferCapacity
    ++ multAccesses lp.inputDim inputCap

/-- Accesses of the constructor `Allpass(inputDim, R, theta)`: those of its four
delay lines. -/
def Allpass.ctorAccesses (inputDim : Nat) : List Access :=
  Delay.lagCtorAccesses inputDim ++ Delay.lagCtorAccesses inputDim
    ++ Delay.lagCtorAccesses inputDim ++ Delay.lagCtorAccesses inputDim

/-- Accesses of `Allpass::update(input)` for an argument array of `inputCap` entries,
statement by statement; the last entry is `input[0]` read by `DBG`. -/
def Allpass.updateAccesses {α : Type} (ap : Allpass α) (inputCap : Nat) : List Access :=
  pairAccesses ap.inputDim filterArrayCapacity inputCap
    ++ multAccesses ap.inputDim inputCap
    ++ ap.ff1.updateAccesses filterArrayCapacity
    ++ multAccesses ap.inputDim Delay.outputBufferCapacity
    ++ pairAccesses ap.inputDim inputCap Delay.outputBufferCapacity
    ++ ap.ff2.updateAccesses filterArrayCapacity
    ++ pairAccesses ap.inputDim inputCap Delay.outputBufferCapacity
    ++ ap.fb1.updateAccesses filterArrayCapacity
    ++ multAccesses ap.inputDim Delay.outputBufferCapacity
    ++ pairAccesses ap.inputDim inputCap Delay.outputBufferCapacity
    ++ ap.fb2.updateAccesses filterArrayCapacity
    ++ multAccesses ap.inputDim Delay.outputBufferCapacity
    ++ pairAccesses ap.inputDim inputCap Delay.outputBufferCapacity
    ++ pairAccesses ap.inputDim filterArrayCapacity inputCap
    ++ [⟨inputCap, 1⟩]

/-- Accesses of the constructor `Reverb()`: those of the constructors of `inDelay`,
`delayFilters`, `allpass` and `fbDelayLine`. -/
def Reverb.ctorAccesses : List Access :=
  Delay.arrayCtorAccesses 2 Reverb.inDelayLags.length
    ++ Lowpass.ctorAccesses NCH
    ++ Allpass.ctorAccesses NCH
    ++ Delay.arrayCtorAccesses NCH Reverb.fbDelayLags.length

/-- Accesses of `Reverb::update(input)`, statement by statement.  The argument is a
stereo frame of `inputDim` entries, `feedBack` has `NCH` entries, and the array
returned by a matrix-vector product has as many entries as the matrix has rows. -/
def Reverb.updateAccesses {α : Type} (s : Reverb α) : List Access :=
  s.inDelay.updateAccesses s.inputDim
    ++ [⟨Delay.outputBufferCapacity, s.distrib.cols⟩]
    ++ s.delayFilters.updateAccesses NCH
    ++ s.fbDelayLine.updateAccesses NCH
    ++ pairAccesses NCH s.distrib.rows Delay.outputBufferCapacity
    ++ s.allpass.updateAccesses s.distrib.rows
    ++ [⟨s.distrib.rows, s.feedbackmatrix.cols⟩]
    ++ pairAccesses NCH NCH s.feedbackmatrix.rows
    ++ [⟨s.feedbackmatrix.rows, s.outDistrib.cols⟩]

/-- The channel counts of the ten delay lines of a `Reverb`: `inDelay`, `fbDelayLine`,
the four of the lowpass and the four of the allpass. -/
def Reverb.delayChannels {α : Type} (s : Reverb α) : List Nat :=
  [s.inDelay.inputDim, s.fbDelayLine.inputDim,
   s.delayFilters.delay1.inputDim, s.delayFilters.delay2.inputDim,
   s.delayFilters.delay3.inputDim, s.delayFilters.delay4.inputDim,
   s.allpass.ff1.inputDim, s.allpass.ff2.inputDim, s.allpass.fb1.inputDim,
   s.allpass.fb2.inputDim]

/-! # Proofs -/

/-! ### Vector operations, pointwise -/

section VectorLemmas
variable {α : Type}

theorem copy_apply (n : Nat) (a b : Frame α) (i : Nat) :
    copy n a b i = if i < n then b i else a i := by
  induction n generalizing a with
  | zero => simp [copy]
  | succ n ih =>
    rw [copy, ih]
    by_cases h : i < n
    · simp [h, Nat.lt_succ_of_lt h]
    · by_cases h2 : i = n
      · subst h2; simp
      · have : ¬ i < n + 1 := by omega
        simp [h, this, Function.update_noteq h2]

theorem add_apply [Add α] (n : Nat) (a b : Frame α) (i : Nat) :
    add n a b i = if i < n then a i + b i else a i := by
  induction n generalizing a with
  | zero => simp [add]
  | succ n ih =>
    rw [add, ih]
    by_cases h : i < n
    · have h2 : i ≠ n := by omega
      simp [h, Nat.lt_succ_of_lt h, Function.update_noteq h2]
    · by_cases h2 : i = n
      · subst h2; simp
      · have : ¬ i < n + 1 := by omega
        simp [h, this, Function.update_noteq h2]

theorem mult_apply [Mul α] (n : Nat) (a : Frame α) (b : α) (i : Nat) :
    mult n a b i = if i < n then a i * b else a i := by
  induction n generalizing a with
  | zero => simp [mult]
  | succ n ih =>
    rw [mult, ih]
    by_cases h : i < n
    · have h2 : i ≠ n := by omega
      simp [h, Nat.lt_succ_of_lt h, Function.update_noteq h2]
    · by_cases h2 : i = n
      · subst h2; simp
      · have : ¬ i < n + 1 := by omega
        simp [h, this, Function.update_noteq h2]

end VectorLemmas

/-! ### Delay -/

section DelayLemmas
variable {α : Type} [Zero α]

theorem pushZeros_eq (n : Nat) (q : List α) : pushZeros n q = q ++ List.replicate n 0 := by
  induction n generalizing q with
  | zero => simp [pushZeros]
  | succ n ih =>
    rw [pushZeros, ih, List.append_assoc]
    congr 1

theorem Delay.ofLag_eq_ofArray (n : Nat) (L : Int) :
    (Delay.ofLag n L : Delay α) = Delay.ofArray n (fun _ => L) := rfl

theorem Delay.update_inputDim (d : Delay α) (input : Frame α) :
    (d.update input).1.inputDim = d.inputDim := rfl

/-- `Delay::update` reads its argument only below `inputDim`. -/
theorem Delay.update_congr (d : Delay α) (a b : Frame α)
    (h : ∀ i, i < d.inputDim → a i = b i) : d.update a = d.update b := by
  unfold Delay.update
  congr 1
  · congr 1
    funext i
    by_cases hi : i < d.inputDim
    · simp [hi, h i hi]
    · simp [hi]
  · funext i
    by_cases hi : i < d.inputDim
    · simp [hi, h i hi]
    · simp [hi]

theorem Delay.stateAfter_inputDim (d : Delay α) (x : Nat → Frame α) (k : Nat) :
    (stateAfter Delay.update d x k).inputDim = d.inputDim := by
  induction k with
  | zero => rfl
  | succ k ih => rw [stateAfter, Delay.update_inputDim, ih]

/-- The inputs of the first `k` calls on channel `i`, oldest first. -/
theorem Delay.stateAfter_queues (d : Delay α) (x : Nat → Frame α) (k i : Nat)
    (hi : i < d.inputDim) :
    (stateAfter Delay.update d x k).queues i
      = (d.queues i ++ (List.range k).map (fun j => x (j + 1) i)).drop k := by
  induction k with
  | zero => simp [stateAfter]
  | succ k ih =>
    have hd : i < (stateAfter Delay.update d x k).inputDim := by
      rw [Delay.stateAfter_inputDim]; exact hi
    simp only [stateAfter, Delay.update, hd, if_true]
    rw [ih, List.range_succ, List.map_append, List.map_singleton, ← List.append_assoc]
    have hlen : k ≤ (d.queues i ++ (List.range k).map (fun j => x (j + 1) i)).length := by
      simp
    rw [← List.drop_append_of_le_length hlen, List.tail_drop]

/-- Output of the `k`-th call as an entry of the initial queue followed by the inputs. -/
theorem Delay.callOutput_getD (d : Delay α) (x : Nat → Frame α) (k i : Nat)
    (hk : 1 ≤ k) (hi : i < d.inputDim) :
    callOutput Delay.update d x k i
      = (d.queues i ++ (List.range k).map (fun j => x (j + 1) i)).getD (k - 1) 0 := by
  obtain ⟨m, rfl⟩ : ∃ m, k = m + 1 := ⟨k - 1, by omega⟩
  have hd : i < (stateAfter Delay.update d x m).inputDim := by
    rw [Delay.stateAfter_inputDim]; exact hi
  simp only [callOutput, Delay.update, Nat.add_sub_cancel, hd, if_true]
  rw [Delay.stateAfter_queues d x m i hi]
  have hlen : m ≤ (d.queues i ++ (List.range m).map (fun j => x (j + 1) i)).length := by
    simp
  rw [← List.drop_append_of_le_length hlen, List.range_succ, List.map_append,
    List.map_singleton, ← List.append_assoc, List.headD_eq_head?_getD, List.head?_drop,
    List.getD_eq_getElem?_getD]

/-- A delay line built with lags `L` returns zero for the first `L i` calls and
then the input of `L i` calls earlier. -/
theorem Delay.callOutput_ofArray (dim : Nat) (L : Nat → Int) (x : Nat → Frame α) (k i : Nat)
    (hk : 1 ≤ k) (hi : i < dim) :
    callOutput Delay.update (Delay.ofArray dim L) x k i
      = if k ≤ (L i).toNat then 0 else x (k - (L i).toNat) i := by
  rw [Delay.callOutput_getD _ x k i hk hi]
  simp only [Delay.ofArray, hi, if_true, pushZeros_eq, List.nil_append]
  rw [List.getD_eq_getElem?_getD]
  by_cases h : k ≤ (L i).toNat
  · have h1 : k - 1 < (List.replicate (L i).toNat (0 : α)).length := by simp; omega
    rw [List.getElem?_append_left h1]
    simp [h]
  · have h1 : (List.replicate (L i).toNat (0 : α)).length ≤ k - 1 := by simp; omega
    rw [List.getElem?_append_right h1]
    have h2 : k - 1 - (L i).toNat < k := by omega
    simp [h, h2]
    congr 1
    omega

end DelayLemmas

/-- C1: `Delay::update` is an exact per-channel delay.  For a delay line built
with lag `lags i ≥ 0` on channel `i` (array constructor) or the shared lag
`lag ≥ 0` (single-lag constructor), the `k`-th call returns on channel `i` zero
when `k ≤ L` and the input of call `k - L` when `k > L`; for the impulse on
channel `i` the output is `1` on call `L + 1` and `0` on every other call. -/
theorem Delay.update_exact_delay {α : Type} [Zero α] [One α] (dim : Nat) (lags : Nat → Int)
    (lag : Int) (x : Nat → Frame α) (k i : Nat) (hk : 1 ≤ k) (hi : i < dim)
    (hlags : 0 ≤ lags i) (hlag : 0 ≤ lag) :
    callOutput Delay.update (Delay.ofArray dim lags) x k i
        = (if (k : Int) ≤ lags i then 0 else x (k - (lags i).toNat) i)
    ∧ callOutput Delay.update (Delay.ofLag dim lag) x k i
        = (if (k : Int) ≤ lag then 0 else x (k - lag.toNat) i)
    ∧ callOutput Delay.update (Delay.ofArray dim lags : Delay α) (impulse i) k i
        = (if (k : Int) = lags i + 1 then 1 else 0)
    ∧ callOutput Delay.update (Delay.ofLag dim lag : Delay α) (impulse i) k i
        = (if (k : Int) = lag + 1 then 1 else 0) := by
  have key : ∀ (L : Nat → Int) (y : Nat → Frame α), 0 ≤ L i →
      callOutput Delay.update (Delay.ofArray dim L) y k i
        = (if (k : Int) ≤ L i then 0 else y (k - (L i).toNat) i) := by
    intro L y hL
    rw [Delay.callOutput_ofArray dim L y k i hk hi]
    have : (k ≤ (L i).toNat) ↔ ((k : Int) ≤ L i) := by omega
    simp only [this]
  have imp : ∀ (L : Nat → Int), 0 ≤ L i →
      callOutput Delay.update (Delay.ofArray dim L : Delay α) (impulse i) k i
        = (if (k : Int) = L i + 1 then 1 else 0) := by
    intro L hL
    rw [key L _ hL]
    by_cases h1 : (k : Int) ≤ L i
    · have h2 : ¬ (k : Int) = L i + 1 := by omega
      simp [h1, h2]
    · have h2 : (k - (L i).toNat = 1) ↔ ((k : Int) = L i + 1) := by omega
      simp [h1, impulse, h2]
  refine ⟨key lags x hlags, ?_, imp lags hlags, ?_⟩
  · rw [Delay.ofLag_eq_ofArray]
    exact key (fun _ => lag) x hlag
  · rw [Delay.ofLag_eq_ofArray]
    exact imp (fun _ => lag) hlag

/-- C1 at a concrete input: lag 3 on two channels, the impulse on channel 0, call 4. -/
theorem Delay.update_exact_delay_witness :
    (1 ≤ 4 ∧ 0 < 2 ∧ (0 : Int) ≤ (fun _ => 3 : Nat → Int) 0 ∧ (0 : Int) ≤ 3)
    ∧ callOutput Delay.update (Delay.ofLag 2 3 : Delay ℚ) (impulse 0) 4 0 = 1 := by
  have h := Delay.update_exact_delay (α := ℚ) 2 (fun _ => 3) 3 (impulse 0) 4 0
    (by decide) (by decide) (by decide) (by decide)
  refine ⟨⟨by decide, by decide, by decide, by decide⟩, ?_⟩
  rw [h.2.2.2]
  decide

/-! ### Lowpass -/

section LowpassLemmas
variable {α : Type} [Zero α]

theorem copy_zero_agrees (n : Nat) (a : Frame α) (i : Nat) (hi : i < n) :
    copy n (fun _ => 0) a i = a i := by
  rw [copy_apply]; simp [hi]

/-- Each delay line of a fresh `Lowpass` evolves as if driven by the input alone. -/
theorem Lowpass.stateAfter_fresh [Add α] [Mul α] [OfScientific α] (dim : Nat)
    (x : Nat → Frame α) (n : Nat) :
    stateAfter Lowpass.update (Lowpass.new dim) x n
      = { inputDim := dim
          delay1 := stateAfter Delay.update (Delay.ofLag dim 1) x n
          delay2 := stateAfter Delay.update (Delay.ofLag dim 2) x n
          delay3 := stateAfter Delay.update (Delay.ofLag dim 3) x n
          delay4 := stateAfter Delay.update (Delay.ofLag dim 4) x n } := by
  induction n with
  | zero => rfl
  | succ n ih =>
    have hc : ∀ (L : Int), (stateAfter Delay.update (Delay.ofLag dim L : Delay α) x n).update
        (copy dim (fun _ => 0) (x (n + 1)))
        = (stateAfter Delay.update (Delay.ofLag dim L : Delay α) x n).update (x (n + 1)) := by
      intro L
      apply Delay.update_congr
      intro i hi
      rw [Delay.stateAfter_inputDim] at hi
      exact copy_zero_agrees dim _ i hi
    simp only [stateAfter, ih, Lowpass.update, hc]

/-- Output of a fresh `Lowpass` in terms of the outputs of its four delay lines run
on the same input. -/
theorem Lowpass.callOutput_new [Add α] [Mul α] [OfScientific α] (dim : Nat)
    (x : Nat → Frame α) (n i : Nat) (hi : i < dim) :
    callOutput Lowpass.update (Lowpass.new dim) x n i
      = (x n i + callOutput Delay.update (Delay.ofLag dim 1) x n i
          + callOutput Delay.update (Delay.ofLag dim 2) x n i
          + callOutput Delay.update (Delay.ofLag dim 3) x n i
          + callOutput Delay.update (Delay.ofLag dim 4) x n i) * 0.2 := by
  have hc : ∀ (L : Int), (stateAfter Delay.update (Delay.ofLag dim L : Delay α) x (n - 1)).update
      (copy dim (fun _ => 0) (x n))
      = (stateAfter Delay.update (Delay.ofLag dim L : Delay α) x (n - 1)).update (x n) := by
    intro L
    apply Delay.update_congr
    intro i hi
    rw [Delay.stateAfter_inputDim] at hi
    exact copy_zero_agrees dim _ i hi
  simp only [callOutput, Lowpass.stateAfter_fresh, Lowpass.update, hc, mult_apply, add_apply, hi,
    if_true]

theorem Delay.callOutput_ofLag_past (dim : Nat) (L : Nat) (x : Nat → Frame α) (n i : Nat)
    (hn : 1 ≤ n) (hi : i < dim) :
    callOutput Delay.update (Delay.ofLag dim (L : Int)) x n i = past (fun k => x k i) n L := by
  rw [Delay.ofLag_eq_ofArray, Delay.callOutput_ofArray dim _ x n i hn hi]
  simp only [Int.toNat_ofNat, past]
  by_cases h : n ≤ L
  · have : ¬ L < n := by omega
    simp [h, this]
  · have : L < n := by omega
    simp [h, this]

end LowpassLemmas

/-- C2: `Lowpass::update` is the 5-tap moving average with zero initial history.
On a fresh `Lowpass`, for every input sequence and every channel `i < inputDim`, the
`n`-th call returns `(x[n] + x[n-1] + x[n-2] + x[n-3] + x[n-4]) / 5`, samples before
the first call being zero; and after any number of calls each of the four delay
lines is in the state it reaches when driven by the input sequence itself. -/
theorem Lowpass.update_moving_average {α : Type} [Field α] [CharZero α] (dim : Nat)
    (x : Nat → Frame α) (n i : Nat) (hn : 1 ≤ n) (hi : i < dim) :
    callOutput Lowpass.update (Lowpass.new dim) x n i
        = (x n i + past (fun k => x k i) n 1 + past (fun k => x k i) n 2
            + past (fun k => x k i) n 3 + past (fun k => x k i) n 4) / 5
    ∧ (stateAfter Lowpass.update (Lowpass.new dim) x n).delay1
        = stateAfter Delay.update (Delay.ofLag dim 1) x n
    ∧ (stateAfter Lowpass.update (Lowpass.new dim) x n).delay2
        = stateAfter Delay.update (Delay.ofLag dim 2) x n
    ∧ (stateAfter Lowpass.update (Lowpass.new dim) x n).delay3
        = stateAfter Delay.update (Delay.ofLag dim 3) x n
    ∧ (stateAfter Lowpass.update (Lowpass.new dim) x n).delay4
        = stateAfter Delay.update (Delay.ofLag dim 4) x n := by
  refine ⟨?_, ?_, ?_, ?_, ?_⟩
  · rw [Lowpass.callOutput_new dim x n i hi]
    have h1 := Delay.callOutput_ofLag_past dim 1 x n i hn hi
    have h2 := Delay.callOutput_ofLag_past dim 2 x n i hn hi
    have h3 := Delay.callOutput_ofLag_past dim 3 x n i hn hi
    have h4 := Delay.callOutput_ofLag_past dim 4 x n i hn hi
    simp only [Nat.cast_ofNat, Nat.cast_one] at h1 h2 h3 h4
    rw [h1, h2, h3, h4]
    norm_num
    ring
  all_goals rw [Lowpass.stateAfter_fresh]

/-- C2 at a concrete input: the constant sequence 5 on one channel, third call. -/
theorem Lowpass.update_moving_average_witness :
    (1 ≤ 3 ∧ 0 < 1)
    ∧ callOutput Lowpass.update (Lowpass.new 1 : Lowpass ℚ) (fun _ _ => 5) 3 0 = 3 := by
  have h := (Lowpass.update_moving_average (α := ℚ) 1 (fun _ _ => 5) 3 0
    (by decide) (by decide)).1
  refine ⟨⟨by decide, by decide⟩, ?_⟩
  rw [h]
  norm_num [past]

/-! ### Allpass2 -/

section Allpass2Lemmas
variable {α : Type} [Field α]

theorem past_succ_succ [Zero β] (s : Nat → β) (n j : Nat) :
    past s (n + 1) (j + 1) = past s n j := by
  unfold past
  by_cases h : j < n
  · have h2 : j + 1 < n + 1 := by omega
    have h3 : n + 1 - (j + 1) = n - j := by omega
    simp [h, h2, h3]
  · have h2 : ¬ j + 1 < n + 1 := by omega
    simp [h, h2]

theorem past_zero_lag [Zero β] (s : Nat → β) (n : Nat) (hn : 1 ≤ n) : past s n 0 = s n := by
  unfold past
  have : 0 < n := hn
  simp [this]

theorem Allpass2.update_params (ap : Allpass2 α) (input : Frame α) :
    (ap.update input).1.inputDim = ap.inputDim ∧ (ap.update input).1.R2 = ap.R2
      ∧ (ap.update input).1.twoRCosTheta = ap.twoRCosTheta := ⟨rfl, rfl, rfl⟩

theorem Allpass2.stateAfter_params (ap : Allpass2 α) (x : Nat → Frame α) (n : Nat) :
    (stateAfter Allpass2.update ap x n).inputDim = ap.inputDim
      ∧ (stateAfter Allpass2.update ap x n).R2 = ap.R2
      ∧ (stateAfter Allpass2.update ap x n).twoRCosTheta = ap.twoRCosTheta := by
  induction n with
  | zero => exact ⟨rfl, rfl, rfl⟩
  | succ n ih =>
    obtain ⟨h1, h2, h3⟩ := Allpass2.update_params (stateAfter Allpass2.update ap x n) (x (n + 1))
    simp only [stateAfter]
    exact ⟨h1.trans ih.1, h2.trans ih.2.1, h3.trans ih.2.2⟩

/-- The four state arrays of a fresh `Allpass2` after `n` calls hold the last two
inputs and the last two outputs. -/
theorem Allpass2.stateAfter_arrays (cos : α → α) (dim : Nat) (R theta : α) (x : Nat → Frame α)
    (n i : Nat) (hi : i < dim) :
    (stateAfter Allpass2.update (Allpass2.new cos dim R theta) x n).x1 i
        = past (fun k => x k i) (n + 1) 1
    ∧ (stateAfter Allpass2.update (Allpass2.new cos dim R theta) x n).x2 i
        = past (fun k => x k i) (n + 1) 2
    ∧ (stateAfter Allpass2.update (Allpass2.new cos dim R theta) x n).y1 i
        = past (fun k => callOutput Allpass2.update (Allpass2.new cos dim R theta) x k i) (n + 1) 1
    ∧ (stateAfter Allpass2.update (Allpass2.new cos dim R theta) x n).y2 i
        = past (fun k => callOutput Allpass2.update (Allpass2.new cos dim R theta) x k i) (n + 1) 2
    := by
  induction n with
  | zero => simp [stateAfter, Allpass2.new, past]
  | succ n ih =>
    obtain ⟨h1, h2, h3, h4⟩ := ih
    have hd : i < (stateAfter Allpass2.update (Allpass2.new cos dim R theta) x n).inputDim := by
      rw [(Allpass2.stateAfter_params _ x n).1]; exact hi
    refine ⟨?_, ?_, ?_, ?_⟩
    · simp only [stateAfter, Allpass2.update, hd, if_true]
      rw [past_succ_succ, past_zero_lag _ _ (by omega)]
    · simp only [stateAfter, Allpass2.update, hd, if_true]
      rw [h1, past_succ_succ (n := n + 1)]
    · rw [past_succ_succ, past_zero_lag _ _ (by omega)]
      simp only [stateAfter, callOutput, Allpass2.update, hd, if_true, Nat.add_sub_cancel]
    · simp only [stateAfter, Allpass2.update, hd, if_true]
      rw [h3, past_succ_succ (n := n + 1)]

end Allpass2Lemmas

/-- C3: `Allpass2::update` implements the canonical difference equation.  With
`a = R * R` and `b = 2 * R * cos theta`, on a fresh `Allpass2`, for every input
sequence and channel `i < inputDim`, the `n`-th output is
`y[n] = a x[n] - b x[n-1] + x[n-2] + b y[n-1] - a y[n-2]`, where inputs and outputs
before the first call are zero. -/
theorem Allpass2.update_difference_equation {α : Type} [Field α] (cos : α → α) (dim : Nat)
    (R theta : α) (x : Nat → Frame α) (n i : Nat) (hn : 1 ≤ n) (hi : i < dim) :
    callOutput Allpass2.update (Allpass2.new cos dim R theta) x n i
      = R * R * x n i - 2 * R * cos theta * past (fun k => x k i) n 1
        + past (fun k => x k i) n 2
        + 2 * R * cos theta
            * past (fun k => callOutput Allpass2.update (Allpass2.new cos dim R theta) x k i) n 1
        - R * R
            * past (fun k => callOutput Allpass2.update (Allpass2.new cos dim R theta) x k i) n 2
    := by
  obtain ⟨m, rfl⟩ : ∃ m, n = m + 1 := ⟨n - 1, by omega⟩
  obtain ⟨h1, h2, h3, h4⟩ := Allpass2.stateAfter_arrays cos dim R theta x m i hi
  obtain ⟨p1, p2, p3⟩ := Allpass2.stateAfter_params (Allpass2.new cos dim R theta) x m
  have hd : i < (stateAfter Allpass2.update (Allpass2.new cos dim R theta) x m).inputDim := by
    rw [p1]; exact hi
  have e : callOutput Allpass2.update (Allpass2.new cos dim R theta) x (m + 1) i
      = (stateAfter Allpass2.update (Allpass2.new cos dim R theta) x m).sample (x (m + 1)) i := by
    simp only [callOutput, Allpass2.update, Nat.add_sub_cancel, hd, if_true]
  rw [e, Allpass2.sample, h1, h2, h3, h4, p2, p3]
  rfl

/-- C3 at a concrete input: one channel, `R = 1/2`, the impulse, second call. -/
theorem Allpass2.update_difference_equation_witness :
    (1 ≤ 2 ∧ 0 < 1)
    ∧ callOutput Allpass2.update (Allpass2.new (fun _ => 1) 1 (1 / 2 : ℚ) 0) (impulse 0) 2 0
        = -3 / 4 := by
  have h := Allpass2.update_difference_equation (α := ℚ) (fun _ => 1) 1 (1 / 2) 0 (impulse 0) 2 0
    (by decide) (by decide)
  refine ⟨⟨by decide, by decide⟩, ?_⟩
  rw [h]
  norm_num [past, impulse, callOutput, stateAfter, Allpass2.update, Allpass2.sample, Allpass2.new]

/-! ### Allpass -/

/-- C4: the delay-line-backed `Allpass` does not follow the canonical difference
equation written above its `update`.  For one channel, `R = 1/2`, `theta = 0` and the
impulse, the first call returns `a = 1/4`, the second call returns `-b = -1`, while
the canonical right-hand side at the second call is `-b + b a = -3/4`: the feedback
delay line of lag 1, fed the stored previous output, returns `y[n-2]`, not `y[n-1]`. -/
theorem Allpass.update_misses_difference_equation :
    callOutput Allpass.update (Allpass.new Real.cos 1 (1 / 2) 0) (impulse 0) 1 0 = 1 / 4
    ∧ callOutput Allpass.update (Allpass.new Real.cos 1 (1 / 2) 0) (impulse 0) 2 0 = -1
    ∧ canonicalRhs ((1 / 2 : ℝ) * (1 / 2)) (2 * (1 / 2) * Real.cos 0)
        (fun k => impulse 0 k 0)
        (fun k => callOutput Allpass.update (Allpass.new Real.cos 1 (1 / 2) 0) (impulse 0) k 0) 2
        = -3 / 4 := by
  have h1 : callOutput Allpass.update (Allpass.new Real.cos 1 (1 / 2) 0) (impulse 0) 1 0
      = 1 / 4 := by
    simp [callOutput, stateAfter, Allpass.update, Allpass.new, Delay.update, Delay.ofLag,
      pushZeros, impulse, mult_apply, add_apply, copy_apply]
    norm_num
  refine ⟨h1, ?_, ?_⟩
  · simp [callOutput, stateAfter, Allpass.update, Allpass.new, Delay.update, Delay.ofLag,
      pushZeros, impulse, mult_apply, add_apply, copy_apply]
  · simp only [canonicalRhs, past]
    norm_num [h1, impulse]

/-- C5: the two allpass variants are not equivalent.  Built with the same
`(n, R, theta) = (1, 1/2, 0)` and fed the impulse, they agree on the first call and
return different values on the second call: `Allpass` returns `-1`, `Allpass2`
returns `-3/4`. -/
theorem Allpass.update_differs_from_Allpass2 :
    callOutput Allpass.update (Allpass.new Real.cos 1 (1 / 2) 0) (impulse 0) 2 0 = -1
    ∧ callOutput Allpass2.update (Allpass2.new Real.cos 1 (1 / 2) 0) (impulse 0) 2 0 = -3 / 4
    ∧ callOutput Allpass.update (Allpass.new Real.cos 1 (1 / 2) 0) (impulse 0) 2 0
        ≠ callOutput Allpass2.update (Allpass2.new Real.cos 1 (1 / 2) 0) (impulse 0) 2 0 := by
  have h1 : callOutput Allpass.update (Allpass.new Real.cos 1 (1 / 2) 0) (impulse 0) 2 0
      = -1 := by
    simp [callOutput, stateAfter, Allpass.update, Allpass.new, Delay.update, Delay.ofLag,
      pushZeros, impulse, mult_apply, add_apply, copy_apply]
  have h2 : callOutput Allpass2.update (Allpass2.new Real.cos 1 (1 / 2) 0) (impulse 0) 2 0
      = -3 / 4 := by
    simp [callOutput, stateAfter, Allpass2.update, Allpass2.new, Allpass2.sample, impulse]
    norm_num
  refine ⟨h1, h2, ?_⟩
  rw [h1, h2]
  norm_num

/-! ### Steps on silence -/

section SilenceLemmas
variable {α : Type} [Field α]

theorem Delay.update_ofArray_zero (dim : Nat) (L : Nat → Int) (z : Frame α)
    (hz : ∀ i, i < dim → z i = 0) :
    (Delay.ofArray dim L).update z = (Delay.ofArray dim L, fun _ => 0) := by
  unfold Delay.update Delay.ofArray
  simp only [Prod.mk.injEq, Delay.mk.injEq, true_and]
  constructor
  · funext i
    by_cases hi : i < dim
    · simp only [hi, if_true, pushZeros_eq, List.nil_append, hz i hi]
      rw [← List.replicate_succ', List.replicate_succ, List.tail_cons]
    · simp [hi]
  · funext i
    by_cases hi : i < dim
    · simp only [hi, if_true, pushZeros_eq, List.nil_append, hz i hi]
      rw [← List.replicate_succ', List.replicate_succ, List.headD_cons]
    · simp [hi]

theorem Delay.update_ofLag_zero (dim : Nat) (L : Int) (z : Frame α)
    (hz : ∀ i, i < dim → z i = 0) :
    (Delay.ofLag dim L).update z = (Delay.ofLag dim L, fun _ => 0) := by
  rw [Delay.ofLag_eq_ofArray]
  exact Delay.update_ofArray_zero dim _ z hz

theorem copy_zero_zero (n : Nat) : copy n (fun _ => (0 : α)) (fun _ => 0) = fun _ => 0 := by
  funext i; simp [copy_apply]

theorem add_zero_zero (n : Nat) : add n (fun _ => (0 : α)) (fun _ => 0) = fun _ => 0 := by
  funext i; simp [add_apply]

theorem mult_zero (n : Nat) (c : α) : mult n (fun _ => (0 : α)) c = fun _ => 0 := by
  funext i; simp [mult_apply]

theorem Lowpass.update_zero_frame (dim : Nat) :
    (Lowpass.new dim : Lowpass α).update (fun _ => 0) = (Lowpass.new dim, fun _ => 0) := by
  have hz : ∀ i, i < dim → (fun _ => (0 : α)) i = 0 := fun _ _ => rfl
  simp only [Lowpass.update, Lowpass.new, copy_zero_zero, Delay.update_ofLag_zero dim _ _ hz,
    add_zero_zero, mult_zero]

theorem Allpass.update_zero_input (cos : α → α) (dim : Nat) (R theta : α) (c : Int) :
    ({ Allpass.new cos dim R theta with sampleCount := c }).update (fun _ => 0)
      = ({ Allpass.new cos dim R theta with sampleCount := c + 1 }, fun _ => 0) := by
  have hz : ∀ i, i < dim → (fun _ => (0 : α)) i = 0 := fun _ _ => rfl
  simp only [Allpass.update, Allpass.new, copy_zero_zero, Delay.update_ofLag_zero dim _ _ hz,
    add_zero_zero, mult_zero]

theorem Matrix.mulVec_zero (m : Matrix α) (v : Frame α) (hv : ∀ j, j < m.cols → v j = 0) :
    m.mulVec v = fun _ => 0 := by
  funext i
  unfold Matrix.mulVec
  by_cases hi : i < m.rows
  · simp only [hi, if_true]
    apply Finset.sum_eq_zero
    intro j hj
    rw [hv j (Finset.mem_range.mp hj), mul_zero]
  · simp [hi]

/-- A call whose delayed input is zero leaves the feedback network in its
constructed state and returns the zero frame. -/
theorem Reverb.update_quiet (cos : α → α) (d : Delay α) (c : Int) (x : Frame α)
    (h : ∀ i, i < 2 → (d.update x).2 i = 0) :
    (Reverb.quiet cos d c).update x = (Reverb.quiet cos (d.update x).1 (c + 1), fun _ => 0) := by
  have h0 : (Reverb.new cos).distrib.mulVec (d.update x).2 = fun _ => 0 :=
    Matrix.mulVec_zero _ _ h
  have hz8 : ∀ i, i < NCH → (fun _ => (0 : α)) i = 0 := fun _ _ => rfl
  have hp : (Reverb.quiet cos d c).pushed = fun _ => 0 := by
    simp only [Reverb.pushed, Reverb.quiet, Reverb.new, Lowpass.update_zero_frame]
  have hl : (Reverb.quiet cos d c).delayFilters.update (Reverb.quiet cos d c).feedBack
      = (Lowpass.new NCH, fun _ => 0) := by
    simp only [Reverb.quiet, Reverb.new, Lowpass.update_zero_frame]
  have hf : (Reverb.quiet cos d c).fbDelayLine.update (fun _ => 0)
      = ((Reverb.new cos).fbDelayLine, fun _ => 0) := by
    simp only [Reverb.quiet, Reverb.new, Delay.update_ofArray_zero NCH _ _ hz8]
  have ha : (Reverb.quiet cos d c).allpass.update (fun _ => 0)
      = ((Reverb.quiet cos d (c + 1)).allpass, fun _ => 0) := by
    simp only [Reverb.quiet, Reverb.new, Allpass.update_zero_input]
  have hm : ∀ m : Matrix α, m.mulVec (fun _ => 0) = fun _ => 0 :=
    fun m => Matrix.mulVec_zero m _ (fun _ _ => rfl)
  unfold Reverb.update
  simp only [hp, hl, hf]
  have h0' : (Reverb.quiet cos d c).distrib.mulVec (d.update x).2 = fun _ => 0 := h0
  have hin : (Reverb.quiet cos d c).inDelay = d := rfl
  rw [hin, h0', add_zero_zero, ha, hm, hm, copy_zero_zero]
  rfl

theorem Reverb.quiet_new (cos : α → α) :
    Reverb.quiet cos (Reverb.new cos).inDelay 0 = Reverb.new cos := rfl

/-- While the input delay line returns zero, a fresh `Reverb` stays in its
constructed state (input delay line and call counter apart) and returns zero. -/
theorem Reverb.stateAfter_quiet (cos : α → α) (x : Nat → Frame α) (N : Nat)
    (h : ∀ k, 1 ≤ k → k ≤ N → ∀ i, i < 2 →
      callOutput Delay.update (Reverb.new cos).inDelay x k i = 0)
    (n : Nat) (hn : n ≤ N) :
    stateAfter Reverb.update (Reverb.new cos) x n
      = Reverb.quiet cos (stateAfter Delay.update (Reverb.new cos).inDelay x n) n := by
  induction n with
  | zero => rfl
  | succ n ih =>
    have hk := h (n + 1) (by omega) hn
    simp only [callOutput, Nat.add_sub_cancel] at hk
    simp only [stateAfter]
    rw [ih (by omega), Reverb.update_quiet cos _ _ _ hk]
    simp

theorem Reverb.callOutput_quiet (cos : α → α) (x : Nat → Frame α) (N : Nat)
    (h : ∀ k, 1 ≤ k → k ≤ N → ∀ i, i < 2 →
      callOutput Delay.update (Reverb.new cos).inDelay x k i = 0)
    (n : Nat) (h1 : 1 ≤ n) (hn : n ≤ N) :
    callOutput Reverb.update (Reverb.new cos) x n = fun _ => 0 := by
  have hk := h n h1 hn
  simp only [callOutput] at hk
  simp only [callOutput]
  rw [Reverb.stateAfter_quiet cos x N h (n - 1) (by omega), Reverb.update_quiet cos _ _ _ hk]

/-- The input delay line of a fresh `Reverb` fed only zero frames stays as built. -/
theorem Reverb.inDelay_stateAfter_zero (cos : α → α) (n : Nat) :
    stateAfter Delay.update (Reverb.new cos).inDelay (fun _ _ => (0 : α)) n
      = (Reverb.new cos).inDelay := by
  induction n with
  | zero => rfl
  | succ n ih =>
    simp only [stateAfter]
    rw [ih]
    simp only [Reverb.new]
    rw [Delay.update_ofArray_zero 2 _ _ (fun _ _ => rfl)]

theorem Reverb.inDelay_callOutput (cos : α → α) (x : Nat → Frame α) (k i : Nat)
    (hk : 1 ≤ k) (hi : i < 2) :
    callOutput Delay.update (Reverb.new cos).inDelay x k i
      = past (fun j => x j i) k ([100, 120].getD i 0) := by
  have h := Delay.callOutput_ofArray (α := α) 2 (fun i => [100, 120].getD i 0) x k i hk hi
  simp only [Reverb.new]
  rw [h]
  have hcases : i = 0 ∨ i = 1 := by omega
  rcases hcases with rfl | rfl
  · simp only [List.getD_cons_zero, past]
    by_cases h1 : k ≤ 100
    · have h2 : ¬ 100 < k := by omega
      simp [h1, h2]
    · have h2 : 100 < k := by omega
      simp [h1, h2]
  · simp only [List.getD_cons_succ, List.getD_cons_zero, past]
    by_cases h1 : k ≤ 120
    · have h2 : ¬ 120 < k := by omega
      simp [h1, h2]
    · have h2 : 120 < k := by omega
      simp [h1, h2]

end SilenceLemmas

/-- C8: silence preservation.  A fresh `Reverb` fed only `[0, 0]` frames returns the
zero frame on every call (call `n + 1` for every `n`), and after every number `n` of
such calls all delay
queues (input delay, feedback delay line, the four of the lowpass, the four of the
allpass), the feedback array of the allpass and the feedback state are as the
constructor built them, that is all zero. -/
theorem Reverb.update_preserves_silence {α : Type} [Field α] (cos : α → α) (n : Nat) :
    callOutput Reverb.update (Reverb.new cos) (fun _ _ => (0 : α)) (n + 1) = (fun _ => 0)
    ∧ (stateAfter Reverb.update (Reverb.new cos) (fun _ _ => (0 : α)) n).inDelay
        = (Reverb.new cos).inDelay
    ∧ (stateAfter Reverb.update (Reverb.new cos) (fun _ _ => (0 : α)) n).fbDelayLine
        = (Reverb.new cos).fbDelayLine
    ∧ (stateAfter Reverb.update (Reverb.new cos) (fun _ _ => (0 : α)) n).delayFilters
        = (Reverb.new cos).delayFilters
    ∧ (stateAfter Reverb.update (Reverb.new cos) (fun _ _ => (0 : α)) n).allpass.ff1
        = (Reverb.new cos).allpass.ff1
    ∧ (stateAfter Reverb.update (Reverb.new cos) (fun _ _ => (0 : α)) n).allpass.ff2
        = (Reverb.new cos).allpass.ff2
    ∧ (stateAfter Reverb.update (Reverb.new cos) (fun _ _ => (0 : α)) n).allpass.fb1
        = (Reverb.new cos).allpass.fb1
    ∧ (stateAfter Reverb.update (Reverb.new cos) (fun _ _ => (0 : α)) n).allpass.fb2
        = (Reverb.new cos).allpass.fb2
    ∧ (stateAfter Reverb.update (Reverb.new cos) (fun _ _ => (0 : α)) n).allpass.feedback
        = (fun _ => 0)
    ∧ (stateAfter Reverb.update (Reverb.new cos) (fun _ _ => (0 : α)) n).feedBack
        = (fun _ => 0) := by
  have h : ∀ k, 1 ≤ k → k ≤ n + 1 → ∀ i, i < 2 →
      callOutput Delay.update (Reverb.new cos).inDelay (fun _ _ => (0 : α)) k i = 0 := by
    intro k hk _ i hi
    rw [Reverb.inDelay_callOutput cos _ k i hk hi]
    unfold past
    split <;> rfl
  have hs := Reverb.stateAfter_quiet cos (fun _ _ => (0 : α)) (n + 1) h n (by omega)
  rw [Reverb.inDelay_stateAfter_zero] at hs
  refine ⟨Reverb.callOutput_quiet cos _ (n + 1) h (n + 1) (by omega) (le_refl _), ?_⟩
  rw [hs]
  exact ⟨rfl, rfl, rfl, rfl, rfl, rfl, rfl, rfl, rfl⟩

/-- C9: network latency.  For a fresh `Reverb` and every input sequence, each of the
first 100 calls returns the zero frame. -/
theorem Reverb.update_first_hundred_zero {α : Type} [Field α] (cos : α → α)
    (x : Nat → Frame α) (n : Nat) (h1 : 1 ≤ n) (h100 : n ≤ 100) :
    callOutput Reverb.update (Reverb.new cos) x n = fun _ => 0 := by
  apply Reverb.callOutput_quiet cos x 100 _ n h1 h100
  intro k hk hk100 i hi
  rw [Reverb.inDelay_callOutput cos x k i hk hi]
  have hcases : i = 0 ∨ i = 1 := by omega
  have hlt : ¬ ([100, 120].getD i 0 < k) := by
    rcases hcases with rfl | rfl
    · simp only [List.getD_cons_zero]; omega
    · simp only [List.getD_cons_succ, List.getD_cons_zero]; omega
  unfold past
  rw [if_neg hlt]

/-- C9 at a concrete input: the impulse `[1, 0]` then zeros, call 100, left channel. -/
theorem Reverb.update_first_hundred_zero_witness :
    (1 ≤ 100 ∧ 100 ≤ 100)
    ∧ callOutput Reverb.update (Reverb.new Real.cos) (impulse 0) 100 0 = 0 := by
  have h := Reverb.update_first_hundred_zero Real.cos (impulse 0) 100 (by decide) (by decide)
  exact ⟨⟨by decide, by decide⟩, by rw [h]⟩

/-! ### The loop of `Reverb::update` -/

theorem callOutput_succ {σ α : Type} (step : σ → Frame α → σ × Frame α) (s : σ)
    (x : Nat → Frame α) (n : Nat) :
    callOutput step s x (n + 1) = (step (stateAfter step s x n) (x (n + 1))).2 := rfl

section ReverbLemmas
variable {α : Type} [Field α]

theorem Reverb.mixedAfter_succ (cos : α → α) (x : Nat → Frame α) (n : Nat) :
    Reverb.mixedAfter cos x (n + 1)
      = ((stateAfter Reverb.update (Reverb.new cos) x n).update (x (n + 1))).1.feedBack := rfl

theorem Reverb.update_consts (s : Reverb α) (x : Frame α) :
    (s.update x).1.distrib = s.distrib ∧ (s.update x).1.outDistrib = s.outDistrib
      ∧ (s.update x).1.feedbackmatrix = s.feedbackmatrix := ⟨rfl, rfl, rfl⟩

theorem Reverb.stateAfter_consts (s : Reverb α) (x : Nat → Frame α) (n : Nat) :
    (stateAfter Reverb.update s x n).distrib = s.distrib
      ∧ (stateAfter Reverb.update s x n).outDistrib = s.outDistrib
      ∧ (stateAfter Reverb.update s x n).feedbackmatrix = s.feedbackmatrix := by
  induction n with
  | zero => exact ⟨rfl, rfl, rfl⟩
  | succ n ih =>
    obtain ⟨h1, h2, h3⟩ := Reverb.update_consts (stateAfter Reverb.update s x n) (x (n + 1))
    simp only [stateAfter]
    exact ⟨h1.trans ih.1, h2.trans ih.2.1, h3.trans ih.2.2⟩

/-- The input delay line of a `Reverb` is driven by the raw input alone. -/
theorem Reverb.stateAfter_inDelay (s : Reverb α) (x : Nat → Frame α) (n : Nat) :
    (stateAfter Reverb.update s x n).inDelay = stateAfter Delay.update s.inDelay x n := by
  induction n with
  | zero => rfl
  | succ n ih =>
    simp only [stateAfter]
    rw [← ih]
    rfl

/-- The lowpass of a `Reverb` is driven by the sequence of stored feedback states. -/
theorem Reverb.stateAfter_delayFilters (s : Reverb α) (x : Nat → Frame α) (n : Nat) :
    (stateAfter Reverb.update s x n).delayFilters
      = stateAfter Lowpass.update s.delayFilters
          (fun k => (stateAfter Reverb.update s x (k - 1)).feedBack) n := by
  induction n with
  | zero => rfl
  | succ n ih =>
    simp only [stateAfter, Nat.add_sub_cancel]
    rw [← ih]
    rfl

theorem Delay.update_ofLag_out (dim : Nat) (L : Int) (hL : 1 ≤ L.toNat) (t : Frame α) (i : Nat) :
    ((Delay.ofLag dim L).update t).2 i = 0 := by
  unfold Delay.update Delay.ofLag
  by_cases hi : i < dim
  · obtain ⟨m, hm⟩ : ∃ m, L.toNat = m + 1 := ⟨L.toNat - 1, by omega⟩
    simp only [hi, if_true, pushZeros_eq, List.nil_append, hm, List.replicate_succ,
      List.cons_append, List.headD_cons]
  · simp only [hi, if_false]

/-- First call of a freshly built `Allpass` (any call counter): the four delay lines
return zero, so the output is `R * R` times the input. -/
theorem Allpass.update_first_call (cos : α → α) (dim : Nat) (R theta : α) (c : Int)
    (u : Frame α) (i : Nat) (hi : i < dim) :
    (({ Allpass.new cos dim R theta with sampleCount := c }).update u).2 i = u i * (R * R) := by
  simp only [Allpass.update, Allpass.new, add_apply, mult_apply, hi, if_true,
    Delay.update_ofLag_out dim 1 (by decide), Delay.update_ofLag_out dim 2 (by decide),
    zero_mul, add_zero]

/-- First call of a freshly built `Lowpass`: the four delay lines return zero, so
the caller's array is scaled by `0.2`. -/
theorem Lowpass.update_first_call_scaled (dim : Nat) (v : Frame α) (i : Nat) (hi : i < dim) :
    ((Lowpass.new dim).update v).2 i = v i * 0.2 := by
  simp only [Lowpass.update, Lowpass.new, add_apply, mult_apply, hi, if_true,
    Delay.update_ofLag_out dim 1 (by decide), Delay.update_ofLag_out dim 2 (by decide),
    Delay.update_ofLag_out dim 3 (by decide), Delay.update_ofLag_out dim 4 (by decide),
    add_zero]

/-- The feedback state stored by a call made while the feedback network is in its
constructed state. -/
theorem Reverb.update_quiet_feedBack (cos : α → α) (d : Delay α) (c : Int) (x : Frame α)
    (i : Nat) (hi : i < NCH) :
    ((Reverb.quiet cos d c).update x).1.feedBack i
      = (Reverb.new cos).feedbackmatrix.mulVec
          (fun j => if j < NCH then (Reverb.new cos).distrib.mulVec (d.update x).2 j * (0.3 * 0.3)
                    else 0) i := by
  have hz8 : ∀ i, i < NCH → (fun _ => (0 : α)) i = 0 := fun _ _ => rfl
  have hp : (Reverb.quiet cos d c).pushed = fun _ => 0 := by
    simp only [Reverb.pushed, Reverb.quiet, Reverb.new, Lowpass.update_zero_frame]
  have hf : (Reverb.quiet cos d c).fbDelayLine.update (fun _ => 0)
      = ((Reverb.new cos).fbDelayLine, fun _ => 0) := by
    simp only [Reverb.quiet, Reverb.new, Delay.update_ofArray_zero NCH _ _ hz8]
  show copy NCH (Reverb.quiet cos d c).pushed ((Reverb.quiet cos d c).feedbackmatrix.mulVec
      ((Reverb.quiet cos d c).allpass.update
        (add NCH ((Reverb.quiet cos d c).distrib.mulVec (d.update x).2)
          ((Reverb.quiet cos d c).fbDelayLine.update (Reverb.quiet cos d c).pushed).2)).2) i = _
  rw [copy_apply, if_pos hi, hp, hf]
  show (Reverb.new cos).feedbackmatrix.mulVec _ i = _
  unfold Matrix.mulVec
  by_cases hr : i < (Reverb.new cos).feedbackmatrix.rows
  · simp only [hr, if_true]
    apply Finset.sum_congr rfl
    intro j hj
    have hj8 : j < NCH := Finset.mem_range.mp hj
    congr 1
    have := Allpass.update_first_call cos NCH 0.3 0.3 c
      (add NCH (fun i => if i < (Reverb.new cos).distrib.rows then
        Finset.sum (Finset.range (Reverb.new cos).distrib.cols)
          (fun j => (Reverb.new cos).distrib.coef i j * (d.update x).2 j) else 0)
        (fun _ => 0)) j hj8
    simp only [add_apply, hj8, if_true, add_zero] at this
    simp only [hj8, if_true]
    exact this
  · simp only [hr, if_false]

/-- The frame passed to the feedback delay line is the output of the lowpass run on
the sequence of stored feedback states. -/
theorem Reverb.pushedAt_succ (cos : α → α) (x : Nat → Frame α) (n : Nat) :
    Reverb.pushedAt cos x (n + 1)
      = callOutput Lowpass.update (Lowpass.new NCH)
          (fun k => Reverb.mixedAfter cos x (k - 1)) (n + 1) := by
  unfold Reverb.pushedAt Reverb.pushed callOutput
  simp only [Nat.add_sub_cancel]
  rw [Reverb.stateAfter_delayFilters]
  rfl

/-- During the first 100 calls the feedback network of a fresh `Reverb` stays in its
constructed state. -/
theorem Reverb.stateAfter_first_hundred (cos : α → α) (x : Nat → Frame α) (n : Nat)
    (hn : n ≤ 100) :
    stateAfter Reverb.update (Reverb.new cos) x n
      = Reverb.quiet cos (stateAfter Delay.update (Reverb.new cos).inDelay x n) n := by
  apply Reverb.stateAfter_quiet cos x 100 _ n hn
  intro k hk hk100 i hi
  rw [Reverb.inDelay_callOutput cos x k i hk hi]
  have hcases : i = 0 ∨ i = 1 := by omega
  have hlt : ¬ ([100, 120].getD i 0 < k) := by
    rcases hcases with rfl | rfl
    · simp only [List.getD_cons_zero]; omega
    · simp only [List.getD_cons_succ, List.getD_cons_zero]; omega
  unfold past
  rw [if_neg hlt]

theorem Reverb.mixedAfter_first_hundred (cos : α → α) (x : Nat → Frame α) (n : Nat)
    (hn : n ≤ 100) : Reverb.mixedAfter cos x n = fun _ => 0 := by
  unfold Reverb.mixedAfter
  rw [Reverb.stateAfter_first_hundred cos x n hn]
  rfl

end ReverbLemmas

/-! ### The feedback matrix -/

/-- Entry `(i, j)` of `eigenvectors * eigenvalues * ~eigenvectors` as a single sum. -/
theorem feedbackMatrixValue_coef {α : Type} [Field α] (i j : Nat) :
    (feedbackMatrixValue : Matrix α).coef i j
      = Finset.sum (Finset.range 8) (fun k =>
          eigenvectorTable.getD (i * 8 + k) 0 * eigenvalueTable.getD k 0
            * eigenvectorTable.getD (j * 8 + k) 0) := by
  simp only [feedbackMatrixValue, Matrix.mul, Matrix.transpose, eigenvectors, eigenvalues,
    Matrix.diag, Matrix.ofRowMajor, NCH]
  apply Finset.sum_congr rfl
  intro k hk
  congr 1
  rw [Finset.sum_eq_single k]
  · simp
  · intro l _ hlk
    simp [hlk]
  · intro h
    exact absurd hk h

theorem feedbackMatrixValue_coef_0_0 :
    (feedbackMatrixValue : Matrix ℝ).coef 0 0 = 1988895477 / 200000000 := by
  rw [feedbackMatrixValue_coef]
  simp only [Finset.sum_range_succ, Finset.sum_range_zero, eigenvectorTable, eigenvalueTable]
  norm_num

theorem feedbackMatrixValue_coef_0_1 :
    (feedbackMatrixValue : Matrix ℝ).coef 0 1 = 1598120473 / 1000000000 := by
  rw [feedbackMatrixValue_coef]
  simp only [Finset.sum_range_succ, Finset.sum_range_zero, eigenvectorTable, eigenvalueTable]
  norm_num

theorem feedbackMatrixValue_coef_0_2 :
    (feedbackMatrixValue : Matrix ℝ).coef 0 2 = 37038323 / 50000000 := by
  rw [feedbackMatrixValue_coef]
  simp only [Finset.sum_range_succ, Finset.sum_range_zero, eigenvectorTable, eigenvalueTable]
  norm_num

theorem feedbackMatrixValue_coef_0_3 :
    (feedbackMatrixValue : Matrix ℝ).coef 0 3 = 218387903 / 125000000 := by
  rw [feedbackMatrixValue_coef]
  simp only [Finset.sum_range_succ, Finset.sum_range_zero, eigenvectorTable, eigenvalueTable]
  norm_num

theorem feedbackMatrixValue_coef_0_4 :
    (feedbackMatrixValue : Matrix ℝ).coef 0 4 = 596056471 / 200000000 := by
  rw [feedbackMatrixValue_coef]
  simp only [Finset.sum_range_succ, Finset.sum_range_zero, eigenvectorTable, eigenvalueTable]
  norm_num

theorem feedbackMatrixValue_coef_0_5 :
    (feedbackMatrixValue : Matrix ℝ).coef 0 5 = 41380683 / 62500000 := by
  rw [feedbackMatrixValue_coef]
  simp only [Finset.sum_range_succ, Finset.sum_range_zero, eigenvectorTable, eigenvalueTable]
  norm_num

theorem feedbackMatrixValue_coef_0_6 :
    (feedbackMatrixValue : Matrix ℝ).coef 0 6 = -130529353 / 50000000 := by
  rw [feedbackMatrixValue_coef]
  simp only [Finset.sum_range_succ, Finset.sum_range_zero, eigenvectorTable, eigenvalueTable]
  norm_num

theorem feedbackMatrixValue_coef_0_7 :
    (feedbackMatrixValue : Matrix ℝ).coef 0 7 = -231796597 / 125000000 := by
  rw [feedbackMatrixValue_coef]
  simp only [Finset.sum_range_succ, Finset.sum_range_zero, eigenvectorTable, eigenvalueTable]
  norm_num

/-- Channel 0 of `feedbackmatrix * (0.09 * distrib * xd)` for the delayed input
`xd = [1, 0]`. -/
theorem Reverb.mixed_numeric (cos : ℝ → ℝ) (xd : Frame ℝ) (h0 : xd 0 = 1) (h1 : xd 1 = 0) :
    (Reverb.new cos).feedbackmatrix.mulVec
      (fun j => if j < NCH then (Reverb.new cos).distrib.mulVec xd j * (0.3 * 0.3) else 0) 0
      = 1169629488513 / 50000000000000 := by
  have hd : ∀ j, (Reverb.new cos).distrib.mulVec xd j
      = if j < 8 then (Reverb.new cos).distrib.coef j 0 else 0 := by
    intro j
    simp only [Matrix.mulVec, Reverb.new, Matrix.ofRowMajor, NCH, Finset.sum_range_succ,
      Finset.sum_range_zero, h0, h1, mul_one, mul_zero, add_zero, zero_add]
  have hF : (Reverb.new cos).feedbackmatrix = feedbackMatrixValue := rfl
  have hr : (feedbackMatrixValue : Matrix ℝ).rows = 8 := rfl
  have hc : (feedbackMatrixValue : Matrix ℝ).cols = 8 := rfl
  simp only [hd, hF]
  unfold Matrix.mulVec
  rw [hr, hc]
  simp only [Finset.sum_range_succ, Finset.sum_range_zero, feedbackMatrixValue_coef_0_0,
    feedbackMatrixValue_coef_0_1, feedbackMatrixValue_coef_0_2, feedbackMatrixValue_coef_0_3,
    feedbackMatrixValue_coef_0_4, feedbackMatrixValue_coef_0_5, feedbackMatrixValue_coef_0_6,
    feedbackMatrixValue_coef_0_7]
  simp only [Reverb.new, Matrix.ofRowMajor, NCH]
  norm_num

/-- The `mixed` frame of call 101, channel 0, for the impulse `[1, 0]`. -/
theorem Reverb.mixedAfter_impulse_101 :
    Reverb.mixedAfter Real.cos (impulse 0) 101 0 = 1169629488513 / 50000000000000 := by
  have h100 := Reverb.stateAfter_first_hundred Real.cos (impulse 0) 100 (le_refl _)
  have e0 : past (fun j => impulse (α := ℝ) 0 j 0) (100 + 1) ([100, 120].getD 0 0) = 1 := by
    simp [past, impulse]
  have e1 : past (fun j => impulse (α := ℝ) 0 j 1) (100 + 1) ([100, 120].getD 1 0) = 0 := by
    simp [past, impulse]
  have hx0 := Reverb.inDelay_callOutput Real.cos (impulse 0) (100 + 1) 0 (by omega) (by omega)
  have hx1 := Reverb.inDelay_callOutput Real.cos (impulse 0) (100 + 1) 1 (by omega) (by omega)
  rw [callOutput_succ, e0] at hx0
  rw [callOutput_succ, e1] at hx1
  show Reverb.mixedAfter Real.cos (impulse 0) (100 + 1) 0 = _
  rw [Reverb.mixedAfter_succ, h100, Reverb.update_quiet_feedBack Real.cos _ _ _ 0 (by decide)]
  exact Reverb.mixed_numeric Real.cos _ hx0 hx1

theorem feedbackMatrixValue_symm {α : Type} [Field α] (i j : Nat) :
    (feedbackMatrixValue : Matrix α).coef i j = (feedbackMatrixValue : Matrix α).coef j i := by
  rw [feedbackMatrixValue_coef, feedbackMatrixValue_coef]
  apply Finset.sum_congr rfl
  intro k _
  ring

theorem feedbackMatrixValue_diag_nonneg (i : Nat) :
    0 ≤ (feedbackMatrixValue : Matrix ℝ).coef i i := by
  rw [feedbackMatrixValue_coef]
  apply Finset.sum_nonneg
  intro k hk
  have hk8 : k < 8 := Finset.mem_range.mp hk
  have hl : (0 : ℝ) ≤ eigenvalueTable.getD k 0 := by
    interval_cases k <;> simp [eigenvalueTable] <;> norm_num
  have : eigenvectorTable.getD (i * 8 + k) (0 : ℝ) * eigenvalueTable.getD k 0
      * eigenvectorTable.getD (i * 8 + k) 0
      = eigenvalueTable.getD k 0 * (eigenvectorTable.getD (i * 8 + k) 0) ^ 2 := by ring
  rw [this]
  exact mul_nonneg hl (sq_nonneg _)


/-- C7: `Reverb::update` closes the loop.  In call `n + 1` of a run of a fresh `Reverb`,
let `xd` be the frame returned by the input delay line (the input delayed by 100
samples on channel 0 and 120 on channel 1), `u = distrib * xd + d` with `d` the frame
returned by the feedback delay line in this call, and `m = feedbackmatrix * allpass(u)`.
Then the feedback state held after the call equals `m` on the 8 channels and the
returned frame is `outDistrib * m`. -/
theorem Reverb.update_closes_loop {α : Type} [Field α] (cos : α → α) (x : Nat → Frame α)
    (n : Nat) :
    let s := stateAfter Reverb.update (Reverb.new cos) x n
    let xd := callOutput Delay.update (Reverb.new cos).inDelay x (n + 1)
    let u := add NCH ((Reverb.new cos).distrib.mulVec xd) s.fbReturned
    let m := (Reverb.new cos).feedbackmatrix.mulVec (s.allpass.update u).2
    (∀ i, i < 2 → xd i = past (fun j => x j i) (n + 1) ([100, 120].getD i 0))
    ∧ (∀ i, i < NCH → Reverb.mixedAfter cos x (n + 1) i = m i)
    ∧ callOutput Reverb.update (Reverb.new cos) x (n + 1)
        = (Reverb.new cos).outDistrib.mulVec m := by
  intro s xd u m
  obtain ⟨c1, c2, c3⟩ := Reverb.stateAfter_consts (Reverb.new cos) x n
  have hd : (s.inDelay.update (x (n + 1))).2 = xd := by
    show ((stateAfter Reverb.update (Reverb.new cos) x n).inDelay.update (x (n + 1))).2 = _
    rw [Reverb.stateAfter_inDelay]
    rfl
  have hm : s.feedbackmatrix.mulVec
      (s.allpass.update (add NCH (s.distrib.mulVec (s.inDelay.update (x (n + 1))).2)
        (s.fbDelayLine.update s.pushed).2)).2 = m := by
    rw [hd]
    show (stateAfter Reverb.update (Reverb.new cos) x n).feedbackmatrix.mulVec
      ((stateAfter Reverb.update (Reverb.new cos) x n).allpass.update
        (add NCH ((stateAfter Reverb.update (Reverb.new cos) x n).distrib.mulVec xd)
          s.fbReturned)).2 = _
    rw [c1, c3]
  refine ⟨fun i hi => Reverb.inDelay_callOutput cos x (n + 1) i (by omega) hi, ?_, ?_⟩
  · intro i hi
    show copy NCH s.pushed (s.feedbackmatrix.mulVec
      (s.allpass.update (add NCH (s.distrib.mulVec (s.inDelay.update (x (n + 1))).2)
        (s.fbDelayLine.update s.pushed).2)).2) i = m i
    rw [hm, copy_apply, if_pos hi]
  · show s.outDistrib.mulVec (s.feedbackmatrix.mulVec
      (s.allpass.update (add NCH (s.distrib.mulVec (s.inDelay.update (x (n + 1))).2)
        (s.fbDelayLine.update s.pushed).2)).2) = _
    rw [hm]
    show (stateAfter Reverb.update (Reverb.new cos) x n).outDistrib.mulVec m = _
    rw [c2]

end IIR

/-! ### The eigenvalues of the feedback matrix -/

/-- The feedback matrix has a real eigenvalue above 1, with a non-zero eigenvector. -/
theorem feedbackMatrixValue_eigenvalue_gt_one :
    ∃ (mu : ℝ) (v : IIR.Frame ℝ), 1 < mu ∧ (∃ i, i < 8 ∧ v i ≠ 0)
      ∧ ∀ i, i < 8 → IIR.Matrix.mulVec (IIR.Reverb.new Real.cos).feedbackmatrix v i = mu * v i := by
  let A : Matrix (Fin 8) (Fin 8) ℝ :=
    Matrix.of (fun i j => (IIR.feedbackMatrixValue : IIR.Matrix ℝ).coef i j)
  have hH : A.IsHermitian := by
    ext i j
    simp only [Matrix.conjTranspose_apply, star_trivial, A, Matrix.of_apply]
    exact IIR.feedbackMatrixValue_symm _ _
  have htr : A.trace = ∑ i, hH.eigenvalues i := by
    have h := congrArg Matrix.trace hH.star_mul_self_mul_eq_diagonal
    have hu : (hH.eigenvectorUnitary : Matrix (Fin 8) (Fin 8) ℝ)
        * star (hH.eigenvectorUnitary : Matrix (Fin 8) (Fin 8) ℝ) = 1 :=
      (Matrix.mem_unitaryGroup_iff).mp hH.eigenvectorUnitary.2
    rw [Matrix.trace_mul_cycle, hu, one_mul, Matrix.trace_diagonal] at h
    rw [h]
    rfl
  have hbig : (8 : ℝ) < A.trace := by
    have h0 : A.trace = ∑ i : Fin 8, (IIR.feedbackMatrixValue : IIR.Matrix ℝ).coef i i := rfl
    rw [h0]
    have h1 : (IIR.feedbackMatrixValue : IIR.Matrix ℝ).coef ((0 : Fin 8) : ℕ) ((0 : Fin 8) : ℕ)
        ≤ ∑ i : Fin 8, (IIR.feedbackMatrixValue : IIR.Matrix ℝ).coef i i :=
      Finset.single_le_sum (f := fun i : Fin 8 =>
        (IIR.feedbackMatrixValue : IIR.Matrix ℝ).coef i i)
        (fun i _ => IIR.feedbackMatrixValue_diag_nonneg i) (Finset.mem_univ 0)
    have h2 := IIR.feedbackMatrixValue_coef_0_0
    simp only [Fin.val_zero] at h1
    rw [h2] at h1
    linarith
  have hex : ∃ j, 1 < hH.eigenvalues j := by
    by_contra hcon
    push_neg at hcon
    have : ∑ i, hH.eigenvalues i ≤ ∑ _i : Fin 8, (1 : ℝ) := Finset.sum_le_sum (fun i _ => hcon i)
    simp at this
    linarith
  obtain ⟨j, hj⟩ := hex
  refine ⟨hH.eigenvalues j, fun i => if h : i < 8 then hH.eigenvectorBasis j ⟨i, h⟩ else 0,
    hj, ?_, ?_⟩
  · by_contra hcon
    push_neg at hcon
    have hz : hH.eigenvectorBasis j = 0 := by
      ext i
      have := hcon i i.2
      simpa using this
    have hn := hH.eigenvectorBasis.orthonormal.1 j
    rw [hz] at hn
    simp at hn
  · intro i hi
    have hm := congrFun (hH.mulVec_eigenvectorBasis j) ⟨i, hi⟩
    simp only [Matrix.mulVec, Matrix.dotProduct, Pi.smul_apply, smul_eq_mul, A,
      Matrix.of_apply] at hm
    have hF : (IIR.Reverb.new Real.cos).feedbackmatrix = IIR.feedbackMatrixValue := rfl
    have hr : (IIR.feedbackMatrixValue : IIR.Matrix ℝ).rows = 8 := rfl
    have hc : (IIR.feedbackMatrixValue : IIR.Matrix ℝ).cols = 8 := rfl
    rw [hF]
    unfold IIR.Matrix.mulVec
    rw [hr, hc, if_pos hi, Finset.sum_range]
    simp only [hi, dif_pos, Fin.is_lt]
    exact hm

namespace IIR

/-- C10: the matrix `eigenvectors * eigenvalues * ~eigenvectors` that the constructor
of `Reverb` stores in `feedbackmatrix` does not have the entries of `eigenvalues` as
its eigenvalues and is not a contraction.  It is symmetric, its entry `(0, 0)`, which
is the quadratic form at the unit vector of channel 0, is `1988895477 / 200000000`
(about 9.94), so `vᵗ F v < vᵗ v` fails for that `v`, and it has a real eigenvalue
above 1 with a non-zero eigenvector. -/
theorem Reverb.feedbackmatrix_exceeds_unit_gain :
    (Reverb.new Real.cos).feedbackmatrix
        = (eigenvectors.mul eigenvalues).mul eigenvectors.transpose
    ∧ (∀ i j, (Reverb.new Real.cos).feedbackmatrix.coef i j
        = (Reverb.new Real.cos).feedbackmatrix.coef j i)
    ∧ (Reverb.new Real.cos).feedbackmatrix.coef 0 0 = 1988895477 / 200000000
    ∧ (Reverb.new Real.cos).feedbackmatrix.quadForm (unitFrame 0) = 1988895477 / 200000000
    ∧ sqLength NCH (unitFrame 0 : Frame ℝ) = 1
    ∧ ¬ (∀ v : Frame ℝ, (∃ i, i < NCH ∧ v i ≠ 0) →
          (Reverb.new Real.cos).feedbackmatrix.quadForm v < sqLength NCH v)
    ∧ (∃ (mu : ℝ) (v : Frame ℝ), 1 < mu ∧ (∃ i, i < NCH ∧ v i ≠ 0)
        ∧ ∀ i, i < NCH → (Reverb.new Real.cos).feedbackmatrix.mulVec v i = mu * v i) := by
  have hq : (Reverb.new Real.cos).feedbackmatrix.quadForm (unitFrame 0)
      = 1988895477 / 200000000 := by
    have hF : (Reverb.new Real.cos).feedbackmatrix = feedbackMatrixValue := rfl
    have hr : (feedbackMatrixValue : Matrix ℝ).rows = 8 := rfl
    have hc : (feedbackMatrixValue : Matrix ℝ).cols = 8 := rfl
    rw [hF]
    unfold Matrix.quadForm Matrix.mulVec
    rw [hr, hc]
    simp [Finset.sum_range_succ, unitFrame, feedbackMatrixValue_coef_0_0]
  have hl : sqLength NCH (unitFrame 0 : Frame ℝ) = 1 := by
    simp [sqLength, NCH, Finset.sum_range_succ, unitFrame]
  refine ⟨rfl, fun i j => feedbackMatrixValue_symm i j, feedbackMatrixValue_coef_0_0, hq, hl,
    ?_, feedbackMatrixValue_eigenvalue_gt_one⟩
  intro h
  have h0 := h (unitFrame 0) ⟨0, by decide, by simp [unitFrame]⟩
  rw [hq, hl] at h0
  norm_num at h0

end IIR

namespace IIR

/-! ### Lowpass at DC, queue lengths, the feedback path -/

/-- In exact arithmetic the lowpass has DC gain exactly 1.  On a fresh `Lowpass`, after
any prior inputs, if channel `i` receives the same value `v` on the calls `n0, …, n` with
`n ≥ n0 + 4` (five or more consecutive calls), then call `n` returns exactly `v` on
channel `i`. -/
theorem Lowpass.update_dc_gain {α : Type} [Field α] [CharZero α] (dim : Nat)
    (x : Nat → Frame α) (v : α) (n0 n i : Nat) (hi : i < dim) (h0 : 1 ≤ n0)
    (hn : n0 + 4 ≤ n) (hconst : ∀ k, n0 ≤ k → k ≤ n → x k i = v) :
    callOutput Lowpass.update (Lowpass.new dim) x n i = v := by
  rw [Lowpass.callOutput_new dim x n i hi]
  have h1 := Delay.callOutput_ofLag_past dim 1 x n i (by omega) hi
  have h2 := Delay.callOutput_ofLag_past dim 2 x n i (by omega) hi
  have h3 := Delay.callOutput_ofLag_past dim 3 x n i (by omega) hi
  have h4 := Delay.callOutput_ofLag_past dim 4 x n i (by omega) hi
  simp only [Nat.cast_ofNat, Nat.cast_one] at h1 h2 h3 h4
  rw [h1, h2, h3, h4]
  have p : ∀ j, j ≤ 4 → past (fun k => x k i) n j = v := by
    intro j hj
    unfold past
    rw [if_pos (by omega)]
    exact hconst (n - j) (by omega) (by omega)
  rw [p 1 (by omega), p 2 (by omega), p 3 (by omega), p 4 (by omega),
    hconst n (by omega) (le_refl n)]
  norm_num
  ring

/-- C13: the FIFO length invariant of `Delay`.  For a delay line built with lag
`lags i ≥ 0` on channel `i` (array constructor) or the shared lag `lag ≥ 0`, the
queue of every channel `i < inputDim` has length exactly the lag after construction
and after any number `k` of calls; a call of `update` on any delay line leaves the
length of the queue unchanged (one push, then one pop), and the queue that the pop
acts on is never empty. -/
theorem Delay.queue_length_invariant {α : Type} [Zero α] (dim : Nat) (lags : Nat → Int)
    (lag : Int) (x : Nat → Frame α) (k i : Nat) (hi : i < dim) (hlags : 0 ≤ lags i)
    (hlag : 0 ≤ lag) :
    (((stateAfter Delay.update (Delay.ofArray dim lags) x k).queues i).length : Int) = lags i
    ∧ (((stateAfter Delay.update (Delay.ofLag dim lag) x k).queues i).length : Int) = lag
    ∧ (∀ (d : Delay α) (input : Frame α), i < d.inputDim →
        (d.update input).1.queues i = (d.queues i ++ [input i]).tail
        ∧ ((d.update input).1.queues i).length = (d.queues i).length
        ∧ d.queues i ++ [input i] ≠ []) := by
  have key : ∀ (L : Nat → Int), 0 ≤ L i →
      (((stateAfter Delay.update (Delay.ofArray dim L : Delay α) x k).queues i).length : Int)
        = L i := by
    intro L hL
    rw [Delay.stateAfter_queues _ x k i hi]
    simp only [Delay.ofArray, hi, if_true, pushZeros_eq, List.nil_append, List.length_drop,
      List.length_append, List.length_replicate, List.length_map, List.length_range,
      Nat.add_sub_cancel]
    omega
  refine ⟨key lags hlags, ?_, ?_⟩
  · rw [Delay.ofLag_eq_ofArray]
    exact key (fun _ => lag) hlag
  · intro d input hd
    refine ⟨?_, ?_, ?_⟩
    · simp only [Delay.update, hd, if_true]
    · simp only [Delay.update, hd, if_true, List.length_tail, List.length_append,
        List.length_singleton, Nat.add_sub_cancel]
    · simp

/-- C13 at a concrete input: lag 0 on one channel, after three calls. -/
theorem Delay.queue_length_invariant_witness :
    (0 < 1 ∧ (0 : Int) ≤ (fun _ => 0 : Nat → Int) 0 ∧ (0 : Int) ≤ 0)
    ∧ (((stateAfter Delay.update (Delay.ofLag 1 0 : Delay ℚ) (impulse 0) 3).queues 0).length
        : Int) = 0 := by
  have h := Delay.queue_length_invariant (α := ℚ) 1 (fun _ => 0) 0 (impulse 0) 3 0
    (by decide) (by decide) (by decide)
  exact ⟨⟨by decide, by decide, by decide⟩, h.2.1⟩

/-- The frame pushed into the feedback delay line as the 5-tap average of the stored
`mixed` frames. -/
theorem Reverb.pushedAt_average {α : Type} [Field α] [CharZero α] (cos : α → α)
    (x : Nat → Frame α) (n i : Nat) (hi : i < NCH) :
    Reverb.pushedAt cos x (n + 1) i
      = (past (fun k => Reverb.mixedAfter cos x k i) (n + 1) 1
          + past (fun k => Reverb.mixedAfter cos x k i) (n + 1) 2
          + past (fun k => Reverb.mixedAfter cos x k i) (n + 1) 3
          + past (fun k => Reverb.mixedAfter cos x k i) (n + 1) 4
          + past (fun k => Reverb.mixedAfter cos x k i) (n + 1) 5) / 5 := by
  rw [Reverb.pushedAt_succ, Lowpass.callOutput_new NCH _ (n + 1) i hi]
  have h1 := Delay.callOutput_ofLag_past NCH 1
    (fun k => Reverb.mixedAfter cos x (k - 1)) (n + 1) i (by omega) hi
  have h2 := Delay.callOutput_ofLag_past NCH 2
    (fun k => Reverb.mixedAfter cos x (k - 1)) (n + 1) i (by omega) hi
  have h3 := Delay.callOutput_ofLag_past NCH 3
    (fun k => Reverb.mixedAfter cos x (k - 1)) (n + 1) i (by omega) hi
  have h4 := Delay.callOutput_ofLag_past NCH 4
    (fun k => Reverb.mixedAfter cos x (k - 1)) (n + 1) i (by omega) hi
  simp only [Nat.cast_ofNat, Nat.cast_one] at h1 h2 h3 h4
  rw [h1, h2, h3, h4]
  have z : Reverb.mixedAfter cos x 0 i = 0 := rfl
  have e : ∀ j, past (fun k => Reverb.mixedAfter cos x (k - 1) i) (n + 1) j
      = past (fun k => Reverb.mixedAfter cos x k i) (n + 1) (j + 1) := by
    intro j
    unfold past
    by_cases h : j < n
    · have h' : j + 1 < n + 1 := by omega
      have h'' : j < n + 1 := by omega
      rw [if_pos h', if_pos h'']
      congr 1
    · by_cases he : j = n
      · subst he
        simp [z]
      · have h' : ¬ j + 1 < n + 1 := by omega
        have h'' : ¬ j < n + 1 := by omega
        rw [if_neg h', if_neg h'']
  have e0 : Reverb.mixedAfter cos x (n + 1 - 1) i
      = past (fun k => Reverb.mixedAfter cos x k i) (n + 1) 1 := by
    have := e 0
    simp only [past] at this ⊢
    simpa using this
  simp only [e] at *
  rw [e0]
  norm_num
  ring

/-! ### The recurrence of the delay-line-backed allpass -/

section AllpassLemmas
variable {α : Type} [Field α]

theorem Allpass.update_coefficients (ap : Allpass α) (input : Frame α) :
    (ap.update input).1.inputDim = ap.inputDim ∧ (ap.update input).1.R2 = ap.R2
      ∧ (ap.update input).1.twoRCosTheta = ap.twoRCosTheta := ⟨rfl, rfl, rfl⟩

theorem Allpass.stateAfter_coefficients (ap : Allpass α) (x : Nat → Frame α) (n : Nat) :
    (stateAfter Allpass.update ap x n).inputDim = ap.inputDim
      ∧ (stateAfter Allpass.update ap x n).R2 = ap.R2
      ∧ (stateAfter Allpass.update ap x n).twoRCosTheta = ap.twoRCosTheta := by
  induction n with
  | zero => exact ⟨rfl, rfl, rfl⟩
  | succ n ih =>
    obtain ⟨h1, h2, h3⟩ := Allpass.update_coefficients (stateAfter Allpass.update ap x n) (x (n + 1))
    simp only [stateAfter]
    exact ⟨h1.trans ih.1, h2.trans ih.2.1, h3.trans ih.2.2⟩

/-- The sequence of contents of the `feedback` array of a fresh `Allpass` at the
start of each call. -/
theorem Allpass.stateAfter_delays (cos : α → α) (dim : Nat) (R theta : α)
    (x : Nat → Frame α) (n : Nat) :
    (stateAfter Allpass.update (Allpass.new cos dim R theta) x n).ff1
        = stateAfter Delay.update (Delay.ofLag dim 1) x n
    ∧ (stateAfter Allpass.update (Allpass.new cos dim R theta) x n).ff2
        = stateAfter Delay.update (Delay.ofLag dim 2) x n
    ∧ (stateAfter Allpass.update (Allpass.new cos dim R theta) x n).fb1
        = stateAfter Delay.update (Delay.ofLag dim 1)
            (fun k => (stateAfter Allpass.update (Allpass.new cos dim R theta) x (k - 1)).feedback) n
    ∧ (stateAfter Allpass.update (Allpass.new cos dim R theta) x n).fb2
        = stateAfter Delay.update (Delay.ofLag dim 2)
            (fun k => (stateAfter Allpass.update (Allpass.new cos dim R theta) x (k - 1)).feedback) n
    := by
  induction n with
  | zero => exact ⟨rfl, rfl, rfl, rfl⟩
  | succ n ih =>
    obtain ⟨h1, h2, h3, h4⟩ := ih
    have hdim := (Allpass.stateAfter_coefficients (Allpass.new cos dim R theta) x n).1
    have hc : ∀ (L : Int), (stateAfter Delay.update (Delay.ofLag dim L : Delay α) x n).update
        (copy dim (fun _ => 0) (x (n + 1)))
        = (stateAfter Delay.update (Delay.ofLag dim L : Delay α) x n).update (x (n + 1)) := by
      intro L
      apply Delay.update_congr
      intro i hi
      rw [Delay.stateAfter_inputDim] at hi
      exact copy_zero_agrees dim _ i hi
    have hd : (stateAfter Allpass.update (Allpass.new cos dim R theta) x n).inputDim = dim :=
      hdim
    refine ⟨?_, ?_, ?_, ?_⟩
    · show ((stateAfter Allpass.update (Allpass.new cos dim R theta) x n).ff1.update
        (copy (stateAfter Allpass.update (Allpass.new cos dim R theta) x n).inputDim
          (fun _ => 0) (x (n + 1)))).1 = _
      rw [h1, hd, hc]
      rfl
    · show ((stateAfter Allpass.update (Allpass.new cos dim R theta) x n).ff2.update
        (copy (stateAfter Allpass.update (Allpass.new cos dim R theta) x n).inputDim
          (fun _ => 0) (x (n + 1)))).1 = _
      rw [h2, hd, hc]
      rfl
    · show ((stateAfter Allpass.update (Allpass.new cos dim R theta) x n).fb1.update
        (stateAfter Allpass.update (Allpass.new cos dim R theta) x n).feedback).1 = _
      rw [h3]
      simp only [stateAfter, Nat.add_sub_cancel]
    · show ((stateAfter Allpass.update (Allpass.new cos dim R theta) x n).fb2.update
        (stateAfter Allpass.update (Allpass.new cos dim R theta) x n).feedback).1 = _
      rw [h4]
      simp only [stateAfter, Nat.add_sub_cancel]

/-- One call of `Allpass::update`, channel `i`. -/
theorem Allpass.update_out (ap : Allpass α) (input : Frame α) (i : Nat)
    (hi : i < ap.inputDim) :
    (ap.update input).2 i
      = input i * ap.R2
        + (ap.ff1.update (copy ap.inputDim (fun _ => 0) input)).2 i * -ap.twoRCosTheta
        + (ap.ff2.update (copy ap.inputDim (fun _ => 0) input)).2 i
        + (ap.fb1.update ap.feedback).2 i * ap.twoRCosTheta
        + (ap.fb2.update ap.feedback).2 i * -ap.R2 := by
  simp only [Allpass.update, add_apply, mult_apply, hi, if_true]

/-- Output of a fresh `Allpass` in terms of the outputs of its four delay lines. -/
theorem Allpass.callOutput_by_delays (cos : α → α) (dim : Nat) (R theta : α) (x : Nat → Frame α)
    (n i : Nat) (hn : 1 ≤ n) (hi : i < dim) :
    callOutput Allpass.update (Allpass.new cos dim R theta) x n i
      = x n i * (R * R)
        + callOutput Delay.update (Delay.ofLag dim 1) x n i * -(2 * R * cos theta)
        + callOutput Delay.update (Delay.ofLag dim 2) x n i
        + callOutput Delay.update (Delay.ofLag dim 1)
            (fun k => (stateAfter Allpass.update (Allpass.new cos dim R theta) x (k - 1)).feedback)
            n i * (2 * R * cos theta)
        + callOutput Delay.update (Delay.ofLag dim 2)
            (fun k => (stateAfter Allpass.update (Allpass.new cos dim R theta) x (k - 1)).feedback)
            n i * -(R * R) := by
  obtain ⟨m, rfl⟩ : ∃ m, n = m + 1 := ⟨n - 1, by omega⟩
  obtain ⟨h1, h2, h3, h4⟩ := Allpass.stateAfter_delays cos dim R theta x m
  obtain ⟨p1, p2, p3⟩ := Allpass.stateAfter_coefficients (Allpass.new cos dim R theta) x m
  have hc : ∀ (L : Int), (stateAfter Delay.update (Delay.ofLag dim L : Delay α) x m).update
      (copy dim (fun _ => 0) (x (m + 1)))
      = (stateAfter Delay.update (Delay.ofLag dim L : Delay α) x m).update (x (m + 1)) := by
    intro L
    apply Delay.update_congr
    intro i hi
    rw [Delay.stateAfter_inputDim] at hi
    exact copy_zero_agrees dim _ i hi
  have hd : (stateAfter Allpass.update (Allpass.new cos dim R theta) x m).inputDim = dim := p1
  have hR : (stateAfter Allpass.update (Allpass.new cos dim R theta) x m).R2 = R * R := p2
  have hb : (stateAfter Allpass.update (Allpass.new cos dim R theta) x m).twoRCosTheta
      = 2 * R * cos theta := p3
  rw [callOutput_succ, callOutput_succ, callOutput_succ, callOutput_succ, callOutput_succ,
    Allpass.update_out _ _ i (by rw [hd]; exact hi), hd, hR, hb, h1, h2, h3, h4, hc, hc]
  simp only [Nat.add_sub_cancel]

/-- The `feedback` array of a fresh `Allpass` holds the previous output. -/
theorem Allpass.stateAfter_feedback (cos : α → α) (dim : Nat) (R theta : α)
    (x : Nat → Frame α) (n i : Nat) (hi : i < dim) :
    (stateAfter Allpass.update (Allpass.new cos dim R theta) x n).feedback i
      = past (fun k => callOutput Allpass.update (Allpass.new cos dim R theta) x k i) (n + 1) 1
    := by
  cases n with
  | zero => simp [stateAfter, Allpass.new, past]
  | succ m =>
    rw [past_succ_succ, past_zero_lag _ _ (by omega), callOutput_succ]
    have hd : (stateAfter Allpass.update (Allpass.new cos dim R theta) x m).inputDim = dim :=
      (Allpass.stateAfter_coefficients (Allpass.new cos dim R theta) x m).1
    show copy (stateAfter Allpass.update (Allpass.new cos dim R theta) x m).inputDim _
      ((stateAfter Allpass.update (Allpass.new cos dim R theta) x m).update (x (m + 1))).2 i = _
    rw [copy_apply, hd, if_pos hi]

theorem past_past_one {β : Type} [Zero β] (y : Nat → β) (n j : Nat) :
    past (fun k => past y k 1) n j = past y n (j + 1) := by
  unfold past
  by_cases h : j + 1 < n
  · have h1 : j < n := by omega
    have h2 : 1 < n - j := by omega
    rw [if_pos h, if_pos h1]
    show (if 1 < n - j then y (n - j - 1) else 0) = _
    rw [if_pos h2]
    congr 1
  · rw [if_neg h]
    by_cases h1 : j < n
    · have h2 : ¬ 1 < n - j := by omega
      rw [if_pos h1]
      show (if 1 < n - j then y (n - j - 1) else 0) = _
      rw [if_neg h2]
    · rw [if_neg h1]

/-- The recurrence that a fresh `Allpass` follows. -/
theorem Allpass.callOutput_recurrence (cos : α → α) (dim : Nat) (R theta : α)
    (x : Nat → Frame α) (n i : Nat) (hn : 1 ≤ n) (hi : i < dim) :
    callOutput Allpass.update (Allpass.new cos dim R theta) x n i
      = R * R * x n i - 2 * R * cos theta * past (fun k => x k i) n 1
        + past (fun k => x k i) n 2
        + 2 * R * cos theta
            * past (fun k => callOutput Allpass.update (Allpass.new cos dim R theta) x k i) n 2
        - R * R
            * past (fun k => callOutput Allpass.update (Allpass.new cos dim R theta) x k i) n 3
    := by
  rw [Allpass.callOutput_by_delays cos dim R theta x n i hn hi]
  have h1 := Delay.callOutput_ofLag_past dim 1 x n i hn hi
  have h2 := Delay.callOutput_ofLag_past dim 2 x n i hn hi
  have h3 := Delay.callOutput_ofLag_past dim 1
    (fun k => (stateAfter Allpass.update (Allpass.new cos dim R theta) x (k - 1)).feedback)
    n i hn hi
  have h4 := Delay.callOutput_ofLag_past dim 2
    (fun k => (stateAfter Allpass.update (Allpass.new cos dim R theta) x (k - 1)).feedback)
    n i hn hi
  simp only [Nat.cast_ofNat, Nat.cast_one] at h1 h2 h3 h4
  have hf : (fun k => (stateAfter Allpass.update (Allpass.new cos dim R theta) x
      (k - 1)).feedback i)
      = fun k => past (fun j => callOutput Allpass.update (Allpass.new cos dim R theta) x j i)
          k 1 := by
    funext k
    rw [Allpass.stateAfter_feedback cos dim R theta x (k - 1) i hi]
    unfold past
    by_cases hk : 1 < k
    · have hk' : 1 < k - 1 + 1 := by omega
      rw [if_pos hk, if_pos hk']
      congr 1
    · have hk' : ¬ 1 < k - 1 + 1 := by omega
      rw [if_neg hk, if_neg hk']
  rw [hf] at h3 h4
  rw [past_past_one] at h3 h4
  rw [h1, h2, h3, h4]
  ring

end AllpassLemmas

/-- C16: the recurrence the delay-line-backed `Allpass` actually follows.  With
`a = R * R` and `b = 2 * R * cos theta`, on a fresh `Allpass`, for every input
sequence and channel `i < inputDim`, the `n`-th output is
`y[n] = a x[n] - b x[n-1] + x[n-2] + b y[n-2] - a y[n-3]`, inputs and outputs before
the first call being zero; for the impulse the second output is `-b`. -/
theorem Allpass.update_actual_recurrence {α : Type} [Field α] (cos : α → α) (dim : Nat)
    (R theta : α) (x : Nat → Frame α) (n i : Nat) (hn : 1 ≤ n) (hi : i < dim) :
    callOutput Allpass.update (Allpass.new cos dim R theta) x n i
        = R * R * x n i - 2 * R * cos theta * past (fun k => x k i) n 1
          + past (fun k => x k i) n 2
          + 2 * R * cos theta
              * past (fun k => callOutput Allpass.update (Allpass.new cos dim R theta) x k i) n 2
          - R * R
              * past (fun k => callOutput Allpass.update (Allpass.new cos dim R theta) x k i) n 3
    ∧ callOutput Allpass.update (Allpass.new cos dim R theta) (impulse i) 2 i
        = -(2 * R * cos theta) := by
  refine ⟨Allpass.callOutput_recurrence cos dim R theta x n i hn hi, ?_⟩
  rw [Allpass.callOutput_recurrence cos dim R theta (impulse i) 2 i (by omega) hi]
  simp [past, impulse]

/-- C16 at a concrete input: one channel, `R = 1/2`, `theta = 0`, the impulse; the
second output is `-1`. -/
theorem Allpass.update_actual_recurrence_witness :
    (1 ≤ 2 ∧ 0 < 1)
    ∧ callOutput Allpass.update (Allpass.new Real.cos 1 (1 / 2) 0) (impulse 0) 2 0 = -1 := by
  have h := (Allpass.update_actual_recurrence Real.cos 1 (1 / 2) 0 (impulse 0) 2 0
    (by decide) (by decide)).2
  refine ⟨⟨by decide, by decide⟩, ?_⟩
  rw [h]
  norm_num

/-! ### The frequency response of the allpass -/

theorem Allpass2.denominator_factors (R theta : ℝ) (zinv : ℂ) :
    1 - (2 * (R : ℂ) * Complex.cos theta) * zinv + ((R : ℂ) * R) * zinv ^ 2
      = (1 - R * Complex.exp (theta * Complex.I) * zinv)
        * (1 - R * Complex.exp (-(theta : ℂ) * Complex.I) * zinv) := by
  have hc : Complex.cos theta
      = (Complex.exp (theta * Complex.I) + Complex.exp (-(theta : ℂ) * Complex.I)) / 2 := rfl
  have hu : Complex.exp (theta * Complex.I) * Complex.exp (-(theta : ℂ) * Complex.I) = 1 := by
    rw [← Complex.exp_add]
    simp
  rw [hc]
  linear_combination (-(R : ℂ) ^ 2 * zinv ^ 2) * hu

theorem Allpass2.factor_ne_zero (R t w : ℝ) (hR : |R| < 1) :
    1 - (R : ℂ) * Complex.exp (t * Complex.I) * Complex.exp (w * Complex.I) ≠ 0 := by
  intro h
  have h1 : (R : ℂ) * Complex.exp (t * Complex.I) * Complex.exp (w * Complex.I) = 1 := by
    linear_combination -h
  have h2 := congrArg Complex.abs h1
  rw [map_mul, map_mul, Complex.abs_exp_ofReal_mul_I, Complex.abs_exp_ofReal_mul_I,
    Complex.abs_ofReal, map_one] at h2
  linarith

theorem Allpass2.steady_state_algebra {α : Type} [Field α] (a b z X : α)
    (hD : 1 - b * z + a * z ^ 2 ≠ 0) :
    a * X - b * (X * z) + X * z ^ 2
        + b * ((a - b * z + z ^ 2) / (1 - b * z + a * z ^ 2) * X * z)
        - a * ((a - b * z + z ^ 2) / (1 - b * z + a * z ^ 2) * X * z ^ 2)
      = (a - b * z + z ^ 2) / (1 - b * z + a * z ^ 2) * X := by
  have hH : (a - b * z + z ^ 2) / (1 - b * z + a * z ^ 2) * (1 - b * z + a * z ^ 2)
      = a - b * z + z ^ 2 := div_mul_cancel₀ _ hD
  linear_combination (-X) * hH

theorem Allpass2.unit_circle_magnitude (a b w : ℝ)
    (hD : 1 - (b : ℂ) * Complex.exp (-(w : ℂ) * Complex.I)
      + (a : ℂ) * Complex.exp (-(w : ℂ) * Complex.I) ^ 2 ≠ 0) :
    Complex.abs (((a : ℂ) - (b : ℂ) * Complex.exp (-(w : ℂ) * Complex.I)
        + Complex.exp (-(w : ℂ) * Complex.I) ^ 2)
      / (1 - (b : ℂ) * Complex.exp (-(w : ℂ) * Complex.I)
        + (a : ℂ) * Complex.exp (-(w : ℂ) * Complex.I) ^ 2)) = 1 := by
  have hzw : Complex.exp (-(w : ℂ) * Complex.I) = Complex.exp (((-w : ℝ) : ℂ) * Complex.I) := by
    push_cast; rfl
  have hz1 : Complex.exp ((w : ℂ) * Complex.I) * Complex.exp (-(w : ℂ) * Complex.I) = 1 := by
    rw [← Complex.exp_add]
    simp
  have hconj : (starRingEnd ℂ) (Complex.exp (-(w : ℂ) * Complex.I))
      = Complex.exp ((w : ℂ) * Complex.I) := by
    rw [← Complex.exp_conj]
    congr 1
    simp
  have hcD : (starRingEnd ℂ) (1 - (b : ℂ) * Complex.exp (-(w : ℂ) * Complex.I)
      + (a : ℂ) * Complex.exp (-(w : ℂ) * Complex.I) ^ 2)
      = 1 - (b : ℂ) * Complex.exp ((w : ℂ) * Complex.I)
        + (a : ℂ) * Complex.exp ((w : ℂ) * Complex.I) ^ 2 := by
    simp only [map_add, map_sub, map_mul, map_pow, map_one, Complex.conj_ofReal, hconj]
  have hN : (a : ℂ) - (b : ℂ) * Complex.exp (-(w : ℂ) * Complex.I)
      + Complex.exp (-(w : ℂ) * Complex.I) ^ 2
      = Complex.exp (-(w : ℂ) * Complex.I) ^ 2
        * (starRingEnd ℂ) (1 - (b : ℂ) * Complex.exp (-(w : ℂ) * Complex.I)
            + (a : ℂ) * Complex.exp (-(w : ℂ) * Complex.I) ^ 2) := by
    rw [hcD]
    linear_combination ((b : ℂ) * Complex.exp (-(w : ℂ) * Complex.I)
      - (a : ℂ) * (Complex.exp ((w : ℂ) * Complex.I) * Complex.exp (-(w : ℂ) * Complex.I) + 1))
      * hz1
  have habs : Complex.abs (Complex.exp (-(w : ℂ) * Complex.I)) = 1 := by
    rw [hzw, Complex.abs_exp_ofReal_mul_I]
  rw [map_div₀, hN, map_mul, Complex.abs_conj, map_pow, habs, one_pow, one_mul]
  exact div_self (by simpa using hD)

/-- C14: unity gain of the allpass.  For real `R` with `|R| < 1`, every `theta` and
every frequency `w`, with the coefficients `a = R * R` and `b = 2 * R * cos theta`
that the constructor of `Allpass2` computes, the frequency response
`H = (a - b e^{-iw} + e^{-2iw}) / (1 - b e^{-iw} + a e^{-2iw})` of the canonical
difference equation has a non-zero denominator and magnitude exactly 1; and `H` is
the steady-state gain of `Allpass2::update`: when the arrays hold the past samples of
the input `X e^{iwn}` and of the output `H X e^{iwn}`, the loop body computes `H` times
the current input. -/
theorem Allpass2.response_unit_magnitude (R theta w : ℝ) (hR : |R| < 1) :
    (Allpass2.new Complex.cos 1 (R : ℂ) (theta : ℂ)).R2 = ((R * R : ℝ) : ℂ)
    ∧ (Allpass2.new Complex.cos 1 (R : ℂ) (theta : ℂ)).twoRCosTheta
        = ((2 * R * Real.cos theta : ℝ) : ℂ)
    ∧ 1 - (Allpass2.new Complex.cos 1 (R : ℂ) (theta : ℂ)).twoRCosTheta
            * Complex.exp (-(w : ℂ) * Complex.I)
          + (Allpass2.new Complex.cos 1 (R : ℂ) (theta : ℂ)).R2
            * Complex.exp (-(w : ℂ) * Complex.I) ^ 2 ≠ 0
    ∧ Complex.abs ((Allpass2.new Complex.cos 1 (R : ℂ) (theta : ℂ)).response
        (Complex.exp (-(w : ℂ) * Complex.I))) = 1
    ∧ (∀ X : ℂ,
        ({ Allpass2.new Complex.cos 1 (R : ℂ) (theta : ℂ) with
            x1 := fun _ => X * Complex.exp (-(w : ℂ) * Complex.I)
            x2 := fun _ => X * Complex.exp (-(w : ℂ) * Complex.I) ^ 2
            y1 := fun _ => (Allpass2.new Complex.cos 1 (R : ℂ) (theta : ℂ)).response
                    (Complex.exp (-(w : ℂ) * Complex.I)) * X
                    * Complex.exp (-(w : ℂ) * Complex.I)
            y2 := fun _ => (Allpass2.new Complex.cos 1 (R : ℂ) (theta : ℂ)).response
                    (Complex.exp (-(w : ℂ) * Complex.I)) * X
                    * Complex.exp (-(w : ℂ) * Complex.I) ^ 2 } : Allpass2 ℂ).sample
          (fun _ => X) 0
        = (Allpass2.new Complex.cos 1 (R : ℂ) (theta : ℂ)).response
            (Complex.exp (-(w : ℂ) * Complex.I)) * X) := by
  have ha : (Allpass2.new Complex.cos 1 (R : ℂ) (theta : ℂ)).R2 = ((R * R : ℝ) : ℂ) := by
    show (R : ℂ) * R = _
    push_cast; rfl
  have hb : (Allpass2.new Complex.cos 1 (R : ℂ) (theta : ℂ)).twoRCosTheta
      = ((2 * R * Real.cos theta : ℝ) : ℂ) := by
    show 2 * (R : ℂ) * Complex.cos theta = _
    push_cast; rfl
  have hzw : Complex.exp (-(w : ℂ) * Complex.I) = Complex.exp (((-w : ℝ) : ℂ) * Complex.I) := by
    push_cast; rfl
  have hD : 1 - ((2 * R * Real.cos theta : ℝ) : ℂ) * Complex.exp (-(w : ℂ) * Complex.I)
      + ((R * R : ℝ) : ℂ) * Complex.exp (-(w : ℂ) * Complex.I) ^ 2 ≠ 0 := by
    have e : 1 - ((2 * R * Real.cos theta : ℝ) : ℂ) * Complex.exp (-(w : ℂ) * Complex.I)
        + ((R * R : ℝ) : ℂ) * Complex.exp (-(w : ℂ) * Complex.I) ^ 2
        = 1 - (2 * (R : ℂ) * Complex.cos theta) * Complex.exp (-(w : ℂ) * Complex.I)
          + ((R : ℂ) * R) * Complex.exp (-(w : ℂ) * Complex.I) ^ 2 := by
      push_cast; rfl
    rw [e, Allpass2.denominator_factors]
    have ht : Complex.exp (-(theta : ℂ) * Complex.I)
        = Complex.exp (((-theta : ℝ) : ℂ) * Complex.I) := by push_cast; rfl
    rw [ht, hzw]
    exact mul_ne_zero (Allpass2.factor_ne_zero R theta (-w) hR)
      (Allpass2.factor_ne_zero R (-theta) (-w) hR)
  refine ⟨ha, hb, by rw [ha, hb]; exact hD, ?_, ?_⟩
  · unfold Allpass2.response
    rw [ha, hb]
    exact Allpass2.unit_circle_magnitude (R * R) (2 * R * Real.cos theta) w hD
  · intro X
    unfold Allpass2.sample Allpass2.response
    simp only [ha, hb]
    exact Allpass2.steady_state_algebra _ _ _ X hD

/-- C14 at a concrete input: `R = 1/2`, `theta = 0`, `w = 0`; the response at DC has
magnitude 1. -/
theorem Allpass2.response_unit_magnitude_witness :
    |(1 / 2 : ℝ)| < 1
    ∧ Complex.abs ((Allpass2.new Complex.cos 1 (((1 / 2 : ℝ)) : ℂ) ((0 : ℝ) : ℂ)).response
        (Complex.exp (-((0 : ℝ) : ℂ) * Complex.I))) = 1 := by
  have hR : |(1 / 2 : ℝ)| < 1 := by rw [abs_of_pos] <;> norm_num
  exact ⟨hR, (Allpass2.response_unit_magnitude (1 / 2) 0 0 hR).2.2.2.1⟩

/-! ### Linearity -/

section LinearityLemmas
variable {α : Type} [Field α]

theorem past_linear (c c' : α) (x x' X : Nat → α) (n j : Nat)
    (h : ∀ k, 1 ≤ k → k ≤ n → X k = c * x k + c' * x' k) :
    past X n j = c * past x n j + c' * past x' n j := by
  unfold past
  by_cases hj : j < n
  · rw [if_pos hj, if_pos hj, if_pos hj]
    exact h (n - j) (by omega) (by omega)
  · rw [if_neg hj, if_neg hj, if_neg hj]
    ring

theorem Delay.callOutput_linear (dim : Nat) (L : Nat → Int) (c c' : α)
    (x x' X : Nat → Frame α) (n i : Nat) (hn : 1 ≤ n) (hi : i < dim)
    (h : ∀ k, 1 ≤ k → k ≤ n → X k i = c * x k i + c' * x' k i) :
    callOutput Delay.update (Delay.ofArray dim L) X n i
      = c * callOutput Delay.update (Delay.ofArray dim L) x n i
        + c' * callOutput Delay.update (Delay.ofArray dim L) x' n i := by
  rw [Delay.callOutput_ofArray dim L X n i hn hi, Delay.callOutput_ofArray dim L x n i hn hi,
    Delay.callOutput_ofArray dim L x' n i hn hi]
  by_cases hk : n ≤ (L i).toNat
  · rw [if_pos hk, if_pos hk, if_pos hk]
    ring
  · rw [if_neg hk, if_neg hk, if_neg hk]
    exact h _ (by omega) (by omega)

theorem Lowpass.callOutput_lowpass_linear (dim : Nat) (c c' : α)
    (x x' X : Nat → Frame α) (n i : Nat) (hn : 1 ≤ n) (hi : i < dim)
    (h : ∀ k, 1 ≤ k → k ≤ n → X k i = c * x k i + c' * x' k i) :
    callOutput Lowpass.update (Lowpass.new dim) X n i
      = c * callOutput Lowpass.update (Lowpass.new dim) x n i
        + c' * callOutput Lowpass.update (Lowpass.new dim) x' n i := by
  rw [Lowpass.callOutput_new dim X n i hi, Lowpass.callOutput_new dim x n i hi,
    Lowpass.callOutput_new dim x' n i hi]
  simp only [Delay.ofLag_eq_ofArray]
  rw [Delay.callOutput_linear dim _ c c' x x' X n i hn hi h,
    Delay.callOutput_linear dim _ c c' x x' X n i hn hi h,
    Delay.callOutput_linear dim _ c c' x x' X n i hn hi h,
    Delay.callOutput_linear dim _ c c' x x' X n i hn hi h, h n hn (le_refl n)]
  ring

theorem Allpass.callOutput_allpass_linear (cos : α → α) (dim : Nat) (R theta c c' : α)
    (x x' X : Nat → Frame α) (i : Nat) (hi : i < dim) (n : Nat) :
    1 ≤ n → (∀ k, 1 ≤ k → k ≤ n → X k i = c * x k i + c' * x' k i) →
    callOutput Allpass.update (Allpass.new cos dim R theta) X n i
      = c * callOutput Allpass.update (Allpass.new cos dim R theta) x n i
        + c' * callOutput Allpass.update (Allpass.new cos dim R theta) x' n i := by
  induction n using Nat.strong_induction_on with
  | _ n ih =>
    intro hn h
    rw [Allpass.callOutput_recurrence cos dim R theta X n i hn hi,
      Allpass.callOutput_recurrence cos dim R theta x n i hn hi,
      Allpass.callOutput_recurrence cos dim R theta x' n i hn hi]
    have hy : ∀ k, 1 ≤ k → k < n →
        callOutput Allpass.update (Allpass.new cos dim R theta) X k i
          = c * callOutput Allpass.update (Allpass.new cos dim R theta) x k i
            + c' * callOutput Allpass.update (Allpass.new cos dim R theta) x' k i := by
      intro k hk hkn
      exact ih k hkn hk (fun j hj hjk => h j hj (by omega))
    have hy' : ∀ j, 1 ≤ j →
        past (fun k => callOutput Allpass.update (Allpass.new cos dim R theta) X k i) n j
          = c * past (fun k => callOutput Allpass.update (Allpass.new cos dim R theta) x k i) n j
            + c' * past (fun k => callOutput Allpass.update (Allpass.new cos dim R theta) x' k i)
                n j := by
      intro j hj
      unfold past
      by_cases hjn : j < n
      · rw [if_pos hjn, if_pos hjn, if_pos hjn]
        exact hy (n - j) (by omega) (by omega)
      · rw [if_neg hjn, if_neg hjn, if_neg hjn]
        ring
    rw [past_linear c c' (fun k => x k i) (fun k => x' k i) (fun k => X k i) n 1 h,
      past_linear c c' (fun k => x k i) (fun k => x' k i) (fun k => X k i) n 2 h,
      hy' 2 (by omega), hy' 3 (by omega), h n hn (le_refl n)]
    ring

theorem Matrix.mulVec_linear (m : Matrix α) (c c' : α) (v v' w : Frame α)
    (h : ∀ j, j < m.cols → w j = c * v j + c' * v' j) (i : Nat) :
    m.mulVec w i = c * m.mulVec v i + c' * m.mulVec v' i := by
  unfold Matrix.mulVec
  by_cases hi : i < m.rows
  · simp only [hi, if_true]
    rw [Finset.mul_sum, Finset.mul_sum, ← Finset.sum_add_distrib]
    apply Finset.sum_congr rfl
    intro j hj
    rw [h j (Finset.mem_range.mp hj)]
    ring
  · simp only [hi, if_false]
    ring

end LinearityLemmas

section ReverbLinearity
variable {α : Type} [Field α]

/-- The feedback delay line of a `Reverb` is driven by the pushed frames. -/
theorem Reverb.stateAfter_fbDelayLine (cos : α → α) (x : Nat → Frame α) (n : Nat) :
    (stateAfter Reverb.update (Reverb.new cos) x n).fbDelayLine
      = stateAfter Delay.update (Reverb.new cos).fbDelayLine (Reverb.pushedAt cos x) n := by
  induction n with
  | zero => rfl
  | succ n ih =>
    simp only [stateAfter]
    rw [← ih]
    rfl

/-- The allpass of a `Reverb` is driven by the network input frames. -/
theorem Reverb.stateAfter_allpass (cos : α → α) (x : Nat → Frame α) (n : Nat) :
    (stateAfter Reverb.update (Reverb.new cos) x n).allpass
      = stateAfter Allpass.update (Reverb.new cos).allpass (Reverb.networkInputAt cos x) n := by
  induction n with
  | zero => rfl
  | succ n ih =>
    simp only [stateAfter]
    rw [← ih]
    rfl

/-- The network input of call `n + 1`, channel by channel. -/
theorem Reverb.networkInputAt_succ (cos : α → α) (x : Nat → Frame α) (n i : Nat)
    (hi : i < NCH) :
    Reverb.networkInputAt cos x (n + 1) i
      = (Reverb.new cos).distrib.mulVec
          (callOutput Delay.update (Reverb.new cos).inDelay x (n + 1)) i
        + callOutput Delay.update (Reverb.new cos).fbDelayLine (Reverb.pushedAt cos x) (n + 1) i
    := by
  have h1 : Reverb.networkInputAt cos x (n + 1)
      = add NCH
          ((stateAfter Reverb.update (Reverb.new cos) x n).distrib.mulVec
            ((stateAfter Reverb.update (Reverb.new cos) x n).inDelay.update (x (n + 1))).2)
          ((stateAfter Reverb.update (Reverb.new cos) x n).fbDelayLine.update
            (stateAfter Reverb.update (Reverb.new cos) x n).pushed).2 := rfl
  rw [h1, add_apply, if_pos hi, (Reverb.stateAfter_consts (Reverb.new cos) x n).1,
    Reverb.stateAfter_inDelay, Reverb.stateAfter_fbDelayLine]
  rfl

/-- The stored `mixed` frame and the returned frame of call `n + 1` in terms of the
output of the allpass. -/
theorem Reverb.call_succ (cos : α → α) (x : Nat → Frame α) (n : Nat) :
    (∀ i, i < NCH → Reverb.mixedAfter cos x (n + 1) i
      = (Reverb.new cos).feedbackmatrix.mulVec
          (callOutput Allpass.update (Reverb.new cos).allpass (Reverb.networkInputAt cos x)
            (n + 1)) i)
    ∧ callOutput Reverb.update (Reverb.new cos) x (n + 1)
      = (Reverb.new cos).outDistrib.mulVec ((Reverb.new cos).feedbackmatrix.mulVec
          (callOutput Allpass.update (Reverb.new cos).allpass (Reverb.networkInputAt cos x)
            (n + 1))) := by
  obtain ⟨_, c2, c3⟩ := Reverb.stateAfter_consts (Reverb.new cos) x n
  have ha : ((stateAfter Reverb.update (Reverb.new cos) x n).allpass.update
      (Reverb.networkInputAt cos x (n + 1))).2
      = callOutput Allpass.update (Reverb.new cos).allpass (Reverb.networkInputAt cos x)
          (n + 1) := by
    rw [Reverb.stateAfter_allpass]
    rfl
  constructor
  · intro i hi
    show copy NCH (stateAfter Reverb.update (Reverb.new cos) x n).pushed
      ((stateAfter Reverb.update (Reverb.new cos) x n).feedbackmatrix.mulVec
        ((stateAfter Reverb.update (Reverb.new cos) x n).allpass.update
          (Reverb.networkInputAt cos x (n + 1))).2) i = _
    rw [copy_apply, if_pos hi, c3, ha]
  · show (stateAfter Reverb.update (Reverb.new cos) x n).outDistrib.mulVec
      ((stateAfter Reverb.update (Reverb.new cos) x n).feedbackmatrix.mulVec
        ((stateAfter Reverb.update (Reverb.new cos) x n).allpass.update
          (Reverb.networkInputAt cos x (n + 1))).2) = _
    rw [c2, c3, ha]

/-- If the stored `mixed` frames are linear in the input up to call `n`, so is the
output of the allpass up to call `n + 1`. -/
theorem Reverb.allpass_out_linear (cos : α → α) (c c' : α) (x x' : Nat → Frame α) (n : Nat)
    (ih : ∀ k, k ≤ n → ∀ i, i < NCH →
      Reverb.mixedAfter cos (fun k j => c * x k j + c' * x' k j) k i
        = c * Reverb.mixedAfter cos x k i + c' * Reverb.mixedAfter cos x' k i)
    (m i : Nat) (hm1 : 1 ≤ m) (hm : m ≤ n + 1) (hi : i < NCH) :
    callOutput Allpass.update (Reverb.new cos).allpass
        (Reverb.networkInputAt cos (fun k j => c * x k j + c' * x' k j)) m i
      = c * callOutput Allpass.update (Reverb.new cos).allpass (Reverb.networkInputAt cos x) m i
        + c' * callOutput Allpass.update (Reverb.new cos).allpass
            (Reverb.networkInputAt cos x') m i := by
  have hpush : ∀ k, 1 ≤ k → k ≤ n + 1 →
      Reverb.pushedAt cos (fun k j => c * x k j + c' * x' k j) k i
        = c * Reverb.pushedAt cos x k i + c' * Reverb.pushedAt cos x' k i := by
    intro k hk1 hk
    obtain ⟨k', rfl⟩ : ∃ k', k = k' + 1 := ⟨k - 1, by omega⟩
    rw [Reverb.pushedAt_succ, Reverb.pushedAt_succ, Reverb.pushedAt_succ]
    apply Lowpass.callOutput_lowpass_linear NCH c c' _ _ _ (k' + 1) i hk1 hi
    intro j _ hj
    exact ih (j - 1) (by omega) i hi
  have hnet : ∀ k, 1 ≤ k → k ≤ n + 1 →
      Reverb.networkInputAt cos (fun k j => c * x k j + c' * x' k j) k i
        = c * Reverb.networkInputAt cos x k i + c' * Reverb.networkInputAt cos x' k i := by
    intro k hk1 hk
    obtain ⟨k', rfl⟩ : ∃ k', k = k' + 1 := ⟨k - 1, by omega⟩
    rw [Reverb.networkInputAt_succ cos _ k' i hi, Reverb.networkInputAt_succ cos x k' i hi,
      Reverb.networkInputAt_succ cos x' k' i hi]
    have hd : ∀ j, j < (Reverb.new cos).distrib.cols →
        callOutput Delay.update (Reverb.new cos).inDelay
            (fun k j => c * x k j + c' * x' k j) (k' + 1) j
          = c * callOutput Delay.update (Reverb.new cos).inDelay x (k' + 1) j
            + c' * callOutput Delay.update (Reverb.new cos).inDelay x' (k' + 1) j := by
      intro j hj
      exact Delay.callOutput_linear 2 _ c c' x x' _ (k' + 1) j (by omega) hj
        (fun _ _ _ => rfl)
    have hf : callOutput Delay.update (Reverb.new cos).fbDelayLine
          (Reverb.pushedAt cos (fun k j => c * x k j + c' * x' k j)) (k' + 1) i
        = c * callOutput Delay.update (Reverb.new cos).fbDelayLine
              (Reverb.pushedAt cos x) (k' + 1) i
          + c' * callOutput Delay.update (Reverb.new cos).fbDelayLine
              (Reverb.pushedAt cos x') (k' + 1) i :=
      Delay.callOutput_linear NCH _ c c' _ _ _ (k' + 1) i (by omega) hi
        (fun j hj1 hj => hpush j hj1 (by omega))
    rw [Matrix.mulVec_linear _ c c' _ _ _ hd i, hf]
    ring
  exact Allpass.callOutput_allpass_linear cos NCH 0.3 0.3 c c' _ _ _ i hi m hm1
    (fun k hk1 hk => hnet k hk1 (by omega))

/-- The stored `mixed` frames of a fresh `Reverb` are linear in the input sequence. -/
theorem Reverb.mixedAfter_linear (cos : α → α) (c c' : α) (x x' : Nat → Frame α) (n : Nat) :
    ∀ k, k ≤ n → ∀ i, i < NCH →
      Reverb.mixedAfter cos (fun k j => c * x k j + c' * x' k j) k i
        = c * Reverb.mixedAfter cos x k i + c' * Reverb.mixedAfter cos x' k i := by
  induction n with
  | zero =>
    intro k hk i _
    have : k = 0 := by omega
    subst this
    show (0 : α) = c * 0 + c' * 0
    ring
  | succ n ih =>
    intro k hk i hi
    by_cases hkn : k ≤ n
    · exact ih k hkn i hi
    · have : k = n + 1 := by omega
      subst this
      rw [(Reverb.call_succ cos _ n).1 i hi, (Reverb.call_succ cos x n).1 i hi,
        (Reverb.call_succ cos x' n).1 i hi]
      apply Matrix.mulVec_linear
      intro j hj
      exact Reverb.allpass_out_linear cos c c' x x' n ih (n + 1) j (by omega) (le_refl _) hj

end ReverbLinearity

/-- C19: linearity of the reverberator.  For stereo input sequences `x`, `x'` and
scalars `c`, `c'`, a fresh `Reverb` fed `c x + c' x'` returns on every call the frame
`c out(x) + c' out(x')`, where `out(s)` is the frame a fresh `Reverb` returns on that
call for the sequence `s`. -/
theorem Reverb.update_linear {α : Type} [Field α] (cos : α → α) (c c' : α)
    (x x' : Nat → Frame α) (n i : Nat) :
    callOutput Reverb.update (Reverb.new cos) (fun k j => c * x k j + c' * x' k j) (n + 1) i
      = c * callOutput Reverb.update (Reverb.new cos) x (n + 1) i
        + c' * callOutput Reverb.update (Reverb.new cos) x' (n + 1) i := by
  rw [(Reverb.call_succ cos _ n).2, (Reverb.call_succ cos x n).2, (Reverb.call_succ cos x' n).2]
  apply Matrix.mulVec_linear
  intro j hj
  apply Matrix.mulVec_linear
  intro l hl
  exact Reverb.allpass_out_linear cos c c' x x' n (Reverb.mixedAfter_linear cos c c' x x' n)
    (n + 1) l (by omega) (le_refl _) hl

/-! ### The caller's array -/

section PointerLemmas
variable {α : Type} [Field α]

theorem Delay.update_copy (d : Delay α) (dim : Nat) (hd : d.inputDim = dim) (t a : Frame α) :
    d.update (copy dim t a) = d.update a := by
  apply Delay.update_congr
  intro i hi
  rw [hd] at hi
  rw [copy_apply, if_pos hi]

/-- `Lowpass::update` on pointers returns the caller's array, which then holds the
frame of the value-level `Lowpass.update`, and reaches the same state. -/
theorem Lowpass.updateAt_caller (lp : Lowpass α) (h : Heap α)
    (h1 : lp.delay1.inputDim = lp.inputDim) (h2 : lp.delay2.inputDim = lp.inputDim)
    (h3 : lp.delay3.inputDim = lp.inputDim) (h4 : lp.delay4.inputDim = lp.inputDim) :
    (lp.updateAt Buf.caller h).2.2 = Buf.caller
    ∧ (lp.updateAt Buf.caller h).2.1 Buf.caller = (lp.update (h Buf.caller)).2
    ∧ (lp.updateAt Buf.caller h).1 = (lp.update (h Buf.caller)).1 := by
  refine ⟨rfl, ?_, ?_⟩
  · funext i
    by_cases hi : i < lp.inputDim <;>
    simp [Lowpass.updateAt, Lowpass.update, copyAt, addAt, multAt, Delay.updateAt,
      Function.update_apply, Delay.update_copy _ _ h1, Delay.update_copy _ _ h2,
      Delay.update_copy _ _ h3, Delay.update_copy _ _ h4, add_apply, mult_apply, h1, h2, h3, h4,
      hi]
  · simp [Lowpass.updateAt, Lowpass.update, copyAt, addAt, multAt, Delay.updateAt,
      Function.update_apply, Delay.update_copy _ _ h1, Delay.update_copy _ _ h2,
      Delay.update_copy _ _ h3, Delay.update_copy _ _ h4]

/-- `Allpass::update` on pointers returns the caller's array, which then holds the
frame of the value-level `Allpass.update`, and reaches the same state. -/
theorem Allpass.updateAt_caller_allpass (ap : Allpass α) (h : Heap α)
    (h1 : ap.ff1.inputDim = ap.inputDim) (h2 : ap.ff2.inputDim = ap.inputDim)
    (h3 : ap.fb1.inputDim = ap.inputDim) (h4 : ap.fb2.inputDim = ap.inputDim) :
    (ap.updateAt Buf.caller h).2.2 = Buf.caller
    ∧ (ap.updateAt Buf.caller h).2.1 Buf.caller = (ap.update (h Buf.caller)).2
    ∧ (ap.updateAt Buf.caller h).1 = (ap.update (h Buf.caller)).1 := by
  have e : (ap.updateAt Buf.caller h).2.1 Buf.caller = (ap.update (h Buf.caller)).2 := by
    funext i
    by_cases hi : i < ap.inputDim <;>
    simp [Allpass.updateAt, Allpass.update, copyAt, addAt, multAt, Delay.updateAt,
      Function.update_apply, Delay.update_copy _ _ h1, Delay.update_copy _ _ h2,
      add_apply, mult_apply, h1, h2, h3, h4, hi]
  refine ⟨rfl, e, ?_⟩
  have ef : (ap.updateAt Buf.caller h).1.feedback = (ap.update (h Buf.caller)).1.feedback := by
    show copy ap.inputDim _ _ = copy ap.inputDim ap.feedback (ap.update (h Buf.caller)).2
    rw [← e]
    simp [Allpass.updateAt, copyAt, addAt, multAt, Delay.updateAt, Function.update_apply]
  have e1 : (ap.updateAt Buf.caller h).1.ff1 = (ap.update (h Buf.caller)).1.ff1 := by
    simp [Allpass.updateAt, Allpass.update, copyAt, addAt, multAt, Delay.updateAt,
      Function.update_apply, Delay.update_copy _ _ h1]
  have e2 : (ap.updateAt Buf.caller h).1.ff2 = (ap.update (h Buf.caller)).1.ff2 := by
    simp [Allpass.updateAt, Allpass.update, copyAt, addAt, multAt, Delay.updateAt,
      Function.update_apply, Delay.update_copy _ _ h2]
  have e3 : (ap.updateAt Buf.caller h).1.fb1 = (ap.update (h Buf.caller)).1.fb1 := by
    simp [Allpass.updateAt, Allpass.update, copyAt, addAt, multAt, Delay.updateAt,
      Function.update_apply]
  have e4 : (ap.updateAt Buf.caller h).1.fb2 = (ap.update (h Buf.caller)).1.fb2 := by
    simp [Allpass.updateAt, Allpass.update, copyAt, addAt, multAt, Delay.updateAt,
      Function.update_apply]
  have hs : ∀ a b : Allpass α, a.inputDim = b.inputDim → a.R2 = b.R2 →
      a.twoRCosTheta = b.twoRCosTheta → a.ff1 = b.ff1 → a.ff2 = b.ff2 → a.fb1 = b.fb1 →
      a.fb2 = b.fb2 → a.feedback = b.feedback → a.sampleCount = b.sampleCount → a = b := by
    intro a b q1 q2 q3 q4 q5 q6 q7 q8 q9
    cases a; cases b
    simp only [Allpass.mk.injEq]
    exact ⟨q1, q2, q3, q4, q5, q6, q7, q8, q9⟩
  exact hs _ _ rfl rfl rfl e1 e2 e3 e4 ef rfl

/-- `Delay::update` on pointers returns its `outputBuffer`, whose first `inputDim`
entries hold the frame of the value-level `Delay.update`, and leaves every other
array as it was. -/
theorem Delay.updateAt_caller_delay (d : Delay α) (h : Heap α) :
    (d.updateAt Buf.outputBuffer Buf.caller h).2.2 = Buf.outputBuffer
    ∧ (∀ i, i < d.inputDim →
        (d.updateAt Buf.outputBuffer Buf.caller h).2.1 Buf.outputBuffer i
          = (d.update (h Buf.caller)).2 i)
    ∧ (d.updateAt Buf.outputBuffer Buf.caller h).2.1 Buf.caller = h Buf.caller
    ∧ (d.updateAt Buf.outputBuffer Buf.caller h).1 = (d.update (h Buf.caller)).1 := by
  refine ⟨rfl, ?_, ?_, rfl⟩
  · intro i hi
    simp [Delay.updateAt, hi]
  · simp [Delay.updateAt, Function.update_apply]

/-- `Allpass2::update` on pointers returns its `output` array, whose first
`inputDim` entries hold the frame of the value-level `Allpass2.update`, and leaves
every other array as it was. -/
theorem Allpass2.updateAt_caller_allpass2 (ap : Allpass2 α) (h : Heap α) :
    (ap.updateAt Buf.caller h).2.2 = Buf.output
    ∧ (∀ i, i < ap.inputDim →
        (ap.updateAt Buf.caller h).2.1 Buf.output i = (ap.update (h Buf.caller)).2 i)
    ∧ (ap.updateAt Buf.caller h).2.1 Buf.caller = h Buf.caller
    ∧ (ap.updateAt Buf.caller h).1 = (ap.update (h Buf.caller)).1 := by
  refine ⟨rfl, ?_, ?_, rfl⟩
  · intro i hi
    simp [Allpass2.updateAt, hi]
  · simp [Allpass2.updateAt, Function.update_apply]

end PointerLemmas

/-- C18: the in-place effect of the filters on the caller's frame.  With the arrays
addressed by pointer, for a `Lowpass` and an `Allpass` built by their constructors and
in any state a run can reach, `update` returns the caller's array itself, and after
the call that array holds the frame the filter computes (so its first `inputDim`
entries are overwritten with the output); `Delay::update` and `Allpass2::update`
return their own member array and leave the caller's array as it was. -/
theorem update_effect_on_caller_array {α : Type} [Field α] (cos : α → α) (dim : Nat)
    (R theta : α) (x : Nat → Frame α) (n : Nat) (d : Delay α) (ap2 : Allpass2 α)
    (h : Heap α) :
    ((stateAfter Lowpass.update (Lowpass.new dim) x n).updateAt Buf.caller h).2.2 = Buf.caller
    ∧ ((stateAfter Lowpass.update (Lowpass.new dim) x n).updateAt Buf.caller h).2.1 Buf.caller
        = ((stateAfter Lowpass.update (Lowpass.new dim) x n).update (h Buf.caller)).2
    ∧ ((stateAfter Allpass.update (Allpass.new cos dim R theta) x n).updateAt Buf.caller h).2.2
        = Buf.caller
    ∧ ((stateAfter Allpass.update (Allpass.new cos dim R theta) x n).updateAt Buf.caller h).2.1
          Buf.caller
        = ((stateAfter Allpass.update (Allpass.new cos dim R theta) x n).update (h Buf.caller)).2
    ∧ (d.updateAt Buf.outputBuffer Buf.caller h).2.2 = Buf.outputBuffer
    ∧ (d.updateAt Buf.outputBuffer Buf.caller h).2.1 Buf.caller = h Buf.caller
    ∧ (ap2.updateAt Buf.caller h).2.2 = Buf.output
    ∧ (ap2.updateAt Buf.caller h).2.1 Buf.caller = h Buf.caller := by
  have hl := Lowpass.stateAfter_fresh dim x n
  have l1 : (stateAfter Lowpass.update (Lowpass.new dim) x n).delay1.inputDim
      = (stateAfter Lowpass.update (Lowpass.new dim) x n).inputDim := by
    rw [hl]; exact Delay.stateAfter_inputDim _ x n
  have l2 : (stateAfter Lowpass.update (Lowpass.new dim) x n).delay2.inputDim
      = (stateAfter Lowpass.update (Lowpass.new dim) x n).inputDim := by
    rw [hl]; exact Delay.stateAfter_inputDim _ x n
  have l3 : (stateAfter Lowpass.update (Lowpass.new dim) x n).delay3.inputDim
      = (stateAfter Lowpass.update (Lowpass.new dim) x n).inputDim := by
    rw [hl]; exact Delay.stateAfter_inputDim _ x n
  have l4 : (stateAfter Lowpass.update (Lowpass.new dim) x n).delay4.inputDim
      = (stateAfter Lowpass.update (Lowpass.new dim) x n).inputDim := by
    rw [hl]; exact Delay.stateAfter_inputDim _ x n
  obtain ⟨a1, a2, a3, a4⟩ := Allpass.stateAfter_delays cos dim R theta x n
  have hd : (stateAfter Allpass.update (Allpass.new cos dim R theta) x n).inputDim = dim :=
    (Allpass.stateAfter_coefficients (Allpass.new cos dim R theta) x n).1
  have b1 : (stateAfter Allpass.update (Allpass.new cos dim R theta) x n).ff1.inputDim
      = (stateAfter Allpass.update (Allpass.new cos dim R theta) x n).inputDim := by
    rw [a1, hd]; exact Delay.stateAfter_inputDim _ x n
  have b2 : (stateAfter Allpass.update (Allpass.new cos dim R theta) x n).ff2.inputDim
      = (stateAfter Allpass.update (Allpass.new cos dim R theta) x n).inputDim := by
    rw [a2, hd]; exact Delay.stateAfter_inputDim _ x n
  have b3 : (stateAfter Allpass.update (Allpass.new cos dim R theta) x n).fb1.inputDim
      = (stateAfter Allpass.update (Allpass.new cos dim R theta) x n).inputDim := by
    rw [a3, hd]; exact Delay.stateAfter_inputDim _ _ n
  have b4 : (stateAfter Allpass.update (Allpass.new cos dim R theta) x n).fb2.inputDim
      = (stateAfter Allpass.update (Allpass.new cos dim R theta) x n).inputDim := by
    rw [a4, hd]; exact Delay.stateAfter_inputDim _ _ n
  obtain ⟨p1, p2, _⟩ := Lowpass.updateAt_caller _ h l1 l2 l3 l4
  obtain ⟨q1, q2, _⟩ := Allpass.updateAt_caller_allpass _ h b1 b2 b3 b4
  obtain ⟨r1, _, r3, _⟩ := Delay.updateAt_caller_delay d h
  obtain ⟨s1, _, s3, _⟩ := Allpass2.updateAt_caller_allpass2 ap2 h
  exact ⟨p1, p2, q1, q2, r1, r3, s1, s3⟩

/-! ### Array bounds -/

section BoundsLemmas
variable {α : Type} [Field α]

theorem Access.inBounds_iff (a : Access) : a.inBounds ↔ a.count ≤ a.capacity := by
  unfold Access.inBounds
  constructor
  · intro h
    by_contra hc
    have := h a.capacity (by omega)
    omega
  · intro h i hi
    omega

theorem Reverb.update_accesses (s : Reverb α) (x : Frame α) :
    Reverb.updateAccesses (s.update x).1 = Reverb.updateAccesses s
    ∧ Reverb.delayChannels (s.update x).1 = Reverb.delayChannels s := ⟨rfl, rfl⟩

theorem Reverb.stateAfter_accesses (s : Reverb α) (x : Nat → Frame α) (n : Nat) :
    Reverb.updateAccesses (stateAfter Reverb.update s x n) = Reverb.updateAccesses s
    ∧ Reverb.delayChannels (stateAfter Reverb.update s x n) = Reverb.delayChannels s := by
  induction n with
  | zero => exact ⟨rfl, rfl⟩
  | succ n ih =>
    obtain ⟨h1, h2⟩ := Reverb.update_accesses (stateAfter Reverb.update s x n) (x (n + 1))
    simp only [stateAfter]
    exact ⟨h1.trans ih.1, h2.trans ih.2⟩

theorem Reverb.new_accesses_inBounds (cos : α → α) :
    ∀ a, a ∈ Reverb.updateAccesses (Reverb.new cos) → a.inBounds := by
  simp [Access.inBounds_iff, Reverb.updateAccesses, Allpass.updateAccesses,
    Lowpass.updateAccesses, Delay.updateAccesses, pairAccesses, multAccesses, Reverb.new,
    Lowpass.new, Allpass.new, Delay.ofArray, Delay.ofLag, Matrix.ofRowMajor,
    feedbackMatrixValue, Matrix.mul, Matrix.transpose, eigenvectors, eigenvalues, Matrix.diag,
    NCH, Delay.queuesCapacity, Delay.outputBufferCapacity, filterArrayCapacity]

theorem Reverb.ctorAccesses_inBounds : ∀ a, a ∈ Reverb.ctorAccesses → a.inBounds := by
  intro a ha
  rw [Access.inBounds_iff]
  have h : Reverb.ctorAccesses.all (fun a => decide (a.count ≤ a.capacity)) = true := rfl
  exact of_decide_eq_true (List.all_eq_true.mp h a ha)

end BoundsLemmas

/-- C15: the capacity precondition holds throughout the `Reverb`.  The two lag arrays
are as long as the channel counts of the delay lines built from them; in every
reachable state each of the ten delay lines has at most 8 channels; and every array
access made by the constructor and by every call of `Reverb::update` (into `queues`,
`outputBuffer`, `temp`, `feedback`, `feedBack`, the lag arrays and the arrays passed
between the steps) uses an index within the array. -/
theorem Reverb.accesses_in_bounds {α : Type} [Field α] (cos : α → α) (x : Nat → Frame α)
    (n : Nat) :
    ((Reverb.new cos).inDelay = Delay.ofArray 2 (fun i => Reverb.inDelayLags.getD i 0)
      ∧ (Reverb.new cos).inDelay.inputDim ≤ Reverb.inDelayLags.length)
    ∧ ((Reverb.new cos).fbDelayLine = Delay.ofArray NCH (fun i => Reverb.fbDelayLags.getD i 0)
      ∧ (Reverb.new cos).fbDelayLine.inputDim ≤ Reverb.fbDelayLags.length)
    ∧ Reverb.delayChannels (stateAfter Reverb.update (Reverb.new cos) x n)
        = [2, 8, 8, 8, 8, 8, 8, 8, 8, 8]
    ∧ (∀ c, c ∈ Reverb.delayChannels (stateAfter Reverb.update (Reverb.new cos) x n) →
        c ≤ Delay.queuesCapacity)
    ∧ (∀ a, a ∈ Reverb.ctorAccesses → a.inBounds)
    ∧ (∀ a, a ∈ Reverb.updateAccesses (stateAfter Reverb.update (Reverb.new cos) x n) →
        a.inBounds) := by
  obtain ⟨h1, h2⟩ := Reverb.stateAfter_accesses (Reverb.new cos) x n
  have hc : Reverb.delayChannels (Reverb.new cos) = [2, 8, 8, 8, 8, 8, 8, 8, 8, 8] := rfl
  refine ⟨⟨rfl, Nat.le_refl 2⟩, ⟨rfl, Nat.le_refl 8⟩, by rw [h2, hc], ?_,
    Reverb.ctorAccesses_inBounds, ?_⟩
  · rw [h2, hc]
    intro c hc'
    simp only [List.mem_cons, List.mem_singleton, List.not_mem_nil, or_false] at hc'
    rcases hc' with rfl | rfl | rfl | rfl | rfl | rfl | rfl | rfl | rfl | rfl <;> decide
  · rw [h1]
    exact Reverb.new_accesses_inBounds cos

/-! ### The recurrences of the feedback state -/

/-- The recurrences that govern the feedback state of a fresh `Reverb`.  In call `n + 1`, on each channel `i < 8`: the stored
`mixed` frame is `feedbackmatrix` times the allpass output; the allpass output follows
the recurrence of the delay-line-backed allpass on the network input; the network
input is `distrib` times the delayed stereo input plus the pushed frame of
`lag i` calls earlier (zero during the first `lag i` calls); and the pushed frame is
the 5-tap average of the stored `mixed` frames. -/
theorem Reverb.feedback_state_recurrences {α : Type} [Field α] [CharZero α] (cos : α → α)
    (x : Nat → Frame α) (n i : Nat) (hi : i < NCH) :
    Reverb.mixedAfter cos x (n + 1) i
        = Finset.sum (Finset.range NCH) (fun j => feedbackMatrixValue.coef i j
            * callOutput Allpass.update (Reverb.new cos).allpass (Reverb.networkInputAt cos x)
                (n + 1) j)
    ∧ callOutput Allpass.update (Reverb.new cos).allpass (Reverb.networkInputAt cos x) (n + 1) i
        = 0.3 * 0.3 * Reverb.networkInputAt cos x (n + 1) i
          - 2 * 0.3 * cos 0.3 * past (fun k => Reverb.networkInputAt cos x k i) (n + 1) 1
          + past (fun k => Reverb.networkInputAt cos x k i) (n + 1) 2
          + 2 * 0.3 * cos 0.3
              * past (fun k => callOutput Allpass.update (Reverb.new cos).allpass
                  (Reverb.networkInputAt cos x) k i) (n + 1) 2
          - 0.3 * 0.3
              * past (fun k => callOutput Allpass.update (Reverb.new cos).allpass
                  (Reverb.networkInputAt cos x) k i) (n + 1) 3
    ∧ Reverb.networkInputAt cos x (n + 1) i
        = (Reverb.new cos).distrib.mulVec
            (fun j => past (fun k => x k j) (n + 1) ([100, 120].getD j 0)) i
          + (if n + 1 ≤ (Reverb.fbDelayLags.getD i 0).toNat then 0
             else Reverb.pushedAt cos x (n + 1 - (Reverb.fbDelayLags.getD i 0).toNat) i)
    ∧ Reverb.pushedAt cos x (n + 1) i
        = (past (fun k => Reverb.mixedAfter cos x k i) (n + 1) 1
            + past (fun k => Reverb.mixedAfter cos x k i) (n + 1) 2
            + past (fun k => Reverb.mixedAfter cos x k i) (n + 1) 3
            + past (fun k => Reverb.mixedAfter cos x k i) (n + 1) 4
            + past (fun k => Reverb.mixedAfter cos x k i) (n + 1) 5) / 5 := by
  refine ⟨?_, ?_, ?_, Reverb.pushedAt_average cos x n i hi⟩
  · rw [(Reverb.call_succ cos x n).1 i hi]
    unfold Matrix.mulVec
    have hr : ((Reverb.new cos).feedbackmatrix).rows = NCH := rfl
    rw [hr, if_pos hi]
    rfl
  · exact Allpass.callOutput_recurrence cos NCH 0.3 0.3 (Reverb.networkInputAt cos x)
      (n + 1) i (by omega) hi
  · rw [Reverb.networkInputAt_succ cos x n i hi]
    congr 1
    · unfold Matrix.mulVec
      by_cases hr : i < (Reverb.new cos).distrib.rows
      · rw [if_pos hr, if_pos hr]
        apply Finset.sum_congr rfl
        intro j hj
        rw [Reverb.inDelay_callOutput cos x (n + 1) j (by omega) (Finset.mem_range.mp hj)]
      · rw [if_neg hr, if_neg hr]
    · exact Delay.callOutput_ofArray NCH _ (Reverb.pushedAt cos x) (n + 1) i (by omega) hi

/-! ### Power series of the loop recurrences -/

theorem hasSum_past (s : ℕ → ℝ) (r : ℝ) (k : ℕ) (G : ℝ)
    (h : HasSum (fun n => s (n + 1) * r ^ (n + 1)) G) :
    HasSum (fun n => past s (n + 1) k * r ^ (n + 1)) (r ^ k * G) := by
  have h1 : HasSum (fun n => past s (n + k + 1) k * r ^ (n + k + 1)) (r ^ k * G) := by
    have h2 := h.mul_left (r ^ k)
    convert h2 using 1
    ext n
    unfold past
    rw [if_pos (by omega)]
    have e : n + k + 1 - k = n + 1 := by omega
    rw [e]
    ring
  have h3 := (hasSum_nat_add_iff (f := fun n => past s (n + 1) k * r ^ (n + 1)) k).mp h1
  have h4 : Finset.sum (Finset.range k) (fun i => past s (i + 1) k * r ^ (i + 1)) = 0 := by
    apply Finset.sum_eq_zero
    intro i hi
    have hik : i < k := Finset.mem_range.mp hi
    unfold past
    rw [if_neg (by omega), zero_mul]
  rw [h4, add_zero] at h3
  exact h3

theorem hasSum_single_call (c r : ℝ) (k : ℕ) :
    HasSum (fun n => (if n = k then c else 0) * r ^ (n + 1)) (c * r ^ (k + 1)) := by
  have h := hasSum_ite_eq k (c * r ^ (k + 1))
  convert h using 1
  ext n
  by_cases hn : n = k
  · rw [if_pos hn, if_pos hn, hn]
  · rw [if_neg hn, if_neg hn, zero_mul]

/-- The power-series form of the loop recurrences: if the sequences `m`, `u`, `p`
obey the recurrences of the feedback loop and `G i` is the sum of `m n i * r ^ n`,
then the `G i` solve a linear system. -/
theorem loop_transform (F : ℕ → ℕ → ℝ) (L : ℕ → ℕ) (δ : ℕ → ℝ) (a b : ℝ) (m u p : ℕ → ℕ → ℝ)
    (hm : ∀ n i, i < 8 → m (n + 1) i
      = b * past (fun k => m k i) (n + 1) 2 - a * past (fun k => m k i) (n + 1) 3
        + Finset.sum (Finset.range 8) (fun j => F i j
            * (a * u (n + 1) j - b * past (fun k => u k j) (n + 1) 1
                + past (fun k => u k j) (n + 1) 2)))
    (hu : ∀ n i, i < 8 → u (n + 1) i
      = (if n = 100 then δ i else 0) + past (fun k => p k i) (n + 1) (L i))
    (hp : ∀ n i, i < 8 → p (n + 1) i
      = (past (fun k => m k i) (n + 1) 1 + past (fun k => m k i) (n + 1) 2
          + past (fun k => m k i) (n + 1) 3 + past (fun k => m k i) (n + 1) 4
          + past (fun k => m k i) (n + 1) 5) / 5)
    (r : ℝ) (G : ℕ → ℝ) (hG : ∀ i, i < 8 → HasSum (fun n => m (n + 1) i * r ^ (n + 1)) (G i))
    (i : ℕ) (hi : i < 8) :
    G i = b * (r ^ 2 * G i) - a * (r ^ 3 * G i)
      + Finset.sum (Finset.range 8) (fun j => F i j * ((a - b * r + r ^ 2)
          * (δ j * r ^ 101 + r ^ (L j) * ((r + r ^ 2 + r ^ 3 + r ^ 4 + r ^ 5) / 5 * G j)))) := by
  have hP : ∀ j, j < 8 → HasSum (fun n => p (n + 1) j * r ^ (n + 1))
      ((r + r ^ 2 + r ^ 3 + r ^ 4 + r ^ 5) / 5 * G j) := by
    intro j hj
    have h1 := hasSum_past (fun k => m k j) r 1 (G j) (hG j hj)
    have h2 := hasSum_past (fun k => m k j) r 2 (G j) (hG j hj)
    have h3 := hasSum_past (fun k => m k j) r 3 (G j) (hG j hj)
    have h4 := hasSum_past (fun k => m k j) r 4 (G j) (hG j hj)
    have h5 := hasSum_past (fun k => m k j) r 5 (G j) (hG j hj)
    have h := ((((h1.add h2).add h3).add h4).add h5).div_const 5
    convert h using 1
    · ext n
      rw [hp n j hj]
      ring
    · ring
  have hU : ∀ j, j < 8 → HasSum (fun n => u (n + 1) j * r ^ (n + 1))
      (δ j * r ^ 101 + r ^ (L j) * ((r + r ^ 2 + r ^ 3 + r ^ 4 + r ^ 5) / 5 * G j)) := by
    intro j hj
    have h1 := hasSum_single_call (δ j) r 100
    have h2 := hasSum_past (fun k => p k j) r (L j) _ (hP j hj)
    have h := h1.add h2
    convert h using 1
    ext n
    rw [hu n j hj]
    ring
  have hR : HasSum (fun n => m (n + 1) i * r ^ (n + 1))
      (b * (r ^ 2 * G i) - a * (r ^ 3 * G i)
        + Finset.sum (Finset.range 8) (fun j => F i j * ((a - b * r + r ^ 2)
          * (δ j * r ^ 101 + r ^ (L j) * ((r + r ^ 2 + r ^ 3 + r ^ 4 + r ^ 5) / 5 * G j))))) := by
    have h2 := (hasSum_past (fun k => m k i) r 2 (G i) (hG i hi)).mul_left b
    have h3 := (hasSum_past (fun k => m k i) r 3 (G i) (hG i hi)).mul_left a
    have hS : HasSum (fun n => Finset.sum (Finset.range 8) (fun j => F i j
            * ((a * u (n + 1) j - b * past (fun k => u k j) (n + 1) 1
                + past (fun k => u k j) (n + 1) 2) * r ^ (n + 1))))
        (Finset.sum (Finset.range 8) (fun j => F i j * ((a - b * r + r ^ 2)
          * (δ j * r ^ 101 + r ^ (L j) * ((r + r ^ 2 + r ^ 3 + r ^ 4 + r ^ 5) / 5 * G j))))) := by
      apply hasSum_sum
      intro j hj
      have hj8 : j < 8 := Finset.mem_range.mp hj
      have u0 := (hU j hj8).mul_left a
      have u1 := (hasSum_past (fun k => u k j) r 1 _ (hU j hj8)).mul_left b
      have u2 := hasSum_past (fun k => u k j) r 2 _ (hU j hj8)
      have h := (((u0.sub u1).add u2)).mul_left (F i j)
      convert h using 1
      · ext n
        ring
      · ring
    have h := (h2.sub h3).add hS
    convert h using 1
    ext n
    rw [hm n i hi, add_mul, Finset.sum_mul]
    congr 1
    · ring
    · apply Finset.sum_congr rfl
      intro j _
      ring
  exact (hG i hi).unique hR

theorem summable_of_bounded (s : ℕ → ℝ) (B : ℝ) (hB : ∀ n, |s n| ≤ B) (r : ℝ) (hr0 : 0 ≤ r)
    (hr1 : r < 1) : Summable (fun n => s (n + 1) * r ^ (n + 1)) := by
  have hg : Summable (fun n : ℕ => B * r ^ (n + 1)) := by
    have h1 : Summable (fun n : ℕ => r ^ n) := summable_geometric_of_lt_one hr0 hr1
    have h2 := (summable_nat_add_iff (f := fun n : ℕ => r ^ n) 1).mpr h1
    exact h2.mul_left B
  apply Summable.of_norm_bounded _ hg
  intro n
  rw [norm_mul, Real.norm_eq_abs, Real.norm_eq_abs, abs_of_nonneg (pow_nonneg hr0 _)]
  exact mul_le_mul_of_nonneg_right (hB _) (pow_nonneg hr0 _)

/-! ### The loop recurrences without the allpass output -/

theorem past_finset_sum {α : Type} [Field α] (c : Nat → α) (y : Nat → Nat → α) (m : Nat → α)
    (N : Nat) (hm : ∀ n, m (n + 1) = Finset.sum (Finset.range N) (fun j => c j * y (n + 1) j))
    (n d : Nat) :
    past m n d = Finset.sum (Finset.range N) (fun j => c j * past (fun k => y k j) n d) := by
  unfold past
  by_cases h : d < n
  · simp only [if_pos h]
    obtain ⟨k, hk⟩ : ∃ k, n - d = k + 1 := ⟨n - d - 1, by omega⟩
    rw [hk, hm k]
  · simp only [if_neg h, mul_zero, Finset.sum_const_zero]

/-- The `mixed` frames of a run obey a recurrence in which the allpass output no
longer appears. -/
theorem Reverb.mixed_recurrence {α : Type} [Field α] [CharZero α] (cos : α → α)
    (x : Nat → Frame α) (n i : Nat) (hi : i < NCH) :
    Reverb.mixedAfter cos x (n + 1) i
      = 2 * 0.3 * cos 0.3 * past (fun k => Reverb.mixedAfter cos x k i) (n + 1) 2
        - 0.3 * 0.3 * past (fun k => Reverb.mixedAfter cos x k i) (n + 1) 3
        + Finset.sum (Finset.range NCH) (fun j => feedbackMatrixValue.coef i j
            * (0.3 * 0.3 * Reverb.networkInputAt cos x (n + 1) j
                - 2 * 0.3 * cos 0.3 * past (fun k => Reverb.networkInputAt cos x k j) (n + 1) 1
                + past (fun k => Reverb.networkInputAt cos x k j) (n + 1) 2)) := by
  have hm : ∀ k, (fun k => Reverb.mixedAfter cos x k i) (k + 1)
      = Finset.sum (Finset.range NCH) (fun j => feedbackMatrixValue.coef i j
          * callOutput Allpass.update (Reverb.new cos).allpass (Reverb.networkInputAt cos x)
              (k + 1) j) :=
    fun k => (Reverb.feedback_state_recurrences cos x k i hi).1
  rw [past_finset_sum _ _ _ NCH hm (n + 1) 2, past_finset_sum _ _ _ NCH hm (n + 1) 3,
    (Reverb.feedback_state_recurrences cos x n i hi).1, Finset.mul_sum, Finset.mul_sum,
    ← Finset.sum_sub_distrib, ← Finset.sum_add_distrib]
  apply Finset.sum_congr rfl
  intro j hj
  rw [(Reverb.feedback_state_recurrences cos x n j (Finset.mem_range.mp hj)).2.1]
  ring

/-- The frame that enters the allpass when the input is the impulse `[1, 0]`. -/
theorem Reverb.networkInputAt_impulse (n i : Nat) (hi : i < NCH) :
    Reverb.networkInputAt Real.cos (impulse 0) (n + 1) i
      = (if n = 100 then (Reverb.new Real.cos).distrib.coef i 0 else 0)
        + past (fun k => Reverb.pushedAt Real.cos (impulse 0) k i) (n + 1)
            (Reverb.fbDelayLags.getD i 0).toNat := by
  rw [(Reverb.feedback_state_recurrences Real.cos (impulse 0) n i hi).2.2.1]
  congr 1
  · have hr : (Reverb.new Real.cos).distrib.rows = NCH := rfl
    have hc : (Reverb.new Real.cos).distrib.cols = 2 := rfl
    unfold Matrix.mulVec
    rw [hr, if_pos hi, hc]
    simp only [Finset.sum_range_succ, Finset.sum_range_zero, zero_add]
    have e0 : past (fun k => impulse (α := ℝ) 0 k 0) (n + 1) ([100, 120].getD 0 0)
        = if n = 100 then 1 else 0 := by
      unfold past impulse
      simp only [List.getD_cons_zero]
      by_cases h : n = 100
      · subst h
        simp
      · rw [if_neg h]
        by_cases h2 : 100 < n + 1
        · rw [if_pos h2, if_neg]
          omega
        · rw [if_neg h2]
    have e1 : past (fun k => impulse (α := ℝ) 0 k 1) (n + 1) ([100, 120].getD 1 0) = 0 := by
      unfold past impulse
      simp
    rw [e0, e1]
    by_cases h : n = 100
    · simp [h]
    · simp [h]
  · unfold past
    by_cases h : n + 1 ≤ (Reverb.fbDelayLags.getD i 0).toNat
    · rw [if_pos h, if_neg (by omega)]
    · rw [if_neg h, if_pos (by omega)]

/-! ### A degenerate point of a continuous family of symmetric forms -/

theorem quadForm_smul {ι : Type} [Fintype ι] (M : ι → ι → ℝ) (c : ℝ) (z : ι → ℝ) :
    ∑ i, ∑ j, M i j * (c • z) i * (c • z) j = c ^ 2 * ∑ i, ∑ j, M i j * z i * z j := by
  simp only [Pi.smul_apply, smul_eq_mul, Finset.mul_sum]
  apply Finset.sum_congr rfl
  intro i _
  apply Finset.sum_congr rfl
  intro j _
  ring

theorem quadForm_add_smul {ι : Type} [Fintype ι] (M : ι → ι → ℝ) (hs : ∀ i j, M i j = M j i)
    (e : ℝ) (a z : ι → ℝ) :
    ∑ i, ∑ j, M i j * (z + e • a) i * (z + e • a) j
      = (∑ i, ∑ j, M i j * a i * a j) * e * e + (2 * ∑ i, ∑ j, M i j * a i * z j) * e
        + ∑ i, ∑ j, M i j * z i * z j := by
  have hsw : ∑ i, ∑ j, M i j * z i * a j = ∑ i, ∑ j, M i j * a i * z j := by
    rw [Finset.sum_comm]
    apply Finset.sum_congr rfl
    intro i _
    apply Finset.sum_congr rfl
    intro j _
    rw [hs j i]
    ring
  have h : ∑ i, ∑ j, M i j * (z + e • a) i * (z + e • a) j
      = (∑ i, ∑ j, M i j * a i * a j) * e * e
        + (∑ i, ∑ j, M i j * a i * z j) * e + (∑ i, ∑ j, M i j * z i * a j) * e
        + ∑ i, ∑ j, M i j * z i * z j := by
    simp only [Pi.add_apply, Pi.smul_apply, smul_eq_mul, Finset.sum_mul, ← Finset.sum_add_distrib]
    apply Finset.sum_congr rfl
    intro i _
    apply Finset.sum_congr rfl
    intro j _
    ring
  rw [h, hsw]
  ring

/-- A continuous family of symmetric forms that is positive definite at `0` and
takes a negative value at `t1` has, at some `t0` in `(0, t1]`, a non-zero vector in its
kernel. -/
theorem exists_degenerate_point {ι : Type} [Fintype ι] (S : ℝ → ι → ι → ℝ)
    (hc : ∀ i j, Continuous (fun t => S t i j))
    (hs : ∀ t i j, S t i j = S t j i)
    (t1 : ℝ) (ht1 : 0 ≤ t1)
    (h0 : ∀ z : ι → ℝ, z ≠ 0 → 0 < ∑ i, ∑ j, S 0 i j * z i * z j)
    (h1 : ∃ z : ι → ℝ, ∑ i, ∑ j, S t1 i j * z i * z j < 0) :
    ∃ t0, 0 < t0 ∧ t0 ≤ t1 ∧ ∃ z0 : ι → ℝ, z0 ≠ 0
      ∧ ∀ a : ι → ℝ, ∑ i, ∑ j, S t0 i j * a i * z0 j = 0 := by
  have hphi : Continuous (fun p : ℝ × (ι → ℝ) => ∑ i, ∑ j, S p.1 i j * p.2 i * p.2 j) := by
    apply continuous_finset_sum
    intro i _
    apply continuous_finset_sum
    intro j _
    exact (((hc i j).comp continuous_fst).mul ((continuous_apply i).comp continuous_snd)).mul
      ((continuous_apply j).comp continuous_snd)
  have hphit : ∀ z : ι → ℝ, Continuous (fun t : ℝ => ∑ i, ∑ j, S t i j * z i * z j) := by
    intro z
    exact hphi.comp (Continuous.prod_mk continuous_id continuous_const)
  -- normalisation of a negative direction
  have hnorm : ∀ t (z : ι → ℝ), ∑ i, ∑ j, S t i j * z i * z j < 0 →
      ∃ z' : ι → ℝ, ‖z'‖ = 1 ∧ ∑ i, ∑ j, S t i j * z' i * z' j < 0 := by
    intro t z hz
    have hz0 : z ≠ 0 := by
      intro h
      rw [h] at hz
      simp at hz
    have hn : 0 < ‖z‖ := norm_pos_iff.mpr hz0
    refine ⟨(‖z‖)⁻¹ • z, ?_, ?_⟩
    · rw [norm_smul, norm_inv, norm_norm, inv_mul_cancel₀ hn.ne']
    · rw [quadForm_smul]
      have : 0 < (‖z‖)⁻¹ ^ 2 := by positivity
      nlinarith
  let N : Set (ℝ × (ι → ℝ)) :=
    (Set.Icc 0 t1 ×ˢ Metric.sphere (0 : ι → ℝ) 1)
      ∩ {p | ∑ i, ∑ j, S p.1 i j * p.2 i * p.2 j ≤ 0}
  have hN : IsCompact N :=
    (isCompact_Icc.prod (isCompact_sphere 0 1)).inter_right (isClosed_le hphi continuous_const)
  have hNne : N.Nonempty := by
    obtain ⟨z, hz⟩ := h1
    obtain ⟨z', hz1, hz2⟩ := hnorm t1 z hz
    refine ⟨(t1, z'), ⟨⟨⟨ht1, le_refl _⟩, ?_⟩, le_of_lt hz2⟩⟩
    simp [hz1]
  obtain ⟨⟨t0, z0⟩, hmem, hmin⟩ := hN.exists_isMinOn hNne continuous_fst.continuousOn
  obtain ⟨⟨⟨ht0a, ht0b⟩, hz0s⟩, hle⟩ := hmem
  have hz0n : ‖z0‖ = 1 := by simpa using hz0s
  have hz0 : z0 ≠ 0 := by
    intro h
    rw [h] at hz0n
    simp at hz0n
  simp only [Set.mem_setOf_eq] at hle
  have ht0 : 0 < t0 := by
    rcases lt_or_eq_of_le ht0a with h | h
    · exact h
    · exfalso
      have := h0 z0 hz0
      rw [h] at this
      linarith
  have hpsd : ∀ z : ι → ℝ, 0 ≤ ∑ i, ∑ j, S t0 i j * z i * z j := by
    intro z
    by_contra hneg
    push_neg at hneg
    have hopen : IsOpen {t : ℝ | ∑ i, ∑ j, S t i j * z i * z j < 0} :=
      isOpen_lt (hphit z) continuous_const
    obtain ⟨e, he, hball⟩ := Metric.isOpen_iff.mp hopen t0 hneg
    let t := t0 - min (e / 2) t0
    have hm1 : 0 < min (e / 2) t0 := lt_min (by linarith) ht0
    have hm2 : min (e / 2) t0 ≤ e / 2 := min_le_left _ _
    have hm3 : min (e / 2) t0 ≤ t0 := min_le_right _ _
    have htmem : t ∈ Metric.ball t0 e := by
      rw [Metric.mem_ball, Real.dist_eq]
      have : t - t0 = - min (e / 2) t0 := by simp [t]
      rw [this, abs_neg, abs_of_pos hm1]
      linarith
    have htneg := hball htmem
    simp only [Set.mem_setOf_eq] at htneg
    obtain ⟨z', hz1, hz2⟩ := hnorm t z htneg
    have htN : (t, z') ∈ N := by
      refine ⟨⟨⟨?_, ?_⟩, ?_⟩, le_of_lt hz2⟩
      · show 0 ≤ t0 - min (e / 2) t0
        linarith
      · show t0 - min (e / 2) t0 ≤ t1
        linarith
      · simp [hz1]
    have := hmin htN
    simp only [Set.mem_setOf_eq] at this
    have : t0 ≤ t0 - min (e / 2) t0 := this
    linarith
  have hzero : ∑ i, ∑ j, S t0 i j * z0 i * z0 j = 0 := le_antisymm hle (hpsd z0)
  refine ⟨t0, ht0, ht0b, z0, hz0, ?_⟩
  intro a
  have hq : ∀ e : ℝ, 0 ≤ (∑ i, ∑ j, S t0 i j * a i * a j) * (e * e)
      + (2 * ∑ i, ∑ j, S t0 i j * a i * z0 j) * e + 0 := by
    intro e
    have h := hpsd (z0 + e • a)
    rw [quadForm_add_smul (S t0) (hs t0) e a z0, hzero] at h
    linarith
  have hd : discrim (∑ i, ∑ j, S t0 i j * a i * a j) (2 * ∑ i, ∑ j, S t0 i j * a i * z0 j) 0
      ≤ 0 := discrim_le_zero hq
  unfold discrim at hd
  have hsq : (2 * ∑ i, ∑ j, S t0 i j * a i * z0 j) ^ 2 ≤ 0 := by linarith
  have h2 : (2 * ∑ i, ∑ j, S t0 i j * a i * z0 j) = 0 := by
    have := sq_nonneg (2 * ∑ i, ∑ j, S t0 i j * a i * z0 j)
    exact (pow_eq_zero_iff two_ne_zero).mp (le_antisymm hsq this)
  linarith

/-- The linear system of the loop has no solution at some point of `(0, t1 ^ 2]` when
the loop form is negative somewhere at `t1` and positive on the hyperplane orthogonal
to the drive. -/
theorem loop_system_unsolvable (F : ℕ → ℕ → ℝ) (hF : ∀ i j, F i j = F j i) (L : ℕ → ℕ)
    (hL : ∀ i, i < 8 → 0 < L i) (δ : ℕ → ℝ) (a b t1 : ℝ) (ht0 : 0 ≤ t1)
    (hn : ∀ r, 0 < r → r ≤ t1 ^ 2 → a - b * r + r ^ 2 ≠ 0)
    (ha : (1 - b * (t1 ^ 2) ^ 2 + a * (t1 ^ 2) ^ 3)
        - ((a - b * t1 ^ 2 + (t1 ^ 2) ^ 2)
            * ((t1 ^ 2 + (t1 ^ 2) ^ 2 + (t1 ^ 2) ^ 3 + (t1 ^ 2) ^ 4 + (t1 ^ 2) ^ 5) / 5))
          * (t1 ^ L 0 * F 0 0 * t1 ^ L 0) < 0)
    (hb : ∀ t, 0 < t → t ≤ t1 → ∀ z : ℕ → ℝ, (∃ i, i < 8 ∧ z i ≠ 0) →
        Finset.sum (Finset.range 8) (fun j =>
          Finset.sum (Finset.range 8) (fun i => F j i * δ i) * (t ^ L j * z j)) = 0 →
        0 < Finset.sum (Finset.range 8) (fun i => Finset.sum (Finset.range 8) (fun j =>
          ((if i = j then 1 - b * (t ^ 2) ^ 2 + a * (t ^ 2) ^ 3 else 0)
            - ((a - b * t ^ 2 + (t ^ 2) ^ 2)
                * ((t ^ 2 + (t ^ 2) ^ 2 + (t ^ 2) ^ 3 + (t ^ 2) ^ 4 + (t ^ 2) ^ 5) / 5))
              * (t ^ L i * F i j * t ^ L j)) * z i * z j)))
    (hsol : ∀ r, 0 < r → r ≤ t1 ^ 2 → ∃ G : ℕ → ℝ, ∀ i, i < 8 →
        G i = b * (r ^ 2 * G i) - a * (r ^ 3 * G i)
          + Finset.sum (Finset.range 8) (fun j => F i j * ((a - b * r + r ^ 2)
              * (δ j * r ^ 101 + r ^ (L j) * ((r + r ^ 2 + r ^ 3 + r ^ 4 + r ^ 5) / 5 * G j))))) :
    False := by
  let Sn : ℝ → ℕ → ℕ → ℝ := fun t i j =>
    (if i = j then 1 - b * (t ^ 2) ^ 2 + a * (t ^ 2) ^ 3 else 0)
      - ((a - b * t ^ 2 + (t ^ 2) ^ 2)
          * ((t ^ 2 + (t ^ 2) ^ 2 + (t ^ 2) ^ 3 + (t ^ 2) ^ 4 + (t ^ 2) ^ 5) / 5))
        * (t ^ L i * F i j * t ^ L j)
  have hSn : ∀ t i j, Sn t i j = (if i = j then 1 - b * (t ^ 2) ^ 2 + a * (t ^ 2) ^ 3 else 0)
      - ((a - b * t ^ 2 + (t ^ 2) ^ 2)
          * ((t ^ 2 + (t ^ 2) ^ 2 + (t ^ 2) ^ 3 + (t ^ 2) ^ 4 + (t ^ 2) ^ 5) / 5))
        * (t ^ L i * F i j * t ^ L j) := fun _ _ _ => rfl
  have hcont : ∀ i j : Fin 8, Continuous (fun t => Sn t i j) := by
    intro i j
    by_cases hij : (i : ℕ) = j
    · simp only [hSn, if_pos hij]
      fun_prop
    · simp only [hSn, if_neg hij]
      fun_prop
  have hsymm : ∀ t (i j : Fin 8), Sn t i j = Sn t j i := by
    intro t i j
    simp only [hSn]
    rw [hF i j]
    by_cases hij : (i : ℕ) = j
    · rw [if_pos hij, if_pos hij.symm, hij]
    · rw [if_neg hij, if_neg (fun h => hij h.symm)]
      ring
  -- every vector on `Fin 8` is the restriction of a sequence
  have hext : ∀ z : Fin 8 → ℝ, ∃ w : ℕ → ℝ, (∀ i : Fin 8, z i = w i) := by
    intro z
    refine ⟨fun i => if h : i < 8 then z ⟨i, h⟩ else 0, ?_⟩
    intro i
    simp
  have hzero : ∀ z : Fin 8 → ℝ, z ≠ 0 →
      0 < ∑ i : Fin 8, ∑ j : Fin 8, Sn 0 i j * z i * z j := by
    intro z hz
    have hS0 : ∀ i j : Fin 8, Sn 0 i j = if i = j then 1 else 0 := by
      intro i j
      simp only [hSn]
      have hLi : (0 : ℝ) ^ L i = 0 := zero_pow (Nat.pos_iff_ne_zero.mp (hL i i.2))
      rw [hLi]
      by_cases hij : i = j
      · rw [if_pos (congrArg Fin.val hij), if_pos hij]
        norm_num
      · rw [if_neg (fun h => hij (Fin.ext h)), if_neg hij]
        norm_num
    have hsum : ∑ i : Fin 8, ∑ j : Fin 8, Sn 0 i j * z i * z j = ∑ i : Fin 8, z i ^ 2 := by
      apply Finset.sum_congr rfl
      intro i _
      simp only [hS0, ite_mul, one_mul, zero_mul]
      rw [Finset.sum_ite_eq]
      simp only [Finset.mem_univ, if_true]
      ring
    rw [hsum]
    obtain ⟨i, hi⟩ : ∃ i, z i ≠ 0 := by
      by_contra hcon
      push_neg at hcon
      exact hz (funext hcon)
    have h1 : 0 < z i ^ 2 := by positivity
    have h2 : z i ^ 2 ≤ ∑ i, z i ^ 2 :=
      Finset.single_le_sum (f := fun i => z i ^ 2) (fun i _ => sq_nonneg (z i))
        (Finset.mem_univ i)
    linarith
  have hneg : ∃ z : Fin 8 → ℝ, ∑ i : Fin 8, ∑ j : Fin 8, Sn t1 i j * z i * z j < 0 := by
    refine ⟨fun i => if i = 0 then 1 else 0, ?_⟩
    have : ∑ i : Fin 8, ∑ j : Fin 8, Sn t1 i j * (if i = 0 then (1 : ℝ) else 0)
        * (if j = 0 then (1 : ℝ) else 0) = Sn t1 0 0 := by
      simp [Finset.sum_ite_eq']
    rw [this]
    simpa [hSn] using ha
  obtain ⟨t0, ht0p, ht0le, z0, hz0, hker⟩ :=
    exists_degenerate_point (fun t (i j : Fin 8) => Sn t i j) hcont hsymm t1 ht0 hzero hneg
  obtain ⟨w, hw⟩ := hext z0
  have hr0 : 0 < t0 ^ 2 := by positivity
  have hr1 : t0 ^ 2 ≤ t1 ^ 2 := pow_le_pow_left₀ (le_of_lt ht0p) ht0le 2
  obtain ⟨G, hG⟩ := hsol (t0 ^ 2) hr0 hr1
  -- pairing the kernel vector with the solution
  have hpair := hker (fun i : Fin 8 => t0 ^ L i * G i)
  simp only [hw] at hpair
  rw [Fin.sum_univ_eq_sum_range (fun i => ∑ j : Fin 8, Sn t0 i j * (t0 ^ L i * G i) * w j) 8]
    at hpair
  have hpair2 : Finset.sum (Finset.range 8) (fun i => Finset.sum (Finset.range 8) (fun j =>
      Sn t0 i j * (t0 ^ L i * G i) * w j)) = 0 := by
    rw [← hpair]
    apply Finset.sum_congr rfl
    intro i _
    rw [Fin.sum_univ_eq_sum_range (fun j => Sn t0 i j * (t0 ^ L i * G i) * w j) 8]
  rw [Finset.sum_comm] at hpair2
  have hcol : ∀ j, j < 8 → Finset.sum (Finset.range 8) (fun i =>
      Sn t0 i j * (t0 ^ L i * G i) * w j)
      = ((a - b * t0 ^ 2 + (t0 ^ 2) ^ 2) * (t0 ^ 2) ^ 101)
        * (Finset.sum (Finset.range 8) (fun i => F j i * δ i) * (t0 ^ L j * w j)) := by
    intro j hj
    have hGj := hG j hj
    have e1 : Finset.sum (Finset.range 8) (fun i => F j i * ((a - b * t0 ^ 2 + (t0 ^ 2) ^ 2)
          * (δ i * (t0 ^ 2) ^ 101 + (t0 ^ 2) ^ (L i)
              * (((t0 ^ 2) + (t0 ^ 2) ^ 2 + (t0 ^ 2) ^ 3 + (t0 ^ 2) ^ 4 + (t0 ^ 2) ^ 5) / 5
                  * G i))))
        = (a - b * t0 ^ 2 + (t0 ^ 2) ^ 2) * (t0 ^ 2) ^ 101
            * Finset.sum (Finset.range 8) (fun i => F j i * δ i)
          + (a - b * t0 ^ 2 + (t0 ^ 2) ^ 2)
            * (((t0 ^ 2) + (t0 ^ 2) ^ 2 + (t0 ^ 2) ^ 3 + (t0 ^ 2) ^ 4 + (t0 ^ 2) ^ 5) / 5)
            * Finset.sum (Finset.range 8) (fun i => F j i * ((t0 ^ 2) ^ (L i) * G i)) := by
      rw [Finset.mul_sum, Finset.mul_sum, ← Finset.sum_add_distrib]
      apply Finset.sum_congr rfl
      intro i _
      ring
    rw [e1] at hGj
    have e2 : Finset.sum (Finset.range 8) (fun i => Sn t0 i j * (t0 ^ L i * G i) * w j)
        = (1 - b * (t0 ^ 2) ^ 2 + a * (t0 ^ 2) ^ 3) * (t0 ^ L j * G j) * w j
          - ((a - b * t0 ^ 2 + (t0 ^ 2) ^ 2)
              * (((t0 ^ 2) + (t0 ^ 2) ^ 2 + (t0 ^ 2) ^ 3 + (t0 ^ 2) ^ 4 + (t0 ^ 2) ^ 5) / 5))
            * (t0 ^ L j * w j)
            * Finset.sum (Finset.range 8) (fun i => F j i * ((t0 ^ 2) ^ (L i) * G i)) := by
      simp only [hSn, sub_mul, Finset.sum_sub_distrib, ite_mul, zero_mul]
      rw [Finset.sum_ite_eq', if_pos (Finset.mem_range.mpr hj), Finset.mul_sum]
      congr 1
      apply Finset.sum_congr rfl
      intro i _
      rw [hF i j]
      ring
    rw [e2]
    linear_combination (t0 ^ L j * w j) * hGj
  have htot : ((a - b * t0 ^ 2 + (t0 ^ 2) ^ 2) * (t0 ^ 2) ^ 101)
      * Finset.sum (Finset.range 8) (fun j =>
          Finset.sum (Finset.range 8) (fun i => F j i * δ i) * (t0 ^ L j * w j)) = 0 := by
    rw [Finset.mul_sum, ← hpair2]
    apply Finset.sum_congr rfl
    intro j hj
    rw [hcol j (Finset.mem_range.mp hj)]
  have hk : (a - b * t0 ^ 2 + (t0 ^ 2) ^ 2) * (t0 ^ 2) ^ 101 ≠ 0 :=
    mul_ne_zero (hn _ hr0 hr1) (pow_ne_zero _ hr0.ne')
  have horth := (mul_eq_zero.mp htot).resolve_left hk
  have hwne : ∃ i, i < 8 ∧ w i ≠ 0 := by
    by_contra hcon
    push_neg at hcon
    apply hz0
    funext i
    rw [hw i]
    exact hcon i i.2
  have hpos := hb t0 ht0p ht0le w hwne horth
  have hself := hker z0
  simp only [hw] at hself
  rw [Fin.sum_univ_eq_sum_range (fun i => ∑ j : Fin 8, Sn t0 i j * w i * w j) 8] at hself
  have hself2 : Finset.sum (Finset.range 8) (fun i => Finset.sum (Finset.range 8) (fun j =>
      Sn t0 i j * w i * w j)) = 0 := by
    rw [← hself]
    apply Finset.sum_congr rfl
    intro i _
    rw [Fin.sum_univ_eq_sum_range (fun j => Sn t0 i j * w i * w j) 8]
  simp only [hSn] at hself2
  linarith

/-! ### The feedback matrix as a quadratic form -/

/-- The quadratic form of the feedback matrix as a weighted sum of squares. -/
theorem feedbackMatrixValue_quadForm_eq {α : Type} [Field α] (w : ℕ → α) :
    Finset.sum (Finset.range 8) (fun i => Finset.sum (Finset.range 8) (fun j =>
        (feedbackMatrixValue : Matrix α).coef i j * w i * w j))
      =
        eigenvalueTable.getD 0 0 * (Finset.sum (Finset.range 8) (fun i => eigenvectorTable.getD
        (i * 8 + 0) 0 * w i)) ^ 2 + eigenvalueTable.getD 1 0 * (Finset.sum (Finset.range 8) (fun
        i => eigenvectorTable.getD (i * 8 + 1) 0 * w i)) ^ 2 + eigenvalueTable.getD 2 0 *
        (Finset.sum (Finset.range 8) (fun i => eigenvectorTable.getD (i * 8 + 2) 0 * w i)) ^ 2 +
        eigenvalueTable.getD 3 0 * (Finset.sum (Finset.range 8) (fun i => eigenvectorTable.getD
        (i * 8 + 3) 0 * w i)) ^ 2 + eigenvalueTable.getD 4 0 * (Finset.sum (Finset.range 8) (fun
        i => eigenvectorTable.getD (i * 8 + 4) 0 * w i)) ^ 2 + eigenvalueTable.getD 5 0 *
        (Finset.sum (Finset.range 8) (fun i => eigenvectorTable.getD (i * 8 + 5) 0 * w i)) ^ 2 +
        eigenvalueTable.getD 6 0 * (Finset.sum (Finset.range 8) (fun i => eigenvectorTable.getD
        (i * 8 + 6) 0 * w i)) ^ 2 + eigenvalueTable.getD 7 0 * (Finset.sum (Finset.range 8) (fun
        i => eigenvectorTable.getD (i * 8 + 7) 0 * w i)) ^ 2 := by
  simp only [feedbackMatrixValue_coef]
  simp only [Finset.sum_range_succ, Finset.sum_range_zero]
  ring

/-- The pairing of `feedbackmatrix * d` with `w`, through the eigenvector table. -/
theorem feedbackMatrixValue_pairing_eq {α : Type} [Field α] (d w : ℕ → α) :
    Finset.sum (Finset.range 8) (fun j =>
        Finset.sum (Finset.range 8) (fun i => (feedbackMatrixValue : Matrix α).coef j i * d i)
          * w j)
      =
        eigenvalueTable.getD 0 0 * Finset.sum (Finset.range 8) (fun i => eigenvectorTable.getD
        (i * 8 + 0) 0 * d i) * Finset.sum (Finset.range 8) (fun i => eigenvectorTable.getD (i *
        8 + 0) 0 * w i) + eigenvalueTable.getD 1 0 * Finset.sum (Finset.range 8) (fun i =>
        eigenvectorTable.getD (i * 8 + 1) 0 * d i) * Finset.sum (Finset.range 8) (fun i =>
        eigenvectorTable.getD (i * 8 + 1) 0 * w i) + eigenvalueTable.getD 2 0 * Finset.sum
        (Finset.range 8) (fun i => eigenvectorTable.getD (i * 8 + 2) 0 * d i) * Finset.sum
        (Finset.range 8) (fun i => eigenvectorTable.getD (i * 8 + 2) 0 * w i) +
        eigenvalueTable.getD 3 0 * Finset.sum (Finset.range 8) (fun i => eigenvectorTable.getD
        (i * 8 + 3) 0 * d i) * Finset.sum (Finset.range 8) (fun i => eigenvectorTable.getD (i *
        8 + 3) 0 * w i) + eigenvalueTable.getD 4 0 * Finset.sum (Finset.range 8) (fun i =>
        eigenvectorTable.getD (i * 8 + 4) 0 * d i) * Finset.sum (Finset.range 8) (fun i =>
        eigenvectorTable.getD (i * 8 + 4) 0 * w i) + eigenvalueTable.getD 5 0 * Finset.sum
        (Finset.range 8) (fun i => eigenvectorTable.getD (i * 8 + 5) 0 * d i) * Finset.sum
        (Finset.range 8) (fun i => eigenvectorTable.getD (i * 8 + 5) 0 * w i) +
        eigenvalueTable.getD 6 0 * Finset.sum (Finset.range 8) (fun i => eigenvectorTable.getD
        (i * 8 + 6) 0 * d i) * Finset.sum (Finset.range 8) (fun i => eigenvectorTable.getD (i *
        8 + 6) 0 * w i) + eigenvalueTable.getD 7 0 * Finset.sum (Finset.range 8) (fun i =>
        eigenvectorTable.getD (i * 8 + 7) 0 * d i) * Finset.sum (Finset.range 8) (fun i =>
        eigenvectorTable.getD (i * 8 + 7) 0 * w i) := by
  simp only [feedbackMatrixValue_coef]
  simp only [Finset.sum_range_succ, Finset.sum_range_zero]
  ring

theorem eigenvectorTable_column_0 (w : ℕ → ℝ) :
    Finset.sum (Finset.range 8) (fun i => eigenvectorTable.getD (i * 8 + 0) 0 * w i)
      = -2.542 * w 0 + -0.028 * w 1 + -0.063 * w 2 + 0.033 * w 3 + 0.227 * w 4 + 1.013 * w 5 + 1.458 * w 6 + 1.368 * w 7 := by
  simp only [Finset.sum_range_succ, Finset.sum_range_zero, zero_add]
  rfl

theorem eigenvectorTable_column_1 (w : ℕ → ℝ) :
    Finset.sum (Finset.range 8) (fun i => eigenvectorTable.getD (i * 8 + 1) 0 * w i)
      = 1.19 * w 0 + 0.419 * w 1 + 0.12 * w 2 + -0.3 * w 3 + 1.462 * w 4 + 0.531 * w 5 + 1.034 * w 6 + -0.102 * w 7 := by
  simp only [Finset.sum_range_succ, Finset.sum_range_zero, zero_add]
  rfl

theorem eigenvectorTable_column_2 (w : ℕ → ℝ) :
    Finset.sum (Finset.range 8) (fun i => eigenvectorTable.getD (i * 8 + 2) 0 * w i)
      = -0.103 * w 0 + 1.299 * w 1 + -0.059 * w 2 + 1.142 * w 3 + 0.207 * w 4 + 1.078 * w 5 + 0.902 * w 6 + 0.352 * w 7 := by
  simp only [Finset.sum_range_succ, Finset.sum_range_zero, zero_add]
  rfl

theorem eigenvectorTable_column_3 (w : ℕ → ℝ) :
    Finset.sum (Finset.range 8) (fun i => eigenvectorTable.getD (i * 8 + 3) 0 * w i)
      = 0.196 * w 0 + 0.278 * w 1 + 0.684 * w 2 + 0.744 * w 3 + 0.989 * w 4 + 0.448 * w 5 + 0.084 * w 6 + 0.417 * w 7 := by
  simp only [Finset.sum_range_succ, Finset.sum_range_zero, zero_add]
  rfl

theorem eigenvectorTable_column_4 (w : ℕ → ℝ) :
    Finset.sum (Finset.range 8) (fun i => eigenvectorTable.getD (i * 8 + 4) 0 * w i)
      = 0.196 * w 0 + 0.491 * w 1 + -0.031 * w 2 + -0.226 * w 3 + 0.501 * w 4 + 1.018 * w 5 + 0.795 * w 6 + 0.284 * w 7 := by
  simp only [Finset.sum_range_succ, Finset.sum_range_zero, zero_add]
  rfl

theorem eigenvectorTable_column_5 (w : ℕ → ℝ) :
    Finset.sum (Finset.range 8) (fun i => eigenvectorTable.getD (i * 8 + 5) 0 * w i)
      = 1.07 * w 0 + 0.581 * w 1 + -0.324 * w 2 + -0.009 * w 3 + 1.215 * w 4 + 1.347 * w 5 + 0.07 * w 6 + 1.093 * w 7 := by
  simp only [Finset.sum_range_succ, Finset.sum_range_zero, zero_add]
  rfl

theorem eigenvectorTable_column_6 (w : ℕ → ℝ) :
    Finset.sum (Finset.range 8) (fun i => eigenvectorTable.getD (i * 8 + 6) 0 * w i)
      = 0.887 * w 0 + -0.374 * w 1 + 1.366 * w 2 + 1.475 * w 3 + -0.215 * w 4 + 0.887 * w 5 + -0.245 * w 6 + 0.267 * w 7 := by
  simp only [Finset.sum_range_succ, Finset.sum_range_zero, zero_add]
  rfl

theorem eigenvectorTable_column_7 (w : ℕ → ℝ) :
    Finset.sum (Finset.range 8) (fun i => eigenvectorTable.getD (i * 8 + 7) 0 * w i)
      = 1.075 * w 0 + 0.853 * w 1 + -0.432 * w 2 + 0.95 * w 3 + 0.865 * w 4 + 0.302 * w 5 + -0.182 * w 6 + 0.046 * w 7 := by
  simp only [Finset.sum_range_succ, Finset.sum_range_zero, zero_add]
  rfl

theorem eigenvalueTable_values :
    (eigenvalueTable : List ℝ).getD 0 0 = 0.912 ∧ (eigenvalueTable : List ℝ).getD 1 0 = 0.812 ∧
    (eigenvalueTable : List ℝ).getD 2 0 = 0.812 ∧ (eigenvalueTable : List ℝ).getD 3 0 = 0.816 ∧
    (eigenvalueTable : List ℝ).getD 4 0 = 0.921 ∧ (eigenvalueTable : List ℝ).getD 5 0 = 0.91 ∧
    (eigenvalueTable : List ℝ).getD 6 0 = 0.918 ∧ (eigenvalueTable : List ℝ).getD 7 0 = 0.919 :=
  ⟨rfl, rfl, rfl, rfl, rfl, rfl, rfl, rfl⟩

theorem Reverb.distrib_column_zero :
    (Reverb.new Real.cos).distrib.coef 0 0 = 0.094 ∧ (Reverb.new Real.cos).distrib.coef 1 0 =
    -0.189 ∧ (Reverb.new Real.cos).distrib.coef 2 0 = 0.02 ∧ (Reverb.new Real.cos).distrib.coef
    3 0 = 0.026 ∧ (Reverb.new Real.cos).distrib.coef 4 0 = 0.079 ∧ (Reverb.new
    Real.cos).distrib.coef 5 0 = -0.134 ∧ (Reverb.new Real.cos).distrib.coef 6 0 = 0.161 ∧
    (Reverb.new Real.cos).distrib.coef 7 0 = 0.086 :=
  ⟨rfl, rfl, rfl, rfl, rfl, rfl, rfl, rfl⟩

/-- A sum-of-squares certificate: on the channels weighted by `3.82, 50, 50, 50, 50, 16.22,
50, 2.64`, the form `c - 0.472 F` plus `100` times the square of the pairing with
`feedbackmatrix * distrib[:, 0]` dominates a tenth of the squared length. -/
theorem feedbackMatrixValue_form_cert (w : ℕ → ℝ) :
    1 / 10 * Finset.sum (Finset.range 8) (fun i => w i ^ 2)
      ≤ ((191 / 50) * w 0 ^ 2 + 50 * w 1 ^ 2 + 50 * w 2 ^ 2 + 50 * w 3 ^ 2 + 50 * w 4 ^ 2 + (811 / 50) * w 5 ^ 2 + 50 * w 6 ^ 2 + (66 / 25) * w 7 ^ 2)
        - 59 / 125 * Finset.sum (Finset.range 8) (fun i => Finset.sum (Finset.range 8) (fun j =>
            (feedbackMatrixValue : Matrix ℝ).coef i j * w i * w j))
        + 100 * (Finset.sum (Finset.range 8) (fun j =>
            Finset.sum (Finset.range 8) (fun i =>
              (feedbackMatrixValue : Matrix ℝ).coef j i * (Reverb.new Real.cos).distrib.coef i 0)
            * w j)) ^ 2 := by
  have key : ((191 / 50) * w 0 ^ 2 + 50 * w 1 ^ 2 + 50 * w 2 ^ 2 + 50 * w 3 ^ 2 + 50 * w 4 ^ 2 + (811 / 50) * w 5 ^ 2 + 50 * w 6 ^ 2 + (66 / 25) * w 7 ^ 2)
        - 59 / 125 * Finset.sum (Finset.range 8) (fun i => Finset.sum (Finset.range 8) (fun j =>
            (feedbackMatrixValue : Matrix ℝ).coef i j * w i * w j))
        + 100 * (Finset.sum (Finset.range 8) (fun j =>
            Finset.sum (Finset.range 8) (fun i =>
              (feedbackMatrixValue : Matrix ℝ).coef j i * (Reverb.new Real.cos).distrib.coef i 0)
            * w j)) ^ 2
        - 1 / 10 * Finset.sum (Finset.range 8) (fun i => w i ^ 2)
      =
        (14454814715319530851249 / 2500000000000000000000) * (w 0 + (-24652674670763547225009 /
        28909629430639061702498) * w 1 + (20124063463710839703475 / 28909629430639061702498) * w
        2 + (-9963156185559554760241 / 14454814715319530851249) * w 3 + (24555921712651113954897
        / 28909629430639061702498) * w 4 + (-1286370736597922892129 / 14454814715319530851249) *
        w 5 + (11365835115190282255269 / 28909629430639061702498) * w 6 + (-25162733225744478424
        / 14454814715319530851249) * w 7) ^ 2 + (339016045209751681287624713455552169 /
        7227407357659765425624500000000000) * (w 1 + (8186911233328088538566294127776991 /
        339016045209751681287624713455552169) * w 2 + (-15222667960212805361115157426861882 /
        339016045209751681287624713455552169) * w 3 + (-6675073136417684117820593579285769 /
        339016045209751681287624713455552169) * w 4 + (-10790800410691325968716337656323242 /
        339016045209751681287624713455552169) * w 5 + (3822455589892581647860901554701409 /
        339016045209751681287624713455552169) * w 6 + (321974555352475065336144544225440 /
        339016045209751681287624713455552169) * w 7) ^ 2 +
        (258392610159383045443839896815657322977289149421 /
        5297125706402370020119136147743002640625000000) * (w 2 +
        (-808814455779336886343530256089364448606578879 /
        516785220318766090887679793631314645954578298842) * w 3 +
        (17857509316380571905333831126436210369396412781 /
        1033570440637532181775359587262629291909156597684) * w 4 +
        (-500172949493518957805797437555004352159951245 /
        258392610159383045443839896815657322977289149421) * w 5 +
        (-16939537557548107355395823080981603529630161931 /
        1033570440637532181775359587262629291909156597684) * w 6 +
        (-3289099757203261582873197570492219941715398766 /
        258392610159383045443839896815657322977289149421) * w 7) ^ 2 +
        (749866643064475516559566145095331319221771543982020100415343 /
        16149538134961440340239993550978582686080571838812500000000) * (w 3 +
        (481385046071150180744344211270604136491191236901188016833 /
        1499733286128951033119132290190662638443543087964040200830686) * w 4 +
        (-23691083512117846544357852933827568717775130384137616231058 /
        749866643064475516559566145095331319221771543982020100415343) * w 5 +
        (35256410180155413241282208320451758074634157580606167489941 /
        1499733286128951033119132290190662638443543087964040200830686) * w 6 +
        (-870511897910569341563525265888028912672129269695463798602 /
        749866643064475516559566145095331319221771543982020100415343) * w 7) ^ 2 +
        (2309673005314302671023997254695862443006367511829763882066751542096195769 /
        46866665191529719784972884068458207451360721498876256275958937500000000) * (w 4 +
        (-65014656284918317829813144488216840398132275972790687208776383356671077 /
        2309673005314302671023997254695862443006367511829763882066751542096195769) * w 5 +
        (-90128084275227335842538461701604318014207704995739456876033161289564645 /
        2309673005314302671023997254695862443006367511829763882066751542096195769) * w 6 +
        (-79472107349539769004596130927263650544539789327245021017830975770511818 /
        2309673005314302671023997254695862443006367511829763882066751542096195769) * w 7) ^ 2 +
        (1914773173749221596762509902126254670889615953767239853540728303317319157420465868943 /
        144354562832143916938999828418491402687897969489360242629171971381012235562500000000) *
        (w 5 +
        (-193562198452911967149707932398487648394166207325948822124224346533916134741498623584 /
        1914773173749221596762509902126254670889615953767239853540728303317319157420465868943) *
        w 6 +
        (-243019028698306790693903672649325025891572550930684169924800070943298285199693594628 /
        1914773173749221596762509902126254670889615953767239853540728303317319157420465868943) *
        w 7) ^ 2 +
        (702404311979430266594474691967236520518347905778160785642794112198911348897624740631027067160521
        /
        14959165419915793724707108610361364616325124638806561355786939869666555917347389601117187500000)
        * (w 6 +
        (-21400530681424697557299083539271170379093881662778279552401481797679281827197875224469032744489
        /
        702404311979430266594474691967236520518347905778160785642794112198911348897624740631027067160521)
        * w 7) ^ 2 +
        (909144493597261353504081695142903392828835021479697382958875593902121450749235608795812934110161870845617
        /
        1097506737467859791553866706198807063309918602778376227566865800310798982652538657235979792438314062500000)
        * (w 7) ^ 2 := by
    obtain ⟨l0, l1, l2, l3, l4, l5, l6, l7⟩ := eigenvalueTable_values
    obtain ⟨d0, d1, d2, d3, d4, d5, d6, d7⟩ := Reverb.distrib_column_zero
    rw [feedbackMatrixValue_quadForm_eq,
      feedbackMatrixValue_pairing_eq (fun i => (Reverb.new Real.cos).distrib.coef i 0) w]
    simp only [eigenvectorTable_column_0, eigenvectorTable_column_1, eigenvectorTable_column_2,
      eigenvectorTable_column_3, eigenvectorTable_column_4, eigenvectorTable_column_5,
      eigenvectorTable_column_6, eigenvectorTable_column_7]
    simp only [Finset.sum_range_succ, Finset.sum_range_zero, zero_add,
      l0, l1, l2, l3, l4, l5, l6, l7, d0, d1, d2, d3, d4, d5, d6, d7]
    ring
  have hsos : 0 ≤
        (14454814715319530851249 / 2500000000000000000000) * (w 0 + (-24652674670763547225009 /
        28909629430639061702498) * w 1 + (20124063463710839703475 / 28909629430639061702498) * w
        2 + (-9963156185559554760241 / 14454814715319530851249) * w 3 + (24555921712651113954897
        / 28909629430639061702498) * w 4 + (-1286370736597922892129 / 14454814715319530851249) *
        w 5 + (11365835115190282255269 / 28909629430639061702498) * w 6 + (-25162733225744478424
        / 14454814715319530851249) * w 7) ^ 2 + (339016045209751681287624713455552169 /
        7227407357659765425624500000000000) * (w 1 + (8186911233328088538566294127776991 /
        339016045209751681287624713455552169) * w 2 + (-15222667960212805361115157426861882 /
        339016045209751681287624713455552169) * w 3 + (-6675073136417684117820593579285769 /
        339016045209751681287624713455552169) * w 4 + (-10790800410691325968716337656323242 /
        339016045209751681287624713455552169) * w 5 + (3822455589892581647860901554701409 /
        339016045209751681287624713455552169) * w 6 + (321974555352475065336144544225440 /
        339016045209751681287624713455552169) * w 7) ^ 2 +
        (258392610159383045443839896815657322977289149421 /
        5297125706402370020119136147743002640625000000) * (w 2 +
        (-808814455779336886343530256089364448606578879 /
        516785220318766090887679793631314645954578298842) * w 3 +
        (17857509316380571905333831126436210369396412781 /
        1033570440637532181775359587262629291909156597684) * w 4 +
        (-500172949493518957805797437555004352159951245 /
        258392610159383045443839896815657322977289149421) * w 5 +
        (-16939537557548107355395823080981603529630161931 /
        1033570440637532181775359587262629291909156597684) * w 6 +
        (-3289099757203261582873197570492219941715398766 /
        258392610159383045443839896815657322977289149421) * w 7) ^ 2 +
        (749866643064475516559566145095331319221771543982020100415343 /
        16149538134961440340239993550978582686080571838812500000000) * (w 3 +
        (481385046071150180744344211270604136491191236901188016833 /
        1499733286128951033119132290190662638443543087964040200830686) * w 4 +
        (-23691083512117846544357852933827568717775130384137616231058 /
        749866643064475516559566145095331319221771543982020100415343) * w 5 +
        (35256410180155413241282208320451758074634157580606167489941 /
        1499733286128951033119132290190662638443543087964040200830686) * w 6 +
        (-870511897910569341563525265888028912672129269695463798602 /
        749866643064475516559566145095331319221771543982020100415343) * w 7) ^ 2 +
        (2309673005314302671023997254695862443006367511829763882066751542096195769 /
        46866665191529719784972884068458207451360721498876256275958937500000000) * (w 4 +
        (-65014656284918317829813144488216840398132275972790687208776383356671077 /
        2309673005314302671023997254695862443006367511829763882066751542096195769) * w 5 +
        (-90128084275227335842538461701604318014207704995739456876033161289564645 /
        2309673005314302671023997254695862443006367511829763882066751542096195769) * w 6 +
        (-79472107349539769004596130927263650544539789327245021017830975770511818 /
        2309673005314302671023997254695862443006367511829763882066751542096195769) * w 7) ^ 2 +
        (1914773173749221596762509902126254670889615953767239853540728303317319157420465868943 /
        144354562832143916938999828418491402687897969489360242629171971381012235562500000000) *
        (w 5 +
        (-193562198452911967149707932398487648394166207325948822124224346533916134741498623584 /
        1914773173749221596762509902126254670889615953767239853540728303317319157420465868943) *
        w 6 +
        (-243019028698306790693903672649325025891572550930684169924800070943298285199693594628 /
        1914773173749221596762509902126254670889615953767239853540728303317319157420465868943) *
        w 7) ^ 2 +
        (702404311979430266594474691967236520518347905778160785642794112198911348897624740631027067160521
        /
        14959165419915793724707108610361364616325124638806561355786939869666555917347389601117187500000)
        * (w 6 +
        (-21400530681424697557299083539271170379093881662778279552401481797679281827197875224469032744489
        /
        702404311979430266594474691967236520518347905778160785642794112198911348897624740631027067160521)
        * w 7) ^ 2 +
        (909144493597261353504081695142903392828835021479697382958875593902121450749235608795812934110161870845617
        /
        1097506737467859791553866706198807063309918602778376227566865800310798982652538657235979792438314062500000)
        * (w 7) ^ 2 := by
    positivity
  linarith

/-! ### Numeric bounds for the loop -/

theorem cos_three_tenths_bounds : (0.9545 : ℝ) ≤ Real.cos 0.3 ∧ Real.cos 0.3 ≤ 0.9555 := by
  have h := Real.cos_bound (x := 0.3) (by rw [abs_le]; constructor <;> norm_num)
  have e : |(0.3 : ℝ)| = 0.3 := abs_of_pos (by norm_num)
  rw [e, abs_le] at h
  constructor
  · linarith [h.1, show (0.3 : ℝ) ^ 4 * (5 / 96) ≤ 0.0005 by norm_num,
      show (1 : ℝ) - 0.3 ^ 2 / 2 = 0.955 by norm_num]
  · linarith [h.2, show (0.3 : ℝ) ^ 4 * (5 / 96) ≤ 0.0005 by norm_num,
      show (1 : ℝ) - 0.3 ^ 2 / 2 = 0.955 by norm_num]

theorem delay_power_bounds :
    2.64 * ((124 / 125 : ℝ) ^ 100) ^ 2 ≤ 0.53
    ∧ 3.82 * ((124 / 125 : ℝ) ^ 123) ^ 2 ≤ 0.53
    ∧ 16.22 * ((124 / 125 : ℝ) ^ 213) ^ 2 ≤ 0.53
    ∧ 50 * ((124 / 125 : ℝ) ^ 375) ^ 2 ≤ 0.53
    ∧ 0.138 ≤ ((124 / 125 : ℝ) ^ 123) ^ 2 := by
  refine ⟨?_, ?_, ?_, ?_, ?_⟩ <;> norm_num

/-- The denominator of the allpass stays above `0.53` on `(0, (124/125)²]`. -/
theorem allpass_denominator_lower (b r : ℝ) (hb : b ≤ 0.5733) (hr0 : 0 ≤ r)
    (hr1 : r ≤ (124 / 125) ^ 2) : 0.53 ≤ 1 - b * r ^ 2 + 0.3 * 0.3 * r ^ 3 := by
  have h1 : b * r ^ 2 ≤ 0.5733 * r ^ 2 := mul_le_mul_of_nonneg_right hb (sq_nonneg r)
  have hr1' : r ≤ 15376 / 15625 := by
    have : ((124 : ℝ) / 125) ^ 2 = 15376 / 15625 := by norm_num
    linarith
  have h2 : 0 ≤ (15376 / 15625 - r)
      * (0.5733 * (15376 / 15625 + r)
          - 0.09 * ((15376 / 15625) ^ 2 + 15376 / 15625 * r + r ^ 2)) := by
    apply mul_nonneg (by linarith)
    nlinarith
  nlinarith

/-- The numerator of the allpass times the gain of the 5-tap average stays below
`0.472` on `[0, (124/125)²]`. -/
theorem allpass_numerator_upper (b r : ℝ) (hb : 0.5727 ≤ b) (hr0 : 0 ≤ r)
    (hr1 : r ≤ (124 / 125) ^ 2) :
    (0.3 * 0.3 - b * r + r ^ 2) * ((r + r ^ 2 + r ^ 3 + r ^ 4 + r ^ 5) / 5) ≤ 59 / 125 := by
  have hr1' : r ≤ 15376 / 15625 := by
    have : ((124 : ℝ) / 125) ^ 2 = 15376 / 15625 := by norm_num
    linarith
  have hn : 0.3 * 0.3 - b * r + r ^ 2 ≤ 0.4949 := by
    have h1 : 0.5727 * r ≤ b * r := mul_le_mul_of_nonneg_right hb hr0
    nlinarith
  have hl0 : 0 ≤ (r + r ^ 2 + r ^ 3 + r ^ 4 + r ^ 5) / 5 := by positivity
  have hl1 : (r + r ^ 2 + r ^ 3 + r ^ 4 + r ^ 5) / 5 ≤ 0.9532 := by
    have p2 : r ^ 2 ≤ (15376 / 15625) ^ 2 := pow_le_pow_left₀ hr0 hr1' 2
    have p3 : r ^ 3 ≤ (15376 / 15625) ^ 3 := pow_le_pow_left₀ hr0 hr1' 3
    have p4 : r ^ 4 ≤ (15376 / 15625) ^ 4 := pow_le_pow_left₀ hr0 hr1' 4
    have p5 : r ^ 5 ≤ (15376 / 15625) ^ 5 := pow_le_pow_left₀ hr0 hr1' 5
    norm_num at p2 p3 p4 p5
    linarith
  calc (0.3 * 0.3 - b * r + r ^ 2) * ((r + r ^ 2 + r ^ 3 + r ^ 4 + r ^ 5) / 5)
      ≤ 0.4949 * ((r + r ^ 2 + r ^ 3 + r ^ 4 + r ^ 5) / 5) :=
        mul_le_mul_of_nonneg_right hn hl0
    _ ≤ 0.4949 * 0.9532 := mul_le_mul_of_nonneg_left hl1 (by norm_num)
    _ ≤ 59 / 125 := by norm_num

/-- The quadratic form of the feedback matrix takes no negative value. -/
theorem feedbackMatrixValue_quadForm_nonneg (w : ℕ → ℝ) :
    0 ≤ Finset.sum (Finset.range 8) (fun i => Finset.sum (Finset.range 8) (fun j =>
        (feedbackMatrixValue : Matrix ℝ).coef i j * w i * w j)) := by
  obtain ⟨l0, l1, l2, l3, l4, l5, l6, l7⟩ := eigenvalueTable_values
  rw [feedbackMatrixValue_quadForm_eq w, l0, l1, l2, l3, l4, l5, l6, l7]
  have h : ∀ (c x : ℝ), 0 ≤ c → 0 ≤ c * x ^ 2 := fun c x hc => mul_nonneg hc (sq_nonneg x)
  have k0 := h 0.912 (Finset.sum (Finset.range 8) (fun i =>
    eigenvectorTable.getD (i * 8 + 0) 0 * w i)) (by norm_num)
  have k1 := h 0.812 (Finset.sum (Finset.range 8) (fun i =>
    eigenvectorTable.getD (i * 8 + 1) 0 * w i)) (by norm_num)
  have k2 := h 0.812 (Finset.sum (Finset.range 8) (fun i =>
    eigenvectorTable.getD (i * 8 + 2) 0 * w i)) (by norm_num)
  have k3 := h 0.816 (Finset.sum (Finset.range 8) (fun i =>
    eigenvectorTable.getD (i * 8 + 3) 0 * w i)) (by norm_num)
  have k4 := h 0.921 (Finset.sum (Finset.range 8) (fun i =>
    eigenvectorTable.getD (i * 8 + 4) 0 * w i)) (by norm_num)
  have k5 := h 0.91 (Finset.sum (Finset.range 8) (fun i =>
    eigenvectorTable.getD (i * 8 + 5) 0 * w i)) (by norm_num)
  have k6 := h 0.918 (Finset.sum (Finset.range 8) (fun i =>
    eigenvectorTable.getD (i * 8 + 6) 0 * w i)) (by norm_num)
  have k7 := h 0.919 (Finset.sum (Finset.range 8) (fun i =>
    eigenvectorTable.getD (i * 8 + 7) 0 * w i)) (by norm_num)
  exact add_nonneg (add_nonneg (add_nonneg (add_nonneg (add_nonneg (add_nonneg
    (add_nonneg k0 k1) k2) k3) k4) k5) k6) k7

/-- On `[0, 124/125]` the weights `3.82, 50, 50, 50, 50, 16.22, 50, 2.64` times the
squared delay factors stay below any `q ≥ 0.53`. -/
theorem delay_weight_le (t : ℝ) (ht0 : 0 ≤ t) (ht1 : t ≤ 124 / 125) (q : ℝ) (hq : 0.53 ≤ q) :
    3.82 * (t ^ 123) ^ 2 ≤ q ∧ 50 * (t ^ 1402) ^ 2 ≤ q ∧ 50 * (t ^ 3860) ^ 2 ≤ q
    ∧ 50 * (t ^ 375) ^ 2 ≤ q ∧ 50 * (t ^ 3046) ^ 2 ≤ q ∧ 16.22 * (t ^ 213) ^ 2 ≤ q
    ∧ 50 * (t ^ 586) ^ 2 ≤ q ∧ 2.64 * (t ^ 100) ^ 2 ≤ q := by
  obtain ⟨p100, p123, p213, p375, -⟩ := delay_power_bounds
  have hpow : ∀ k : ℕ, (t ^ k) ^ 2 ≤ ((124 / 125 : ℝ) ^ k) ^ 2 := fun k =>
    pow_le_pow_left₀ (pow_nonneg ht0 k) (pow_le_pow_left₀ ht0 ht1 k) 2
  have hbig : ∀ k : ℕ, 375 ≤ k → ((124 / 125 : ℝ) ^ k) ^ 2 ≤ ((124 / 125 : ℝ) ^ 375) ^ 2 :=
    fun k hk => pow_le_pow_left₀ (pow_nonneg (by norm_num) k)
      (pow_le_pow_of_le_one (by norm_num) (by norm_num) hk) 2
  have hc : ∀ (k : ℕ) (c : ℝ), 0 ≤ c → c * ((124 / 125 : ℝ) ^ k) ^ 2 ≤ 0.53 →
      c * (t ^ k) ^ 2 ≤ q := by
    intro k c hc0 hck
    have h2 := mul_le_mul_of_nonneg_left (hpow k) hc0
    exact le_trans h2 (le_trans hck hq)
  have hcb : ∀ k : ℕ, 375 ≤ k → 50 * (t ^ k) ^ 2 ≤ q := by
    intro k hk
    apply hc k 50 (by norm_num)
    exact le_trans (mul_le_mul_of_nonneg_left (hbig k hk) (by norm_num)) p375
  exact ⟨hc 123 3.82 (by norm_num) p123, hcb 1402 (by norm_num), hcb 3860 (by norm_num),
    hcb 375 (by norm_num), hcb 3046 (by norm_num), hc 213 16.22 (by norm_num) p213,
    hcb 586 (by norm_num), hc 100 2.64 (by norm_num) p100⟩

/-- The loop form is positive on the hyperplane orthogonal to the drive, for every
`t` in `(0, 124/125]`. -/
theorem Reverb.loop_form_pos (t : ℝ) (ht0 : 0 < t) (ht1 : t ≤ 124 / 125) (z : ℕ → ℝ)
    (hz : ∃ i, i < 8 ∧ z i ≠ 0)
    (horth : Finset.sum (Finset.range 8) (fun j =>
        Finset.sum (Finset.range 8) (fun i =>
          (feedbackMatrixValue : Matrix ℝ).coef j i * (Reverb.new Real.cos).distrib.coef i 0)
        * (t ^ (Reverb.fbDelayLags.getD j 0).toNat * z j)) = 0) :
    0 < Finset.sum (Finset.range 8) (fun i => Finset.sum (Finset.range 8) (fun j =>
        ((if i = j then 1 - 2 * 0.3 * Real.cos 0.3 * (t ^ 2) ^ 2 + 0.3 * 0.3 * (t ^ 2) ^ 3
            else 0)
          - ((0.3 * 0.3 - 2 * 0.3 * Real.cos 0.3 * t ^ 2 + (t ^ 2) ^ 2)
              * ((t ^ 2 + (t ^ 2) ^ 2 + (t ^ 2) ^ 3 + (t ^ 2) ^ 4 + (t ^ 2) ^ 5) / 5))
            * (t ^ (Reverb.fbDelayLags.getD i 0).toNat
                * (feedbackMatrixValue : Matrix ℝ).coef i j
                * t ^ (Reverb.fbDelayLags.getD j 0).toNat)) * z i * z j)) := by
  obtain ⟨hc1, hc2⟩ := cos_three_tenths_bounds
  have hbl : (0.5727 : ℝ) ≤ 2 * 0.3 * Real.cos 0.3 := by linarith
  have hbu : 2 * 0.3 * Real.cos 0.3 ≤ (0.5733 : ℝ) := by linarith
  have hr0 : 0 ≤ t ^ 2 := sq_nonneg t
  have hr1 : t ^ 2 ≤ (124 / 125 : ℝ) ^ 2 := pow_le_pow_left₀ (le_of_lt ht0) ht1 2
  have hq := allpass_denominator_lower _ _ hbu hr0 hr1
  have hnl := allpass_numerator_upper _ _ hbl hr0 hr1
  have step1 : Finset.sum (Finset.range 8) (fun i => Finset.sum (Finset.range 8) (fun j =>
        ((if i = j then 1 - 2 * 0.3 * Real.cos 0.3 * (t ^ 2) ^ 2 + 0.3 * 0.3 * (t ^ 2) ^ 3
            else 0)
          - ((0.3 * 0.3 - 2 * 0.3 * Real.cos 0.3 * t ^ 2 + (t ^ 2) ^ 2)
              * ((t ^ 2 + (t ^ 2) ^ 2 + (t ^ 2) ^ 3 + (t ^ 2) ^ 4 + (t ^ 2) ^ 5) / 5))
            * (t ^ (Reverb.fbDelayLags.getD i 0).toNat
                * (feedbackMatrixValue : Matrix ℝ).coef i j
                * t ^ (Reverb.fbDelayLags.getD j 0).toNat)) * z i * z j))
      = (1 - 2 * 0.3 * Real.cos 0.3 * (t ^ 2) ^ 2 + 0.3 * 0.3 * (t ^ 2) ^ 3)
          * Finset.sum (Finset.range 8) (fun i => z i ^ 2)
        - ((0.3 * 0.3 - 2 * 0.3 * Real.cos 0.3 * t ^ 2 + (t ^ 2) ^ 2)
              * ((t ^ 2 + (t ^ 2) ^ 2 + (t ^ 2) ^ 3 + (t ^ 2) ^ 4 + (t ^ 2) ^ 5) / 5))
          * Finset.sum (Finset.range 8) (fun i => Finset.sum (Finset.range 8) (fun j =>
              (feedbackMatrixValue : Matrix ℝ).coef i j
                * (t ^ (Reverb.fbDelayLags.getD i 0).toNat * z i)
                * (t ^ (Reverb.fbDelayLags.getD j 0).toNat * z j))) := by
    rw [Finset.mul_sum, Finset.mul_sum, ← Finset.sum_sub_distrib]
    apply Finset.sum_congr rfl
    intro i hi
    simp only [sub_mul, Finset.sum_sub_distrib, ite_mul, zero_mul]
    rw [Finset.sum_ite_eq, if_pos hi, Finset.mul_sum]
    congr 1
    · ring
    · apply Finset.sum_congr rfl
      intro j _
      ring
  rw [step1]
  have cert := feedbackMatrixValue_form_cert
    (fun i => t ^ (Reverb.fbDelayLags.getD i 0).toNat * z i)
  simp only [] at cert
  rw [horth] at cert
  have hF0 := feedbackMatrixValue_quadForm_nonneg
    (fun i => t ^ (Reverb.fbDelayLags.getD i 0).toNat * z i)
  simp only [] at hF0
  have hmul := mul_le_mul_of_nonneg_right hnl hF0
  -- the lags
  have e0 : (Reverb.fbDelayLags.getD 0 0).toNat = 123 := rfl
  have e1 : (Reverb.fbDelayLags.getD 1 0).toNat = 1402 := rfl
  have e2 : (Reverb.fbDelayLags.getD 2 0).toNat = 3860 := rfl
  have e3 : (Reverb.fbDelayLags.getD 3 0).toNat = 375 := rfl
  have e4 : (Reverb.fbDelayLags.getD 4 0).toNat = 3046 := rfl
  have e5 : (Reverb.fbDelayLags.getD 5 0).toNat = 213 := rfl
  have e6 : (Reverb.fbDelayLags.getD 6 0).toNat = 586 := rfl
  have e7 : (Reverb.fbDelayLags.getD 7 0).toNat = 100 := rfl
  obtain ⟨c0, c1, c2, c3, c4, c5, c6, c7⟩ := delay_weight_le t (le_of_lt ht0) ht1 _ hq
  generalize hFS : Finset.sum (Finset.range 8) (fun i => Finset.sum (Finset.range 8) (fun j =>
      (feedbackMatrixValue : Matrix ℝ).coef i j
        * (t ^ (Reverb.fbDelayLags.getD i 0).toNat * z i)
        * (t ^ (Reverb.fbDelayLags.getD j 0).toNat * z j))) = FS at cert hmul hF0 ⊢
  generalize hQ : 1 - 2 * 0.3 * Real.cos 0.3 * (t ^ 2) ^ 2 + 0.3 * 0.3 * (t ^ 2) ^ 3 = Q
    at c0 c1 c2 c3 c4 c5 c6 c7 ⊢
  generalize hNL : (0.3 * 0.3 - 2 * 0.3 * Real.cos 0.3 * t ^ 2 + (t ^ 2) ^ 2)
      * ((t ^ 2 + (t ^ 2) ^ 2 + (t ^ 2) ^ 3 + (t ^ 2) ^ 4 + (t ^ 2) ^ 5) / 5) = NL at hmul ⊢
  simp only [Finset.sum_range_succ, Finset.sum_range_zero, zero_add, e0, e1, e2, e3, e4, e5,
    e6, e7, mul_pow] at cert ⊢
  clear hq hnl hr0 hr1 hbl hbu hc1 hc2 step1 horth hF0 hQ hNL hFS
  have q0 : 0 < t ^ 123 := pow_pos ht0 _
  have q1 : 0 < t ^ 1402 := pow_pos ht0 _
  have q2 : 0 < t ^ 3860 := pow_pos ht0 _
  have q3 : 0 < t ^ 375 := pow_pos ht0 _
  have q4 : 0 < t ^ 3046 := pow_pos ht0 _
  have q5 : 0 < t ^ 213 := pow_pos ht0 _
  have q6 : 0 < t ^ 586 := pow_pos ht0 _
  have q7 : 0 < t ^ 100 := pow_pos ht0 _
  generalize t ^ 123 = a0 at cert c0 q0 ⊢
  generalize t ^ 1402 = a1 at cert c1 q1 ⊢
  generalize t ^ 3860 = a2 at cert c2 q2 ⊢
  generalize t ^ 375 = a3 at cert c3 q3 ⊢
  generalize t ^ 3046 = a4 at cert c4 q4 ⊢
  generalize t ^ 213 = a5 at cert c5 q5 ⊢
  generalize t ^ 586 = a6 at cert c6 q6 ⊢
  generalize t ^ 100 = a7 at cert c7 q7 ⊢
  -- some channel of `w` is not zero
  have hw : 0 < a0 ^ 2 * z 0 ^ 2 + a1 ^ 2 * z 1 ^ 2 + a2 ^ 2 * z 2 ^ 2 + a3 ^ 2 * z 3 ^ 2
      + a4 ^ 2 * z 4 ^ 2 + a5 ^ 2 * z 5 ^ 2 + a6 ^ 2 * z 6 ^ 2 + a7 ^ 2 * z 7 ^ 2 := by
    obtain ⟨i, hi, hzi⟩ := hz
    have hzp : 0 < z i ^ 2 := by positivity
    have h0 : 0 ≤ a0 ^ 2 * z 0 ^ 2 := mul_nonneg (sq_nonneg _) (sq_nonneg _)
    have h1 : 0 ≤ a1 ^ 2 * z 1 ^ 2 := mul_nonneg (sq_nonneg _) (sq_nonneg _)
    have h2 : 0 ≤ a2 ^ 2 * z 2 ^ 2 := mul_nonneg (sq_nonneg _) (sq_nonneg _)
    have h3 : 0 ≤ a3 ^ 2 * z 3 ^ 2 := mul_nonneg (sq_nonneg _) (sq_nonneg _)
    have h4 : 0 ≤ a4 ^ 2 * z 4 ^ 2 := mul_nonneg (sq_nonneg _) (sq_nonneg _)
    have h5 : 0 ≤ a5 ^ 2 * z 5 ^ 2 := mul_nonneg (sq_nonneg _) (sq_nonneg _)
    have h6 : 0 ≤ a6 ^ 2 * z 6 ^ 2 := mul_nonneg (sq_nonneg _) (sq_nonneg _)
    have h7 : 0 ≤ a7 ^ 2 * z 7 ^ 2 := mul_nonneg (sq_nonneg _) (sq_nonneg _)
    interval_cases i
    · linarith [mul_pos (pow_pos q0 2) hzp]
    · linarith [mul_pos (pow_pos q1 2) hzp]
    · linarith [mul_pos (pow_pos q2 2) hzp]
    · linarith [mul_pos (pow_pos q3 2) hzp]
    · linarith [mul_pos (pow_pos q4 2) hzp]
    · linarith [mul_pos (pow_pos q5 2) hzp]
    · linarith [mul_pos (pow_pos q6 2) hzp]
    · linarith [mul_pos (pow_pos q7 2) hzp]
  have m0 := mul_le_mul_of_nonneg_right c0 (sq_nonneg (z 0))
  have m1 := mul_le_mul_of_nonneg_right c1 (sq_nonneg (z 1))
  have m2 := mul_le_mul_of_nonneg_right c2 (sq_nonneg (z 2))
  have m3 := mul_le_mul_of_nonneg_right c3 (sq_nonneg (z 3))
  have m4 := mul_le_mul_of_nonneg_right c4 (sq_nonneg (z 4))
  have m5 := mul_le_mul_of_nonneg_right c5 (sq_nonneg (z 5))
  have m6 := mul_le_mul_of_nonneg_right c6 (sq_nonneg (z 6))
  have m7 := mul_le_mul_of_nonneg_right c7 (sq_nonneg (z 7))
  linarith

/-- At `t = 124/125` the loop form is negative at the unit vector of channel 0. -/
theorem Reverb.loop_form_neg :
    (1 - 2 * 0.3 * Real.cos 0.3 * ((124 / 125 : ℝ) ^ 2) ^ 2
        + 0.3 * 0.3 * ((124 / 125 : ℝ) ^ 2) ^ 3)
      - ((0.3 * 0.3 - 2 * 0.3 * Real.cos 0.3 * (124 / 125 : ℝ) ^ 2 + ((124 / 125 : ℝ) ^ 2) ^ 2)
          * (((124 / 125 : ℝ) ^ 2 + ((124 / 125 : ℝ) ^ 2) ^ 2 + ((124 / 125 : ℝ) ^ 2) ^ 3
              + ((124 / 125 : ℝ) ^ 2) ^ 4 + ((124 / 125 : ℝ) ^ 2) ^ 5) / 5))
        * ((124 / 125 : ℝ) ^ (Reverb.fbDelayLags.getD 0 0).toNat
            * (feedbackMatrixValue : Matrix ℝ).coef 0 0
            * (124 / 125 : ℝ) ^ (Reverb.fbDelayLags.getD 0 0).toNat) < 0 := by
  obtain ⟨hc1, hc2⟩ := cos_three_tenths_bounds
  obtain ⟨-, -, -, -, hp⟩ := delay_power_bounds
  have e0 : (Reverb.fbDelayLags.getD 0 0).toNat = 123 := rfl
  rw [e0, feedbackMatrixValue_coef_0_0]
  generalize (124 / 125 : ℝ) ^ 123 = P at hp ⊢
  have hq : 1 - 2 * 0.3 * Real.cos 0.3 * ((124 / 125 : ℝ) ^ 2) ^ 2
      + 0.3 * 0.3 * ((124 / 125 : ℝ) ^ 2) ^ 3 ≤ 0.5313 := by
    norm_num
    linarith
  have hn : (0.4942 : ℝ) ≤ 0.3 * 0.3 - 2 * 0.3 * Real.cos 0.3 * (124 / 125 : ℝ) ^ 2
      + ((124 / 125 : ℝ) ^ 2) ^ 2 := by
    norm_num
    linarith
  have hl : (0.9531 : ℝ) ≤ ((124 / 125 : ℝ) ^ 2 + ((124 / 125 : ℝ) ^ 2) ^ 2
      + ((124 / 125 : ℝ) ^ 2) ^ 3 + ((124 / 125 : ℝ) ^ 2) ^ 4 + ((124 / 125 : ℝ) ^ 2) ^ 5) / 5 := by
    norm_num
  generalize 1 - 2 * 0.3 * Real.cos 0.3 * ((124 / 125 : ℝ) ^ 2) ^ 2
      + 0.3 * 0.3 * ((124 / 125 : ℝ) ^ 2) ^ 3 = Q at hq ⊢
  generalize 0.3 * 0.3 - 2 * 0.3 * Real.cos 0.3 * (124 / 125 : ℝ) ^ 2
      + ((124 / 125 : ℝ) ^ 2) ^ 2 = N at hn ⊢
  generalize ((124 / 125 : ℝ) ^ 2 + ((124 / 125 : ℝ) ^ 2) ^ 2
      + ((124 / 125 : ℝ) ^ 2) ^ 3 + ((124 / 125 : ℝ) ^ 2) ^ 4 + ((124 / 125 : ℝ) ^ 2) ^ 5) / 5
      = l at hl ⊢
  have h1 : 0.4942 * 0.9531 ≤ N * l := mul_le_mul hn hl (by norm_num) (by linarith)
  have h2 : 0.138 * (1988895477 / 200000000 : ℝ) ≤ P * (1988895477 / 200000000) * P := by
    nlinarith
  have h3 : (0.4942 * 0.9531) * (0.138 * (1988895477 / 200000000 : ℝ))
      ≤ (N * l) * (P * (1988895477 / 200000000) * P) :=
    mul_le_mul h1 h2 (by norm_num) (mul_nonneg (by linarith) (by linarith))
  have h4 : (0.5313 : ℝ) < (0.4942 * 0.9531) * (0.138 * (1988895477 / 200000000 : ℝ)) := by
    norm_num
  linarith

/-- The numerator of the allpass does not vanish. -/
theorem allpass_numerator_ne_zero (r : ℝ) (hr : 0 < r) :
    0.3 * 0.3 - 2 * 0.3 * Real.cos 0.3 * r + r ^ 2 ≠ 0 := by
  obtain ⟨hc1, hc2⟩ := cos_three_tenths_bounds
  have h1 : 2 * 0.3 * Real.cos 0.3 * r ≤ 0.5733 * r :=
    mul_le_mul_of_nonneg_right (by linarith) (le_of_lt hr)
  have h2 : 0 < 0.3 * 0.3 - 2 * 0.3 * Real.cos 0.3 * r + r ^ 2 := by
    nlinarith [sq_nonneg (r - 0.3)]
  exact h2.ne'

/-! ### The feedback state is unbounded -/

/-- C11 fails: for a freshly constructed `Reverb` driven by the unit impulse `[1, 0]`
followed only by `[0, 0]` frames, no bound `B` holds for the magnitude of every
component of the feedback state after every call. -/
theorem Reverb.feedback_state_unbounded :
    ¬ ∃ B : ℝ, ∀ n i, i < NCH → |Reverb.mixedAfter Real.cos (impulse 0) n i| ≤ B := by
  rintro ⟨B, hB⟩
  refine loop_system_unsolvable (fun i j => (feedbackMatrixValue : Matrix ℝ).coef i j)
    (fun i j => feedbackMatrixValue_symm i j)
    (fun i => (Reverb.fbDelayLags.getD i 0).toNat) ?_
    (fun i => (Reverb.new Real.cos).distrib.coef i 0) (0.3 * 0.3) (2 * 0.3 * Real.cos 0.3)
    (124 / 125) (by norm_num) ?_ ?_ ?_ ?_
  · intro i hi
    interval_cases i <;> decide
  · intro r hr0 _
    exact allpass_numerator_ne_zero r hr0
  · exact Reverb.loop_form_neg
  · intro t ht0 ht1 z hz horth
    exact Reverb.loop_form_pos t ht0 ht1 z hz horth
  · intro r hr0 hr1
    have hr1' : r < 1 := by
      have : ((124 : ℝ) / 125) ^ 2 < 1 := by norm_num
      linarith
    refine ⟨fun i => tsum (fun n =>
      Reverb.mixedAfter Real.cos (impulse 0) (n + 1) i * r ^ (n + 1)), ?_⟩
    intro i hi
    exact loop_transform (fun i j => (feedbackMatrixValue : Matrix ℝ).coef i j)
      (fun i => (Reverb.fbDelayLags.getD i 0).toNat)
      (fun i => (Reverb.new Real.cos).distrib.coef i 0) (0.3 * 0.3) (2 * 0.3 * Real.cos 0.3)
      (fun n i => Reverb.mixedAfter Real.cos (impulse 0) n i)
      (fun n i => Reverb.networkInputAt Real.cos (impulse 0) n i)
      (fun n i => Reverb.pushedAt Real.cos (impulse 0) n i)
      (fun n i hi => Reverb.mixed_recurrence Real.cos (impulse 0) n i hi)
      (fun n i hi => Reverb.networkInputAt_impulse n i hi)
      (fun n i hi => Reverb.pushedAt_average Real.cos (impulse 0) n i hi)
      r _
      (fun i hi => (summable_of_bounded
        (fun n => Reverb.mixedAfter Real.cos (impulse 0) n i) B (fun n => hB n i hi) r
        (le_of_lt hr0) hr1').hasSum)
      i hi

/-! ### The feedback path, on the state of the feedback delay line -/

/-- The queues of the feedback delay line after one more call: the frame pushed is
appended and the front is popped. -/
theorem Reverb.fbDelayLine_queue_succ {α : Type} [Field α] (cos : α → α) (x : Nat → Frame α)
    (n i : Nat) (hi : i < NCH) :
    (stateAfter Reverb.update (Reverb.new cos) x (n + 1)).fbDelayLine.queues i
      = ((stateAfter Reverb.update (Reverb.new cos) x n).fbDelayLine.queues i
          ++ [Reverb.pushedAt cos x (n + 1) i]).tail := by
  rw [Reverb.stateAfter_fbDelayLine cos x (n + 1), Reverb.stateAfter_fbDelayLine cos x n]
  have hd : i < (stateAfter Delay.update (Reverb.new cos).fbDelayLine
      (Reverb.pushedAt cos x) n).inputDim := by
    rw [Delay.stateAfter_inputDim]
    exact hi
  simp only [stateAfter, Delay.update, hd, if_true]

/-- The queue of channel `i` of the feedback delay line holds as many samples as the
lag of the channel. -/
theorem Reverb.fbDelayLine_queue_length {α : Type} [Field α] (cos : α → α)
    (x : Nat → Frame α) (n i : Nat) (hi : i < NCH) :
    ((stateAfter Reverb.update (Reverb.new cos) x n).fbDelayLine.queues i).length
      = (Reverb.fbDelayLags.getD i 0).toNat := by
  rw [Reverb.stateAfter_fbDelayLine cos x n,
    Delay.stateAfter_queues _ _ n i (show i < (Reverb.new cos).fbDelayLine.inputDim from hi)]
  have h0 : ((Reverb.new cos).fbDelayLine.queues i).length
      = (Reverb.fbDelayLags.getD i 0).toNat := by
    have hi8 : i < 8 := hi
    simp only [Reverb.new, Delay.ofArray, NCH, hi8, if_true, pushZeros_eq, List.nil_append,
      List.length_replicate]
    rfl
  simp only [List.length_drop, List.length_append, List.length_map, List.length_range, h0]
  omega

theorem Reverb.fbDelayLags_pos (i : Nat) (hi : i < NCH) :
    0 < (Reverb.fbDelayLags.getD i 0).toNat := by
  have hi8 : i < 8 := hi
  interval_cases i <;> decide

/-- The sample at the back of a queue after a push and a pop. -/
theorem getLast?_tail_append_singleton {α : Type} (q : List α) (a : α) (hq : 0 < q.length) :
    (q ++ [a]).tail.getLast? = some a := by
  cases q with
  | nil => simp at hq
  | cons b t => simp

/-- C17: the actual feedback path of `Reverb::update`.  In call `n ≥ 1` of a run of a
fresh `Reverb`, the call of `fbDelayLine.update` pushes, on each of the 8 channels, the
5-tap moving average `(m[n-1] + m[n-2] + m[n-3] + m[n-4] + m[n-5]) / 5` of the `mixed`
frames stored by the previous calls (zero before the first call): the queue of the
channel after the call is the queue before the call with that sample appended and the
front removed, and that sample is at the back of the queue. -/
theorem Reverb.update_pushes_moving_average {α : Type} [Field α] [CharZero α] (cos : α → α)
    (x : Nat → Frame α) (n i : Nat) (hn : 1 ≤ n) (hi : i < NCH) :
    (stateAfter Reverb.update (Reverb.new cos) x n).fbDelayLine.queues i
      = ((stateAfter Reverb.update (Reverb.new cos) x (n - 1)).fbDelayLine.queues i
          ++ [(past (fun k => Reverb.mixedAfter cos x k i) n 1
              + past (fun k => Reverb.mixedAfter cos x k i) n 2
              + past (fun k => Reverb.mixedAfter cos x k i) n 3
              + past (fun k => Reverb.mixedAfter cos x k i) n 4
              + past (fun k => Reverb.mixedAfter cos x k i) n 5) / 5]).tail
    ∧ ((stateAfter Reverb.update (Reverb.new cos) x n).fbDelayLine.queues i).getLast?
      = some ((past (fun k => Reverb.mixedAfter cos x k i) n 1
              + past (fun k => Reverb.mixedAfter cos x k i) n 2
              + past (fun k => Reverb.mixedAfter cos x k i) n 3
              + past (fun k => Reverb.mixedAfter cos x k i) n 4
              + past (fun k => Reverb.mixedAfter cos x k i) n 5) / 5) := by
  obtain ⟨m, rfl⟩ : ∃ m, n = m + 1 := ⟨n - 1, by omega⟩
  have h1 := Reverb.fbDelayLine_queue_succ cos x m i hi
  rw [Reverb.pushedAt_average cos x m i hi] at h1
  rw [Nat.add_sub_cancel]
  refine ⟨h1, ?_⟩
  rw [h1]
  apply getLast?_tail_append_singleton
  rw [Reverb.fbDelayLine_queue_length cos x m i hi]
  exact Reverb.fbDelayLags_pos i hi

/-- C17 at a concrete input: the impulse `[1, 0]`, call 102, channel 0: the sample at
the back of the queue is one fifth of the `mixed` sample stored by call 101, the four
older ones being zero. -/
theorem Reverb.update_pushes_moving_average_witness :
    (1 ≤ 102 ∧ 0 < NCH)
    ∧ ((stateAfter Reverb.update (Reverb.new Real.cos) (impulse 0) 102).fbDelayLine.queues
        0).getLast? = some (1169629488513 / 250000000000000) := by
  have h := (Reverb.update_pushes_moving_average Real.cos (impulse 0) 102 0
    (by decide) (by decide)).2
  refine ⟨⟨by decide, by decide⟩, ?_⟩
  have z : ∀ n, n ≤ 100 → Reverb.mixedAfter Real.cos (impulse (α := ℝ) 0) n 0 = 0 := by
    intro n hn
    rw [Reverb.mixedAfter_first_hundred Real.cos _ n hn]
  rw [h]
  simp only [past, Nat.reduceSub, Nat.reduceLT, if_true]
  rw [Reverb.mixedAfter_impulse_101, z 100 (by omega), z 99 (by omega), z 98 (by omega),
    z 97 (by omega)]
  norm_num

/-- C6 as stated fails: the lowpass call rewrites the feedback state before the
feedback delay line reads it.  For the impulse `[1, 0]` the `mixed` frame stored by call
101 has channel 0 equal to `1169629488513 / 50000000000000`, and the sample that call 102
pushes into the feedback delay line, which is at the back of the queue of channel 0
after that call, is one fifth of it. -/
theorem Reverb.pushed_frame_is_not_mixed :
    Reverb.mixedAfter Real.cos (impulse 0) 101 0 = 1169629488513 / 50000000000000
    ∧ ((stateAfter Reverb.update (Reverb.new Real.cos) (impulse 0) 102).fbDelayLine.queues
        0).getLast? = some (1169629488513 / 250000000000000)
    ∧ ((stateAfter Reverb.update (Reverb.new Real.cos) (impulse 0) 102).fbDelayLine.queues
        0).getLast? ≠ some (Reverb.mixedAfter Real.cos (impulse 0) 101 0) := by
  have hm := Reverb.mixedAfter_impulse_101
  have z : ∀ n, n ≤ 100 → Reverb.mixedAfter Real.cos (impulse (α := ℝ) 0) n 0 = 0 := by
    intro n hn
    rw [Reverb.mixedAfter_first_hundred Real.cos _ n hn]
  have hq : ((stateAfter Reverb.update (Reverb.new Real.cos) (impulse 0) 102).fbDelayLine.queues
      0).getLast? = some (1169629488513 / 250000000000000) := by
    have h1 := Reverb.fbDelayLine_queue_succ Real.cos (impulse 0) 101 0 (by decide)
    rw [Reverb.pushedAt_average Real.cos (impulse 0) 101 0 (by decide)] at h1
    rw [h1, getLast?_tail_append_singleton _ _ (by
      rw [Reverb.fbDelayLine_queue_length Real.cos (impulse 0) 101 0 (by decide)]
      decide)]
    simp only [past, Nat.reduceSub, Nat.reduceLT, Nat.reduceAdd, if_true]
    rw [hm, z 100 (by omega), z 99 (by omega), z 98 (by omega), z 97 (by omega)]
    norm_num
  refine ⟨hm, hq, ?_⟩
  rw [hq, hm]
  intro h
  have h2 := Option.some.inj h
  norm_num at h2

/-- C6, amended: `Lowpass::update` writes its result into the feedback array, so the
frame that `fbDelayLine.update` receives in a call is the frame the lowpass returns for
the stored `mixed` frame.  After call `n + 1` of a run of a fresh `Reverb` the feedback
delay line is the delay line of before the call updated with the array that
`delayFilters.update(feedBack)` leaves; the lowpass inside the `Reverb` is in the state
of a fresh 8-channel `Lowpass` run on the sequence of stored `mixed` frames; on each
channel the queue of the feedback delay line is the queue of before the call with the
output of that lowpass appended and the front removed, the output being `0.2` times the
sum of the stored `mixed` sample and the samples returned by the four delay lines of the
lowpass, and it is the sample at the back of the queue; the first call pushes zero. -/
theorem Reverb.update_pushes_lowpass_output {α : Type} [Field α] (cos : α → α)
    (x : Nat → Frame α) (n : Nat) :
    (stateAfter Reverb.update (Reverb.new cos) x (n + 1)).fbDelayLine
        = ((stateAfter Reverb.update (Reverb.new cos) x n).fbDelayLine.update
            ((stateAfter Reverb.update (Reverb.new cos) x n).delayFilters.update
              (stateAfter Reverb.update (Reverb.new cos) x n).feedBack).2).1
    ∧ (stateAfter Reverb.update (Reverb.new cos) x n).delayFilters
        = stateAfter Lowpass.update (Lowpass.new NCH)
            (fun k => Reverb.mixedAfter cos x (k - 1)) n
    ∧ (∀ i, i < NCH →
        (stateAfter Reverb.update (Reverb.new cos) x (n + 1)).fbDelayLine.queues i
          = ((stateAfter Reverb.update (Reverb.new cos) x n).fbDelayLine.queues i
              ++ [callOutput Lowpass.update (Lowpass.new NCH)
                    (fun k => Reverb.mixedAfter cos x (k - 1)) (n + 1) i]).tail
        ∧ callOutput Lowpass.update (Lowpass.new NCH)
              (fun k => Reverb.mixedAfter cos x (k - 1)) (n + 1) i
          = (Reverb.mixedAfter cos x n i
              + callOutput Delay.update (Delay.ofLag NCH 1)
                  (fun k => Reverb.mixedAfter cos x (k - 1)) (n + 1) i
              + callOutput Delay.update (Delay.ofLag NCH 2)
                  (fun k => Reverb.mixedAfter cos x (k - 1)) (n + 1) i
              + callOutput Delay.update (Delay.ofLag NCH 3)
                  (fun k => Reverb.mixedAfter cos x (k - 1)) (n + 1) i
              + callOutput Delay.update (Delay.ofLag NCH 4)
                  (fun k => Reverb.mixedAfter cos x (k - 1)) (n + 1) i) * 0.2
        ∧ ((stateAfter Reverb.update (Reverb.new cos) x (n + 1)).fbDelayLine.queues
              i).getLast?
          = some (callOutput Lowpass.update (Lowpass.new NCH)
              (fun k => Reverb.mixedAfter cos x (k - 1)) (n + 1) i))
    ∧ (∀ i, i < NCH →
        (stateAfter Reverb.update (Reverb.new cos) x 1).fbDelayLine.queues i
          = ((Reverb.new cos).fbDelayLine.queues i ++ [0]).tail) := by
  refine ⟨rfl, Reverb.stateAfter_delayFilters _ x n, ?_, ?_⟩
  · intro i hi
    have h1 := Reverb.fbDelayLine_queue_succ cos x n i hi
    rw [Reverb.pushedAt_succ] at h1
    refine ⟨h1, ?_, ?_⟩
    · rw [Lowpass.callOutput_new NCH _ (n + 1) i hi]
      rfl
    · rw [h1]
      apply getLast?_tail_append_singleton
      rw [Reverb.fbDelayLine_queue_length cos x n i hi]
      exact Reverb.fbDelayLags_pos i hi
  · intro i hi
    have h1 := Reverb.fbDelayLine_queue_succ cos x 0 i hi
    have h2 : Reverb.pushedAt cos x (0 + 1) = (fun _ => 0) := by
      show ((Lowpass.new NCH : Lowpass α).update (fun _ => 0)).2 = _
      rw [Lowpass.update_zero_frame]
    rw [h2] at h1
    exact h1

/-! ### The arithmetic of `float` -/

theorem bitLengthAux_spec (fuel n : Nat) (h : n ≤ fuel) (hn : n ≠ 0) :
    2 ^ (bitLengthAux fuel n - 1) ≤ n ∧ n < 2 ^ bitLengthAux fuel n := by
  induction fuel generalizing n with
  | zero => omega
  | succ fuel ih =>
    rw [bitLengthAux, if_neg hn]
    by_cases h2 : n / 2 = 0
    · have h1 : n = 1 := by omega
      subst h1
      cases fuel with
      | zero => simp [bitLengthAux]
      | succ f => simp [bitLengthAux]
    · have hle : n / 2 ≤ fuel := by omega
      obtain ⟨a, b⟩ := ih (n / 2) hle h2
      have hpos : 1 ≤ bitLengthAux fuel (n / 2) := by
        by_contra hc
        have : bitLengthAux fuel (n / 2) = 0 := by omega
        rw [this] at b
        simp at b
        exact h2 b
      constructor
      · rw [Nat.add_sub_cancel]
        obtain ⟨k, hk⟩ : ∃ k, bitLengthAux fuel (n / 2) = k + 1 := ⟨_, (Nat.sub_add_cancel hpos).symm⟩
        rw [hk] at a ⊢
        rw [Nat.add_sub_cancel] at a
        rw [pow_succ]
        omega
      · rw [pow_succ]
        omega

theorem bitLength_spec (n : Nat) (hn : n ≠ 0) :
    2 ^ (bitLength n - 1) ≤ n ∧ n < 2 ^ bitLength n :=
  bitLengthAux_spec n n (le_refl n) hn

/-- The rounded value is within half a step of the quotient. -/
theorem roundNearestEven_half (prec p d : Nat) (hd : 0 < d) :
    2 * (roundNearestEven prec p d * d) ≤ 2 * p + d * 2 ^ (bitLength (p / d) - prec)
    ∧ 2 * p ≤ 2 * (roundNearestEven prec p d * d) + d * 2 ^ (bitLength (p / d) - prec) := by
  have hD : 0 < d * 2 ^ (bitLength (p / d) - prec) := Nat.mul_pos hd (pow_pos (by norm_num) _)
  have hr : p % (d * 2 ^ (bitLength (p / d) - prec)) < d * 2 ^ (bitLength (p / d) - prec) :=
    Nat.mod_lt _ hD
  have hp : d * 2 ^ (bitLength (p / d) - prec) * (p / (d * 2 ^ (bitLength (p / d) - prec)))
      + p % (d * 2 ^ (bitLength (p / d) - prec)) = p := Nat.div_add_mod _ _
  have hR : roundNearestEven prec p d * d
      = (if d * 2 ^ (bitLength (p / d) - prec) < 2 * (p % (d * 2 ^ (bitLength (p / d) - prec)))
            ∨ (2 * (p % (d * 2 ^ (bitLength (p / d) - prec)))
                  = d * 2 ^ (bitLength (p / d) - prec)
                ∧ p / (d * 2 ^ (bitLength (p / d) - prec)) % 2 = 1)
          then p / (d * 2 ^ (bitLength (p / d) - prec)) + 1
          else p / (d * 2 ^ (bitLength (p / d) - prec)))
        * (d * 2 ^ (bitLength (p / d) - prec)) := by
    unfold roundNearestEven
    simp only []
    ring
  rw [hR]
  generalize d * 2 ^ (bitLength (p / d) - prec) = D at hD hr hp ⊢
  generalize p / D = q at hp ⊢
  generalize p % D = r at hr hp ⊢
  by_cases c : D < 2 * r ∨ (2 * r = D ∧ q % 2 = 1)
  · rw [if_pos c]
    have hc : D ≤ 2 * r := by
      rcases c with c | c
      · omega
      · omega
    have e : (q + 1) * D = D * q + D := by ring
    rw [e]
    omega
  · rw [if_neg c]
    have hc : 2 * r ≤ D := by
      by_contra hcon
      exact c (Or.inl (by omega))
    have e : q * D = D * q := by ring
    rw [e]
    omega

/-- When the quotient has at least `prec` bits, the step is at most the quotient
divided by `2 ^ (prec - 1)`. -/
theorem roundNearestEven_step (prec p d : Nat) (hprec : 1 ≤ prec)
    (hn : 2 ^ (prec - 1) ≤ p / d) :
    d * 2 ^ (bitLength (p / d) - prec) * 2 ^ (prec - 1) ≤ p := by
  have hk : p / d ≠ 0 := by
    have : 0 < 2 ^ (prec - 1) := pow_pos (by norm_num) _
    omega
  obtain ⟨h1, h2⟩ := bitLength_spec (p / d) hk
  have hb : prec ≤ bitLength (p / d) := by
    by_contra hcon
    have h3 : bitLength (p / d) ≤ prec - 1 := by omega
    have h4 : 2 ^ bitLength (p / d) ≤ 2 ^ (prec - 1) := Nat.pow_le_pow_right (by norm_num) h3
    omega
  have he : bitLength (p / d) - prec + (prec - 1) = bitLength (p / d) - 1 := by omega
  calc d * 2 ^ (bitLength (p / d) - prec) * 2 ^ (prec - 1)
      = d * 2 ^ (bitLength (p / d) - 1) := by rw [Nat.mul_assoc, ← pow_add, he]
    _ ≤ d * (p / d) := Nat.mul_le_mul_left d h1
    _ ≤ p := Nat.mul_div_le p d

/-- With quotient below `2 ^ prec` and `d = 1` nothing is dropped. -/
theorem roundNearestEven_exact (prec p : Nat) (h : p < 2 ^ prec) :
    roundNearestEven prec p 1 = p := by
  have hb : bitLength p - prec = 0 := by
    by_cases hp : p = 0
    · subst hp
      simp [bitLength, bitLengthAux]
    · obtain ⟨h1, h2⟩ := bitLength_spec p hp
      by_contra hcon
      have h3 : prec ≤ bitLength p - 1 := by omega
      have h4 : 2 ^ prec ≤ 2 ^ (bitLength p - 1) := Nat.pow_le_pow_right (by norm_num) h3
      omega
  unfold roundNearestEven
  simp only [Nat.div_one, hb, pow_zero, mul_one, Nat.mod_one]
  simp

/-- The rounded value is within `2 ^ (-prec)` of the quotient, relatively, when the
quotient has at least `prec` bits. -/
theorem roundNearestEven_rel (prec p d : Nat) (hprec : 1 ≤ prec) (hd : 0 < d)
    (hn : 2 ^ (prec - 1) ≤ p / d) :
    |((roundNearestEven prec p d : Nat) : ℚ) * d - p| ≤ (p : ℚ) / 2 ^ prec := by
  obtain ⟨h1, h2⟩ := roundNearestEven_half prec p d hd
  have h3 := roundNearestEven_step prec p d hprec hn
  have e : (2 : ℚ) ^ prec = 2 * 2 ^ (prec - 1) := by
    rw [← pow_succ']
    congr 1
    omega
  have q1 : (2 : ℚ) * ((roundNearestEven prec p d : Nat) * d)
      ≤ 2 * p + d * 2 ^ (bitLength (p / d) - prec) := by exact_mod_cast h1
  have q2 : (2 : ℚ) * p
      ≤ 2 * ((roundNearestEven prec p d : Nat) * d) + d * 2 ^ (bitLength (p / d) - prec) := by
    exact_mod_cast h2
  have q3 : (d : ℚ) * 2 ^ (bitLength (p / d) - prec) * 2 ^ (prec - 1) ≤ p := by
    exact_mod_cast h3
  have hpos : (0 : ℚ) < 2 ^ (prec - 1) := by positivity
  have hX : 2 * |((roundNearestEven prec p d : Nat) : ℚ) * d - p|
      ≤ d * 2 ^ (bitLength (p / d) - prec) := by
    have : |((roundNearestEven prec p d : Nat) : ℚ) * d - p|
        ≤ d * 2 ^ (bitLength (p / d) - prec) / 2 := by
      rw [abs_le]
      constructor
      · linarith
      · linarith
    linarith
  rw [le_div_iff₀ (by positivity), e]
  calc |((roundNearestEven prec p d : Nat) : ℚ) * d - p| * (2 * 2 ^ (prec - 1))
      = (2 * |((roundNearestEven prec p d : Nat) : ℚ) * d - p|) * 2 ^ (prec - 1) := by ring
    _ ≤ (d * 2 ^ (bitLength (p / d) - prec)) * 2 ^ (prec - 1) :=
        mul_le_mul_of_nonneg_right hX (le_of_lt hpos)
    _ ≤ p := q3

theorem Binary32.ofScaled_toRat (n : Int) (s : Nat) :
    (Binary32.ofScaled n s).toRat
      = (n.sign : ℚ) * (roundNearestEven 24 n.natAbs (2 ^ s) : Nat) / 2 ^ 149 := by
  unfold Binary32.ofScaled Binary32.toRat
  push_cast
  ring

theorem Binary32.abs_sign_le_one (n : Int) : |((n.sign : Int) : ℚ)| ≤ 1 := by
  rcases lt_trichotomy n 0 with h | h | h
  · rw [Int.sign_eq_neg_one_of_neg h]; simp
  · rw [h]; simp
  · rw [Int.sign_eq_one_of_pos h]; simp

theorem Binary32.cast_eq_sign_mul_natAbs (n : Int) : (n : ℚ) = (n.sign : ℚ) * (n.natAbs : ℚ) := by
  rw [Nat.cast_natAbs, ← Int.cast_mul, Int.sign_mul_abs]

/-- Rounding `n * 2 ^ (-149) / 2 ^ s` to `float` has relative error at most
`2 ^ (-24)`, when `s = 0` or the magnitude is at least `2 ^ (-126)`. -/
theorem Binary32.ofScaled_err (n : Int) (s : Nat)
    (h : s = 0 ∨ 2 ^ 23 ≤ n.natAbs / 2 ^ s) :
    |(Binary32.ofScaled n s).toRat - (n : ℚ) / 2 ^ s / 2 ^ 149|
      ≤ |(n : ℚ) / 2 ^ s / 2 ^ 149| / 2 ^ 24 := by
  rw [Binary32.ofScaled_toRat]
  have hR : |((roundNearestEven 24 n.natAbs (2 ^ s) : Nat) : ℚ) * 2 ^ s - n.natAbs|
      ≤ (n.natAbs : ℚ) / 2 ^ 24 := by
    by_cases hnorm : 2 ^ 23 ≤ n.natAbs / 2 ^ s
    · have h1 := roundNearestEven_rel 24 n.natAbs (2 ^ s) (by norm_num)
        (pow_pos (by norm_num) s) hnorm
      simpa using h1
    · have hs : s = 0 := by
        rcases h with h | h
        · exact h
        · exact absurd h hnorm
      subst hs
      rw [pow_zero, Nat.div_one] at hnorm
      rw [pow_zero, roundNearestEven_exact 24 _ (by omega), pow_zero, mul_one, sub_self, abs_zero]
      positivity
  have hn := Binary32.cast_eq_sign_mul_natAbs n
  have hs := Binary32.abs_sign_le_one n
  have habs : |(n : ℚ)| = (n.natAbs : ℚ) := by
    rw [Nat.cast_natAbs, Int.cast_abs]
  have hp : (0 : ℚ) < 2 ^ s := by positivity
  have e : (n.sign : ℚ) * ((roundNearestEven 24 n.natAbs (2 ^ s) : Nat) : ℚ) / 2 ^ 149
      - (n : ℚ) / 2 ^ s / 2 ^ 149
      = (n.sign : ℚ) * (((roundNearestEven 24 n.natAbs (2 ^ s) : Nat) : ℚ) * 2 ^ s - n.natAbs)
        / 2 ^ s / 2 ^ 149 := by
    rw [hn]
    field_simp
    ring
  rw [e, abs_div, abs_div, abs_div, abs_div, abs_mul, habs,
    abs_of_pos (by positivity : (0 : ℚ) < 2 ^ 149), abs_of_pos hp]
  have h1 : |((n.sign : Int) : ℚ)| * |((roundNearestEven 24 n.natAbs (2 ^ s) : Nat) : ℚ) * 2 ^ s
      - n.natAbs| ≤ 1 * ((n.natAbs : ℚ) / 2 ^ 24) :=
    mul_le_mul hs hR (abs_nonneg _) (by norm_num)
  rw [div_le_iff₀ (by positivity), div_le_iff₀ hp]
  calc |((n.sign : Int) : ℚ)| * |((roundNearestEven 24 n.natAbs (2 ^ s) : Nat) : ℚ) * 2 ^ s
        - n.natAbs|
      ≤ 1 * ((n.natAbs : ℚ) / 2 ^ 24) := h1
    _ = (n.natAbs : ℚ) / 2 ^ s / 2 ^ 149 / 2 ^ 24 * 2 ^ 149 * 2 ^ s := by
        field_simp
        ring

/-- The sum of two `float`s is the exact sum up to a relative error of `2 ^ (-24)`. -/
theorem Binary32.add_err (a b : Binary32) :
    |(a + b).toRat - (a.toRat + b.toRat)| ≤ |a.toRat + b.toRat| / 2 ^ 24 := by
  have hsum : a.toRat + b.toRat = ((a.units + b.units : Int) : ℚ) / 2 ^ 0 / 2 ^ 149 := by
    unfold Binary32.toRat
    push_cast
    ring
  have hdef : a + b = Binary32.ofScaled (a.units + b.units) 0 := rfl
  rw [hdef, hsum]
  exact Binary32.ofScaled_err _ 0 (Or.inl rfl)

/-- The product of two `float`s is the exact product up to a relative error of
`2 ^ (-24)`, when the exact product has magnitude at least `2 ^ (-126)`. -/
theorem Binary32.mul_err (a b : Binary32) (h : 1 / 2 ^ 126 ≤ |a.toRat * b.toRat|) :
    |(a * b).toRat - a.toRat * b.toRat| ≤ |a.toRat * b.toRat| / 2 ^ 24 := by
  have hprod : a.toRat * b.toRat = ((a.units * b.units : Int) : ℚ) / 2 ^ 149 / 2 ^ 149 := by
    unfold Binary32.toRat
    push_cast
    ring
  have hdef : a * b = Binary32.ofScaled (a.units * b.units) 149 := rfl
  rw [hprod] at h ⊢
  rw [hdef]
  apply Binary32.ofScaled_err _ 149
  right
  generalize a.units * b.units = n at h ⊢
  have habs : |(n : ℚ)| = (n.natAbs : ℚ) := by
    rw [Nat.cast_natAbs, Int.cast_abs]
  rw [abs_div, abs_div, habs, abs_of_pos (by positivity : (0 : ℚ) < 2 ^ 149)] at h
  rw [Nat.le_div_iff_mul_le (pow_pos (by norm_num) 149)]
  have h2 : (2 : ℚ) ^ 23 * 2 ^ 149 ≤ (n.natAbs : ℚ) := by
    rw [le_div_iff₀ (by positivity), le_div_iff₀ (by positivity)] at h
    have e : (2 : ℚ) ^ 23 * 2 ^ 149 = 1 / 2 ^ 126 * 2 ^ 149 * 2 ^ 149 := by norm_num
    rw [e]
    exact h
  exact_mod_cast h2

theorem Binary32.fifth_units : (0.2 : Binary32) = ⟨13421773 * 2 ^ 123⟩ := by decide!

theorem Binary32.fifth_toRat : (0.2 : Binary32).toRat = 13421773 / 2 ^ 26 := by
  rw [Binary32.fifth_units]
  unfold Binary32.toRat
  norm_num

/-- One more addition of `v` to a rounded multiple of `v`. -/
theorem Binary32.add_step (s v : Binary32) (k E : ℚ) (hk : 0 ≤ k)
    (hs : |s.toRat - k * v.toRat| ≤ E * |v.toRat|) :
    |(s + v).toRat - (k + 1) * v.toRat|
      ≤ (E + (k + 1 + E) / 2 ^ 24) * |v.toRat| := by
  have h1 := Binary32.add_err s v
  have h2 : |s.toRat + v.toRat| ≤ (k + 1 + E) * |v.toRat| := by
    have e : s.toRat + v.toRat = (s.toRat - k * v.toRat) + (k + 1) * v.toRat := by ring
    rw [e]
    calc |(s.toRat - k * v.toRat) + (k + 1) * v.toRat|
        ≤ |s.toRat - k * v.toRat| + |(k + 1) * v.toRat| := abs_add _ _
      _ ≤ E * |v.toRat| + (k + 1) * |v.toRat| := by
          rw [abs_mul, abs_of_nonneg (by linarith : (0 : ℚ) ≤ k + 1)]
          linarith
      _ = (k + 1 + E) * |v.toRat| := by ring
  have e : (s + v).toRat - (k + 1) * v.toRat
      = ((s + v).toRat - (s.toRat + v.toRat)) + (s.toRat - k * v.toRat) := by ring
  rw [e]
  calc |((s + v).toRat - (s.toRat + v.toRat)) + (s.toRat - k * v.toRat)|
      ≤ |(s + v).toRat - (s.toRat + v.toRat)| + |s.toRat - k * v.toRat| := abs_add _ _
    _ ≤ |s.toRat + v.toRat| / 2 ^ 24 + E * |v.toRat| := add_le_add h1 hs
    _ ≤ (k + 1 + E) * |v.toRat| / 2 ^ 24 + E * |v.toRat| := by
        have := div_le_div_of_nonneg_right h2 (by positivity : (0 : ℚ) ≤ 2 ^ 24)
        linarith
    _ = (E + (k + 1 + E) / 2 ^ 24) * |v.toRat| := by ring

/-- The value `Lowpass::update` computes from five equal samples `v` is within
`5 * 2 ^ (-24) * |v|` of `v`. -/
theorem Binary32.average_of_constant (v : Binary32) (hv : 1 / 2 ^ 100 ≤ |v.toRat|) :
    |((v + v + v + v + v) * 0.2).toRat - v.toRat| ≤ 5 / 2 ^ 24 * |v.toRat| := by
  have hv0 : 0 ≤ |v.toRat| := abs_nonneg _
  have h0 : |v.toRat - 1 * v.toRat| ≤ 0 * |v.toRat| := by simp
  have h1 := Binary32.add_step v v 1 0 (by norm_num) h0
  have h2 := Binary32.add_step (v + v) v (1 + 1) _ (by norm_num) h1
  have h3 := Binary32.add_step (v + v + v) v (1 + 1 + 1) _ (by norm_num) h2
  have h4 := Binary32.add_step (v + v + v + v) v (1 + 1 + 1 + 1) _ (by norm_num) h3
  norm_num at h4
  generalize v + v + v + v + v = s at h4 ⊢
  -- the sum is close to `5 v`
  have hs_lo : 4 * |v.toRat| ≤ |s.toRat| := by
    have e : s.toRat = 5 * v.toRat + (s.toRat - 5 * v.toRat) := by ring
    have h5 : |5 * v.toRat| - |s.toRat - 5 * v.toRat| ≤ |s.toRat| := by
      have := abs_sub_abs_le_abs_sub (5 * v.toRat) (-(s.toRat - 5 * v.toRat))
      rw [abs_neg] at this
      have e2 : 5 * v.toRat - -(s.toRat - 5 * v.toRat) = s.toRat := by ring
      rw [e2] at this
      exact this
    rw [abs_mul, abs_of_pos (by norm_num : (0 : ℚ) < 5)] at h5
    linarith
  have hs_hi : |s.toRat| ≤ 6 * |v.toRat| := by
    have e : s.toRat = (s.toRat - 5 * v.toRat) + 5 * v.toRat := by ring
    rw [e]
    calc |(s.toRat - 5 * v.toRat) + 5 * v.toRat|
        ≤ |s.toRat - 5 * v.toRat| + |5 * v.toRat| := abs_add _ _
      _ ≤ 6 * |v.toRat| := by
          rw [abs_mul, abs_of_pos (by norm_num : (0 : ℚ) < 5)]
          linarith
  have hc := Binary32.fifth_toRat
  have hnorm : 1 / 2 ^ 126 ≤ |s.toRat * (0.2 : Binary32).toRat| := by
    rw [abs_mul, hc, abs_of_pos (by norm_num : (0 : ℚ) < 13421773 / 2 ^ 26)]
    have : (1 : ℚ) / 2 ^ 126 ≤ 4 * (1 / 2 ^ 100) * (13421773 / 2 ^ 26) := by norm_num
    nlinarith
  have hm := Binary32.mul_err s 0.2 hnorm
  rw [hc] at hm
  have e : (s * 0.2).toRat - v.toRat
      = ((s * 0.2).toRat - s.toRat * (13421773 / 2 ^ 26))
        + (s.toRat - 5 * v.toRat) * (13421773 / 2 ^ 26)
        + v.toRat * (5 * (13421773 / 2 ^ 26) - 1) := by ring
  rw [e]
  have t1 : |s.toRat * (13421773 / 2 ^ 26 : ℚ)| ≤ 6 * |v.toRat| * (13421773 / 2 ^ 26) := by
    rw [abs_mul, abs_of_pos (by norm_num : (0 : ℚ) < 13421773 / 2 ^ 26)]
    exact mul_le_mul_of_nonneg_right hs_hi (by norm_num)
  have t2 : |(s.toRat - 5 * v.toRat) * (13421773 / 2 ^ 26 : ℚ)|
      = |s.toRat - 5 * v.toRat| * (13421773 / 2 ^ 26) := by
    rw [abs_mul, abs_of_pos (by norm_num : (0 : ℚ) < 13421773 / 2 ^ 26)]
  have t3 : |v.toRat * (5 * (13421773 / 2 ^ 26 : ℚ) - 1)| = |v.toRat| * (1 / 2 ^ 26) := by
    rw [abs_mul]
    congr 1
    norm_num
  calc |((s * 0.2).toRat - s.toRat * (13421773 / 2 ^ 26))
          + (s.toRat - 5 * v.toRat) * (13421773 / 2 ^ 26)
          + v.toRat * (5 * (13421773 / 2 ^ 26) - 1)|
      ≤ |((s * 0.2).toRat - s.toRat * (13421773 / 2 ^ 26))
          + (s.toRat - 5 * v.toRat) * (13421773 / 2 ^ 26)|
        + |v.toRat * (5 * (13421773 / 2 ^ 26) - 1)| := abs_add _ _
    _ ≤ |(s * 0.2).toRat - s.toRat * (13421773 / 2 ^ 26)|
        + |(s.toRat - 5 * v.toRat) * (13421773 / 2 ^ 26)|
        + |v.toRat * (5 * (13421773 / 2 ^ 26) - 1)| := by
        have := abs_add ((s * 0.2).toRat - s.toRat * (13421773 / 2 ^ 26))
          ((s.toRat - 5 * v.toRat) * (13421773 / 2 ^ 26))
        linarith
    _ ≤ 5 / 2 ^ 24 * |v.toRat| := by
        rw [t2, t3]
        have a1 : |(s * 0.2).toRat - s.toRat * (13421773 / 2 ^ 26)|
            ≤ 6 * |v.toRat| * (13421773 / 2 ^ 26) / 2 ^ 24 := by
          have := div_le_div_of_nonneg_right t1 (by positivity : (0 : ℚ) ≤ 2 ^ 24)
          linarith
        have a2 : |s.toRat - 5 * v.toRat| * (13421773 / 2 ^ 26 : ℚ)
            ≤ _ * (13421773 / 2 ^ 26 : ℚ) :=
          mul_le_mul_of_nonneg_right h4 (by norm_num)
        nlinarith

/-! ### The lowpass in the arithmetic of `float` -/

/-- The `float` constant `123.456`. -/
theorem Binary32.sample_units : (123.456 : Binary32) = ⟨16181625 * 2 ^ 132⟩ := by decide!

theorem Binary32.sample_toRat : (123.456 : Binary32).toRat = 16181625 / 2 ^ 17 := by
  rw [Binary32.sample_units]
  unfold Binary32.toRat
  norm_num

/-- The output of a `Lowpass` once channel `i` has received the same sample `v` on five
consecutive calls, for any sample type. -/
theorem Lowpass.callOutput_constant {α : Type} [Zero α] [Add α] [Mul α] [OfScientific α]
    (dim : Nat) (x : Nat → Frame α) (v : α) (n0 n i : Nat) (hi : i < dim) (h0 : 1 ≤ n0)
    (hn : n0 + 4 ≤ n) (hconst : ∀ k, n0 ≤ k → k ≤ n → x k i = v) :
    callOutput Lowpass.update (Lowpass.new dim) x n i = (v + v + v + v + v) * 0.2 := by
  rw [Lowpass.callOutput_new dim x n i hi]
  have h1 := Delay.callOutput_ofLag_past dim 1 x n i (by omega) hi
  have h2 := Delay.callOutput_ofLag_past dim 2 x n i (by omega) hi
  have h3 := Delay.callOutput_ofLag_past dim 3 x n i (by omega) hi
  have h4 := Delay.callOutput_ofLag_past dim 4 x n i (by omega) hi
  simp only [Nat.cast_ofNat, Nat.cast_one] at h1 h2 h3 h4
  rw [h1, h2, h3, h4]
  have p : ∀ j, j ≤ 4 → past (fun k => x k i) n j = v := by
    intro j hj
    unfold past
    rw [if_pos (by omega)]
    exact hconst (n - j) (by omega) (by omega)
  rw [p 1 (by omega), p 2 (by omega), p 3 (by omega), p 4 (by omega),
    hconst n (by omega) (le_refl n)]

/-- C12 as stated fails in the arithmetic of `float`.  A fresh one-channel `Lowpass` fed
the constant `123.456f`, which is `16181625 * 2 ^ (-17)`, returns
`16181626 * 2 ^ (-17)`, the next `float` above, on call 5 and on every later call. -/
theorem Lowpass.dc_gain_not_exact :
    (123.456 : Binary32) = ⟨16181625 * 2 ^ 132⟩
    ∧ callOutput Lowpass.update (Lowpass.new 1 : Lowpass Binary32) (fun _ _ => 123.456) 5 0
        = ⟨16181626 * 2 ^ 132⟩
    ∧ callOutput Lowpass.update (Lowpass.new 1 : Lowpass Binary32) (fun _ _ => 123.456) 5 0
        ≠ 123.456
    ∧ (∀ n, 5 ≤ n →
        callOutput Lowpass.update (Lowpass.new 1 : Lowpass Binary32) (fun _ _ => 123.456) n 0
          ≠ 123.456) := by
  have e : ((123.456 : Binary32) + 123.456 + 123.456 + 123.456 + 123.456) * 0.2
      = ⟨16181626 * 2 ^ 132⟩ := by decide!
  have hne : (⟨16181626 * 2 ^ 132⟩ : Binary32) ≠ 123.456 := by decide!
  have h : ∀ n, 5 ≤ n →
      callOutput Lowpass.update (Lowpass.new 1 : Lowpass Binary32) (fun _ _ => 123.456) n 0
        = ⟨16181626 * 2 ^ 132⟩ := by
    intro n hn
    rw [Lowpass.callOutput_constant 1 (fun _ _ => 123.456) 123.456 1 n 0 (by decide)
      (le_refl 1) (by omega) (fun _ _ _ => rfl), e]
  refine ⟨Binary32.sample_units, h 5 (le_refl 5), ?_, ?_⟩
  · rw [h 5 (le_refl 5)]
    exact hne
  · intro n hn
    rw [h n hn]
    exact hne

/-- The partial sums of five equal samples `v` stay within `6 |v|`. -/
theorem Binary32.partial_sums_bound (v : Binary32) :
    |(v + v).toRat| ≤ 6 * |v.toRat| ∧ |(v + v + v).toRat| ≤ 6 * |v.toRat|
    ∧ |(v + v + v + v).toRat| ≤ 6 * |v.toRat|
    ∧ |(v + v + v + v + v).toRat| ≤ 6 * |v.toRat| := by
  have hv0 : 0 ≤ |v.toRat| := abs_nonneg _
  have h0 : |v.toRat - 1 * v.toRat| ≤ 0 * |v.toRat| := by simp
  have h1 := Binary32.add_step v v 1 0 (by norm_num) h0
  have h2 := Binary32.add_step (v + v) v (1 + 1) _ (by norm_num) h1
  have h3 := Binary32.add_step (v + v + v) v (1 + 1 + 1) _ (by norm_num) h2
  have h4 := Binary32.add_step (v + v + v + v) v (1 + 1 + 1 + 1) _ (by norm_num) h3
  have key : ∀ (s : Binary32) (k E : ℚ), 0 ≤ k → k + E ≤ 6 →
      |s.toRat - k * v.toRat| ≤ E * |v.toRat| → |s.toRat| ≤ 6 * |v.toRat| := by
    intro s k E hk hkE hs
    have e : s.toRat = (s.toRat - k * v.toRat) + k * v.toRat := by ring
    rw [e]
    calc |(s.toRat - k * v.toRat) + k * v.toRat|
        ≤ |s.toRat - k * v.toRat| + |k * v.toRat| := abs_add _ _
      _ ≤ E * |v.toRat| + k * |v.toRat| := by
          rw [abs_mul, abs_of_nonneg hk]
          linarith
      _ ≤ 6 * |v.toRat| := by nlinarith
  exact ⟨key _ _ _ (by norm_num) (by norm_num) h1, key _ _ _ (by norm_num) (by norm_num) h2,
    key _ _ _ (by norm_num) (by norm_num) h3, key _ _ _ (by norm_num) (by norm_num) h4⟩

/-- C12, amended: the lowpass has DC gain 1 up to the rounding of `float`.  On a fresh
`Lowpass`, after any prior inputs, if channel `i` receives the same value `v` on the
calls `n0, …, n` with `n ≥ n0 + 4` (five or more consecutive calls), then call `n`
returns on channel `i` the rounded product by the `float` constant `0.2` of the rounded
sum `v + v + v + v + v`.  For `2 ^ (-100) ≤ |v| ≤ 2 ^ 100` it is within
`5 * 2 ^ (-24) * |v|` of `v`, and every partial sum and the result stay below
`2 ^ 128`, the range of the finite `float`s.  In exact arithmetic (any field of
characteristic zero) the call returns exactly `v`. -/
theorem Lowpass.update_dc_gain_rounded (dim : Nat) (x : Nat → Frame Binary32) (v : Binary32)
    (n0 n i : Nat) (hi : i < dim) (h0 : 1 ≤ n0) (hn : n0 + 4 ≤ n)
    (hconst : ∀ k, n0 ≤ k → k ≤ n → x k i = v)
    (hlo : 1 / 2 ^ 100 ≤ |v.toRat|) (hhi : |v.toRat| ≤ 2 ^ 100) :
    callOutput Lowpass.update (Lowpass.new dim) x n i = (v + v + v + v + v) * 0.2
    ∧ |(callOutput Lowpass.update (Lowpass.new dim) x n i).toRat - v.toRat|
        ≤ 5 / 2 ^ 24 * |v.toRat|
    ∧ (|(v + v).toRat| < 2 ^ 128 ∧ |(v + v + v).toRat| < 2 ^ 128
        ∧ |(v + v + v + v).toRat| < 2 ^ 128 ∧ |(v + v + v + v + v).toRat| < 2 ^ 128
        ∧ |(callOutput Lowpass.update (Lowpass.new dim) x n i).toRat| < 2 ^ 128)
    ∧ (∀ (α : Type) [Field α] [CharZero α] (y : Nat → Frame α) (w : α),
        (∀ k, n0 ≤ k → k ≤ n → y k i = w) →
        callOutput Lowpass.update (Lowpass.new dim) y n i = w) := by
  have hout := Lowpass.callOutput_constant dim x v n0 n i hi h0 hn hconst
  have herr := Binary32.average_of_constant v hlo
  obtain ⟨b1, b2, b3, b4⟩ := Binary32.partial_sums_bound v
  have hbig : (6 : ℚ) * 2 ^ 100 < 2 ^ 128 := by norm_num
  refine ⟨hout, ?_, ⟨by linarith, by linarith, by linarith, by linarith, ?_⟩, ?_⟩
  · rw [hout]
    exact herr
  · rw [hout]
    have e : ((v + v + v + v + v) * 0.2).toRat
        = (((v + v + v + v + v) * 0.2).toRat - v.toRat) + v.toRat := by ring
    rw [e]
    have := abs_add (((v + v + v + v + v) * 0.2).toRat - v.toRat) v.toRat
    have h5 : (5 : ℚ) / 2 ^ 24 * |v.toRat| ≤ |v.toRat| := by
      have : (5 : ℚ) / 2 ^ 24 ≤ 1 := by norm_num
      nlinarith [abs_nonneg v.toRat]
    linarith
  · intro α _ _ y w hy
    exact Lowpass.update_dc_gain dim y w n0 n i hi h0 hn hy

/-- C12 at a concrete input: one channel, the constant `123.456f`, call 5. -/
theorem Lowpass.update_dc_gain_rounded_witness :
    (0 < 1 ∧ 1 ≤ 1 ∧ 1 + 4 ≤ 5
      ∧ (∀ k, 1 ≤ k → k ≤ 5 → (fun (_ : Nat) (_ : Nat) => (123.456 : Binary32)) k 0 = 123.456)
      ∧ 1 / 2 ^ 100 ≤ |(123.456 : Binary32).toRat| ∧ |(123.456 : Binary32).toRat| ≤ 2 ^ 100)
    ∧ |(callOutput Lowpass.update (Lowpass.new 1) (fun _ _ => (123.456 : Binary32)) 5 0).toRat
          - (123.456 : Binary32).toRat| ≤ 5 / 2 ^ 24 * |(123.456 : Binary32).toRat| := by
  have hlo : 1 / 2 ^ 100 ≤ |(123.456 : Binary32).toRat| := by
    rw [Binary32.sample_toRat, abs_of_pos (by norm_num)]
    norm_num
  have hhi : |(123.456 : Binary32).toRat| ≤ 2 ^ 100 := by
    rw [Binary32.sample_toRat, abs_of_pos (by norm_num)]
    norm_num
  exact ⟨⟨by decide, by decide, by decide, fun _ _ _ => rfl, hlo, hhi⟩,
    (Lowpass.update_dc_gain_rounded 1 (fun _ _ => 123.456) 123.456 1 5 0 (by decide)
      (by decide) (by decide) (fun _ _ _ => rfl) hlo hhi).2.1⟩

end IIR
